import Mathlib

/-!
# Verification of the ClickHouse expression-actions core (`ExpressionActions.h`)

This file shallowly embeds the data model and operations of `ActionsDAG`,
`ExpressionActions` and `ExpressionActionsChain` from
`src/Interpreters/ExpressionActions.h` and proves properties of them.

Methods whose bodies appear inline in the header (the `Index` operations,
`ExpressionActionsStep::finalize`, the chain accessors) are translated
directly from the source.  Methods that are only declared in the header
(their definitions live in a `.cpp` file that is not part of the snippet)
are modelled from the specification; each such definition carries a
doc comment starting with `Modelled from the spec:`.
-/

namespace DB

/-- `ActionsDAG::ActionType` from the source. -/
inductive ActionType
  | input
  | column
  | aliasNode
  | arrayJoin
  | function
deriving DecidableEq

/-- Data types of columns.  The source uses `DataTypePtr`; for the claims we
only need scalars and array types (`DataTypeArray`). -/
inductive DType
  | tInt
  | tArr (elem : DType)
deriving DecidableEq

/-- Runtime values held by columns. -/
inductive Val
  | vInt (n : Int)
  | vArr (xs : List Val)

/-- Concrete scalar functions usable at FUNCTION nodes.  The source consumes
an abstract function catalog (`IExecutableFunction`); the claims only need
some row-wise (elementwise) functions, which is what the catalog provides
for ordinary scalar functions. -/
inductive FuncKind
  | fPlus
  | fMul
  | fNeg
deriving DecidableEq

/-- Semantics of one scalar function applied to one row of argument values. -/
def applyFun : FuncKind → List Val → Val
  | .fPlus, [.vInt a, .vInt b] => .vInt (a + b)
  | .fMul, [.vInt a, .vInt b] => .vInt (a * b)
  | .fNeg, [.vInt a] => .vInt (-a)
  | _, _ => .vInt 0

/-- The fields of `ActionsDAG::Node` that the Index can observe through a
`Node *`: the arena identity of the node and its `result_name`. -/
structure NodePtr where
  id : Nat
  result_name : String
deriving DecidableEq

/-- `ActionsDAG::Index`: a list of node pointers plus a map
`result_name → list iterator`.  C++ `std::list` iterators are stable, so a
list cell is modelled as a pair `(cell id, content)`; the map stores cell
ids.  `nextId` supplies fresh cell ids. -/
structure Index where
  nextId : Nat
  cells : List (Nat × NodePtr)
  map : List (String × Nat)
deriving DecidableEq

/-- Replace the binding of `k` in an association list (or append it),
modelling `map[k] = v` on `std::unordered_map`. -/
def setAssoc (m : List (String × Nat)) (k : String) (v : Nat) : List (String × Nat) :=
  match m with
  | [] => [(k, v)]
  | (k0, v0) :: rest => if k0 = k then (k, v) :: rest else (k0, v0) :: setAssoc rest k v

namespace Index

/-- `Index::size`. -/
def size (idx : Index) : Nat := idx.cells.length

/-- `Index::contains`: `map.count(key) != 0`. -/
def contains (idx : Index) (key : String) : Bool :=
  (idx.map.lookup key).isSome

/-- `Index::find`: look up the map, then dereference the stored list
iterator; `none` models the `list.end()` result. -/
def find (idx : Index) (key : String) : Option NodePtr :=
  (idx.map.lookup key).bind fun cid => idx.cells.lookup cid

/-- `Index::insert`: `map[node->result_name] = list.emplace(list.end(), node)`.
Appends a new list cell and points the map at it, without checking for an
existing node with the same name. -/
def insert (idx : Index) (node : NodePtr) : Index :=
  { nextId := idx.nextId + 1
    cells := idx.cells ++ [(idx.nextId, node)]
    map := setAssoc idx.map node.result_name idx.nextId }

/-- `Index::replace`: if the map has the name, re-point the existing list
cell at the new node (`*handle.mapped() = node`) keeping the map entry;
otherwise insert. -/
def replace (idx : Index) (node : NodePtr) : Index :=
  match idx.map.lookup node.result_name with
  | some cid =>
      { idx with cells := idx.cells.map fun c => if c.1 = cid then (cid, node) else c }
  | none => idx.insert node

/-- `Index::remove`, translated with the source's test as written:

```
auto it = map.find(node->result_name);
if (it != map.end())
    return;
list.erase(it->second);
map.erase(it);
```

When the name is present the function returns early and removes nothing;
when it is absent the fall-through dereferences `map.end()`, which is
undefined behaviour (modelled as `none`). -/
def remove (idx : Index) (node : NodePtr) : Option Index :=
  if (idx.map.lookup node.result_name).isSome then
    some idx
  else
    none

/-- Well-formedness of an `Index`: all cell ids are below `nextId` (so fresh
ids really are fresh) and cell ids are pairwise distinct. -/
def WF (idx : Index) : Prop :=
  (∀ c ∈ idx.cells, c.1 < idx.nextId) ∧ (idx.cells.map Prod.fst).Nodup

instance (idx : Index) : Decidable idx.WF := by
  unfold WF; infer_instance

end Index

theorem lookup_append_not_mem {β : Type} (k : Nat) (l l' : List (Nat × β))
    (h : ∀ p ∈ l, p.1 ≠ k) : List.lookup k (l ++ l') = List.lookup k l' := by
  induction l with
  | nil => rfl
  | cons p rest ih =>
      have hne : p.1 ≠ k := h p (List.mem_cons_self p rest)
      have hb : (k == p.1) = false := beq_eq_false_iff_ne.mpr fun he => hne he.symm
      simp [List.lookup, hb]
      exact ih fun q hq => h q (List.mem_cons_of_mem p hq)

theorem lookup_setAssoc_self (m : List (String × Nat)) (k : String) (v : Nat) :
    List.lookup k (setAssoc m k v) = some v := by
  induction m with
  | nil => simp [setAssoc, List.lookup]
  | cons p rest ih =>
      by_cases h : p.1 = k
      · simp [setAssoc, h, List.lookup]
      · have hb : (k == p.1) = false := beq_eq_false_iff_ne.mpr fun he => h he.symm
        simp [setAssoc, h, List.lookup, hb, ih]

theorem lookup_setAssoc_ne (m : List (String × Nat)) (k k' : String) (v : Nat)
    (h : k' ≠ k) : List.lookup k' (setAssoc m k v) = List.lookup k' m := by
  induction m with
  | nil => simp [setAssoc, List.lookup, beq_eq_false_iff_ne.mpr h]
  | cons p rest ih =>
      by_cases hp : p.1 = k
      · have hb : (k' == p.1) = false :=
          beq_eq_false_iff_ne.mpr (by rw [hp]; exact h)
        simp [setAssoc, hp, List.lookup, hb, beq_eq_false_iff_ne.mpr h]
      · by_cases hk : (k' == p.1) = true
        · simp [setAssoc, hp, List.lookup, hk]
        · have hbf : (k' == p.1) = false := by simpa using hk
          simp [setAssoc, hp, List.lookup, hbf, ih]

/-- After `insert n`, the map resolves `n.result_name` to the new cell. -/
theorem Index.find_insert (idx : Index) (n : NodePtr) (h : idx.WF) :
    (idx.insert n).find n.result_name = some n := by
  unfold Index.find Index.insert
  rw [lookup_setAssoc_self]
  show List.lookup idx.nextId (idx.cells ++ [(idx.nextId, n)]) = some n
  rw [lookup_append_not_mem _ _ _ fun p hp => Nat.ne_of_lt (h.1 p hp)]
  simp [List.lookup]

/-- Looking up `cid` after re-pointing the cell `cid` at `p` yields `p`,
provided a cell with id `cid` exists. -/
theorem lookup_map_subst {β : Type} (l : List (Nat × β)) (cid : Nat) (p : β)
    (h : (l.lookup cid).isSome) :
    (l.map fun c => if c.1 = cid then (cid, p) else c).lookup cid = some p := by
  induction l with
  | nil => simp [List.lookup] at h
  | cons c rest ih =>
      simp only [List.map_cons]
      by_cases hc : c.1 = cid
      · rw [if_pos hc]
        simp [List.lookup]
      · rw [if_neg hc]
        have hb : (cid == c.1) = false := beq_eq_false_iff_ne.mpr fun he => hc he.symm
        simp only [List.lookup, hb] at h ⊢
        exact ih h

theorem mem_of_lookup_eq_some {α β : Type} [BEq α] [LawfulBEq α] {k : α} {v : β}
    {l : List (α × β)} (h : l.lookup k = some v) : (k, v) ∈ l := by
  induction l with
  | nil => simp [List.lookup] at h
  | cons c rest ih =>
      obtain ⟨c1, c2⟩ := c
      by_cases hk : k == c1
      · simp only [List.lookup, hk] at h
        injection h with h2
        subst h2
        have hke : k = c1 := eq_of_beq hk
        subst hke
        exact List.mem_cons_self _ _
      · have hkf : (k == c1) = false := by simpa using hk
        simp only [List.lookup, hkf] at h
        exact List.mem_cons_of_mem _ (ih h)

/-- Build errors (spec §7). -/
inductive BuildErr
  | unknownIdentifier
  | typeMismatch
  | duplicateInput
  | logicalError
deriving DecidableEq

/-- `ActionsDAG::Node` from the source.  `func` is meaningful for FUNCTION
nodes and `value` for COLUMN (constant) nodes. -/
structure Node where
  children : List Nat
  type : ActionType
  result_name : String
  result_type : DType
  func : FuncKind
  value : Val

/-- `ActionsDAG::ActionsSettings` from the source. -/
structure ActionsSettings where
  max_temporary_columns : Nat := 0
  max_temporary_non_const_columns : Nat := 0
  min_count_to_compile_expression : Nat := 0
  compile_expressions : Bool := false
  project_input : Bool := false
  projected_output : Bool := false
deriving DecidableEq

/-- `ActionsDAG`: the node arena (pairs of node id and node, ids strictly
increasing so children always have smaller ids), the Index, and settings.
The spec's design notes (§9) describe exactly this arena-plus-`NodeId`
representation for the source's pointer arena. -/
structure Dag where
  nodes : List (Nat × Node)
  nextNode : Nat
  index : Index
  settings : ActionsSettings

def mkInput (name : String) (ty : DType) : Node :=
  { children := [], type := .input, result_name := name, result_type := ty
    func := .fPlus, value := .vInt 0 }

def mkColumn (name : String) (ty : DType) (v : Val) : Node :=
  { children := [], type := .column, result_name := name, result_type := ty
    func := .fPlus, value := v }

def mkAlias (name : String) (ty : DType) (child : Nat) : Node :=
  { children := [child], type := .aliasNode, result_name := name, result_type := ty
    func := .fPlus, value := .vInt 0 }

def mkArrayJoin (name : String) (ty : DType) (child : Nat) : Node :=
  { children := [child], type := .arrayJoin, result_name := name, result_type := ty
    func := .fPlus, value := .vInt 0 }

def mkFunction (name : String) (ty : DType) (f : FuncKind) (cs : List Nat) : Node :=
  { children := cs, type := .function, result_name := name, result_type := ty
    func := f, value := .vInt 0 }

/-- Modelled from the spec: `ActionsDAG::addAlias(source_name, alias,
can_replace)`; its body lives in the `.cpp` file absent from the snippet.
Spec §4.1: look up `source_name` in the Index (error *UnknownIdentifier* if
missing); create an ALIAS node whose child is that node (the alias has the
child's result type); if `can_replace` is true and `alias` already exists,
replace the Index entry, otherwise append.  The Index operations `replace`
and `insert` used here are the ones translated from the header. -/
def Dag.addAlias (dag : Dag) (source aliasName : String) (can_replace : Bool) :
    Except BuildErr Dag :=
  match dag.index.find source with
  | none => .error .unknownIdentifier
  | some src =>
      match dag.nodes.lookup src.id with
      | none => .error .logicalError
      | some srcNode =>
          let nid := dag.nextNode
          let nd := mkAlias aliasName srcNode.result_type src.id
          let ptr : NodePtr := ⟨nid, aliasName⟩
          .ok { nodes := dag.nodes ++ [(nid, nd)]
                nextNode := nid + 1
                index := if can_replace then dag.index.replace ptr else dag.index.insert ptr
                settings := dag.settings }

/-- C1 evaluation at the failing input: an Index holding one node named
`"x"`.  `remove` on that node returns with the Index unchanged — the entry
is still in the map (`contains` stays `true`) and in the list — because the
source's early-return test is inverted (`if (it != map.end()) return;`).
The claim (and the spec) say the entry is deleted from both. -/
theorem index_remove_keeps_present_name :
    (Index.insert ⟨0, [], []⟩ ⟨0, "x"⟩).remove ⟨0, "x"⟩ =
        some (Index.insert ⟨0, [], []⟩ ⟨0, "x"⟩) ∧
      (Index.insert ⟨0, [], []⟩ ⟨0, "x"⟩).contains "x" = true ∧
      (Index.insert ⟨0, [], []⟩ ⟨0, "x"⟩).size = 1 ∧
      (Index.insert ⟨0, [], []⟩ ⟨0, "x"⟩).find "x" = some ⟨0, "x"⟩ := by
  decide

/-- C7: the Index sequence may hold several entries with the same
`result_name`; after `insert n` the map resolves `n.result_name` to the
newly inserted node, while all earlier entries (same-named ones included)
remain in the sequence. -/
theorem index_insert_resolves_newest (idx : Index) (n : NodePtr) (h : idx.WF) :
    (idx.insert n).find n.result_name = some n ∧
      (idx.insert n).cells = idx.cells ++ [(idx.nextId, n)] :=
  ⟨Index.find_insert idx n h, rfl⟩

/-- Witness for C7: an Index already holding two entries named `"x"`;
inserting a third node named `"x"` resolves `"x"` to it and keeps both
earlier entries in the sequence. -/
theorem index_insert_resolves_newest_witness :
    let idx2 := Index.insert (Index.insert ⟨0, [], []⟩ ⟨0, "x"⟩) ⟨1, "x"⟩
    (idx2.insert ⟨2, "x"⟩).find "x" = some ⟨2, "x"⟩ ∧
      (idx2.insert ⟨2, "x"⟩).cells = idx2.cells ++ [(2, ⟨2, "x"⟩)] :=
  index_insert_resolves_newest _ ⟨2, "x"⟩ (by decide)

/-- C6: `addAlias(source, alias, can_replace)` on a DAG whose Index has the
source: it succeeds, and (a) when `can_replace` is true and `alias` is
already present, the existing Index list cell is re-pointed in place at the
new node and the map is unchanged; (b) otherwise the new node is appended
to the Index sequence; in both cases a subsequent name lookup for `alias`
resolves to the new (newest) node. -/
theorem addAlias_index_behavior (dag : Dag) (source aliasName : String)
    (can_replace : Bool) (src : NodePtr)
    (h1 : dag.index.find source = some src)
    (h2 : (dag.nodes.lookup src.id).isSome)
    (hwf : dag.index.WF)
    (hmap : ∀ kv ∈ dag.index.map, (dag.index.cells.lookup kv.2).isSome) :
    ∃ dag', dag.addAlias source aliasName can_replace = .ok dag' ∧
      dag'.index.find aliasName = some ⟨dag.nextNode, aliasName⟩ ∧
      (∀ cid, can_replace = true → dag.index.map.lookup aliasName = some cid →
        dag'.index.cells =
            (dag.index.cells.map fun c =>
              if c.1 = cid then (cid, ⟨dag.nextNode, aliasName⟩) else c) ∧
          dag'.index.map = dag.index.map) ∧
      ((can_replace = false ∨ dag.index.map.lookup aliasName = none) →
        dag'.index.cells = dag.index.cells ++ [(dag.index.nextId, ⟨dag.nextNode, aliasName⟩)]) := by
  obtain ⟨srcNode, hsn⟩ := Option.isSome_iff_exists.mp h2
  cases can_replace with
  | false =>
      refine ⟨{ nodes := dag.nodes ++ [(dag.nextNode, mkAlias aliasName srcNode.result_type src.id)]
                nextNode := dag.nextNode + 1
                index := dag.index.insert ⟨dag.nextNode, aliasName⟩
                settings := dag.settings }, ?_, ?_, ?_, ?_⟩
      · simp only [Dag.addAlias, h1, hsn]
        rfl
      · exact Index.find_insert dag.index ⟨dag.nextNode, aliasName⟩ hwf
      · intro cid hcr
        cases hcr
      · intro _
        rfl
  | true =>
      refine ⟨{ nodes := dag.nodes ++ [(dag.nextNode, mkAlias aliasName srcNode.result_type src.id)]
                nextNode := dag.nextNode + 1
                index := dag.index.replace ⟨dag.nextNode, aliasName⟩
                settings := dag.settings }, ?_, ?_, ?_, ?_⟩
      · simp only [Dag.addAlias, h1, hsn]
        rfl
      · show Index.find (dag.index.replace ⟨dag.nextNode, aliasName⟩) aliasName = _
        cases hml : dag.index.map.lookup aliasName with
        | none =>
            have : dag.index.replace ⟨dag.nextNode, aliasName⟩ =
                dag.index.insert ⟨dag.nextNode, aliasName⟩ := by
              simp only [Index.replace, hml]
            rw [this]
            exact Index.find_insert dag.index ⟨dag.nextNode, aliasName⟩ hwf
        | some cid =>
            simp only [Index.replace, hml, Index.find]
            show List.lookup cid _ = _
            exact lookup_map_subst _ _ _ (hmap (aliasName, cid) (mem_of_lookup_eq_some hml))
      · intro cid _ hml
        constructor
        · simp only [Index.replace, hml]
        · simp only [Index.replace, hml]
      · intro hcase
        cases hcase with
        | inl hcr => cases hcr
        | inr hml => simp only [Index.replace, hml, Index.insert]

/-- Witness for C6: a DAG with input `"x"` and an alias `"y"` already in the
Index; `addAlias("x", "y", can_replace = true)` replaces the `"y"` Index
cell in place and lookup resolves `"y"` to the new node. -/
theorem addAlias_index_behavior_witness :
    let dag0 : Dag :=
      { nodes := [(0, mkInput "x" .tInt), (1, mkAlias "y" .tInt 0)]
        nextNode := 2
        index := Index.insert (Index.insert ⟨0, [], []⟩ ⟨0, "x"⟩) ⟨1, "y"⟩
        settings := {} }
    ∃ dag', dag0.addAlias "x" "y" true = .ok dag' ∧
      dag'.index.find "y" = some ⟨2, "y"⟩ ∧
      (∀ cid, true = true → dag0.index.map.lookup "y" = some cid →
        dag'.index.cells =
            (dag0.index.cells.map fun c => if c.1 = cid then (cid, ⟨2, "y"⟩) else c) ∧
          dag'.index.map = dag0.index.map) ∧
      ((true = false ∨ dag0.index.map.lookup "y" = none) →
        dag'.index.cells = dag0.index.cells ++ [(dag0.index.nextId, ⟨2, "y"⟩)]) :=
  addAlias_index_behavior _ "x" "y" true ⟨0, "x"⟩ (by decide) (by decide) (by decide)
    (by decide)

/-! ## ActionsDAG transformation: removeUnusedActions, project -/

/-- Transitive closure of `roots` under the child relation.  Node ids in the
arena are strictly increasing and children have smaller ids, so one pass
over the arena in decreasing id order collects everything reachable. -/
def closeReq (nodes : List (Nat × Node)) (roots : List Nat) : List Nat :=
  nodes.reverse.foldl (fun acc p => if acc.contains p.1 then acc ++ p.2.children else acc) roots

/-- Modelled from the spec: `ActionsDAG::removeUnusedActions(required_names)`
(body in the missing `.cpp`; spec §4.2): compute the set of nodes reachable
from the requested names in the current Index and delete the rest from both
the node arena and the Index. -/
def Dag.removeUnusedActions (dag : Dag) (required : List String) : Dag :=
  let roots := required.filterMap fun nm => (dag.index.find nm).map NodePtr.id
  let req := closeReq dag.nodes roots
  let cells := dag.index.cells.filter fun c => req.contains c.2.id
  { nodes := dag.nodes.filter fun p => req.contains p.1
    nextNode := dag.nextNode
    index := ⟨dag.index.nextId, cells,
      dag.index.map.filter fun kv => (cells.lookup kv.2).isSome⟩
    settings := dag.settings }

/-- Modelled from the spec: the aliasing part of `project` (§4.1): for each
`(name, alias)` pair, look the name up in the Index (*UnknownIdentifier* if
missing) and append an ALIAS node; collect the new nodes in order. -/
def Dag.projectAliases : Dag → List (String × String) → Except BuildErr (Dag × List NodePtr)
  | dag, [] => .ok (dag, [])
  | dag, pr :: rest =>
      match dag.index.find pr.1 with
      | none => .error .unknownIdentifier
      | some src =>
          match dag.nodes.lookup src.id with
          | none => .error .logicalError
          | some srcNode =>
              let nid := dag.nextNode
              let dag' : Dag :=
                { nodes := dag.nodes ++ [(nid, mkAlias pr.2 srcNode.result_type src.id)]
                  nextNode := nid + 1
                  index := dag.index
                  settings := dag.settings }
              (Dag.projectAliases dag' rest).map fun p => (p.1, (⟨nid, pr.2⟩ : NodePtr) :: p.2)

/-- Modelled from the spec: `ActionsDAG::project(projection)` (body in the
missing `.cpp`; spec §4.1 and §3): bulk alias, then replace the Index so
that only the listed columns, in that order, remain visible; set
`projected_output`. -/
def Dag.project (dag : Dag) (projection : List (String × String)) : Except BuildErr Dag :=
  (dag.projectAliases projection).map fun p =>
    { nodes := p.1.nodes
      nextNode := p.1.nextNode
      index := p.2.foldl (fun idx ptr => idx.insert ptr) ⟨p.1.index.nextId, [], []⟩
      settings := { p.1.settings with projected_output := true } }

/-- `ExpressionActionsChain::ExpressionActionsStep::finalize`, translated
from the header:

```
if (!actions_dag->getSettings().projected_output)
    actions_dag->removeUnusedActions(required_output_);
```
-/
def stepFinalize (dag : Dag) (required_output : List String) : Dag :=
  if dag.settings.projected_output then dag else dag.removeUnusedActions required_output

/-- C5: `ExpressionActionsStep::finalize(out)` calls `removeUnusedActions
(out)` on the wrapped DAG iff `projected_output` is not set; and once
`project()` has set `projected_output`, `finalize` leaves the DAG
unchanged. -/
theorem step_finalize_respects_projected_output (dag : Dag) (out : List String) :
    (dag.settings.projected_output = true → stepFinalize dag out = dag) ∧
      (dag.settings.projected_output = false →
        stepFinalize dag out = dag.removeUnusedActions out) ∧
      (∀ projection dag', dag.project projection = .ok dag' →
        stepFinalize dag' out = dag') := by
  refine ⟨fun h => ?_, fun h => ?_, fun projection dag' h => ?_⟩
  · simp [stepFinalize, h]
  · simp [stepFinalize, h]
  · unfold Dag.project at h
    cases hp : dag.projectAliases projection with
    | error e => rw [hp] at h; cases h
    | ok p =>
        rw [hp] at h
        injection h with h2
        rw [← h2]
        simp [stepFinalize]

/-- A one-input DAG used by the C5 witness. -/
def finalizeWitnessDag : Dag :=
  { nodes := [(0, mkInput "x" .tInt)], nextNode := 1
    index := ⟨1, [(0, ⟨0, "x"⟩)], [("x", 0)]⟩, settings := {} }

/-- The value of `finalizeWitnessDag.project [("x", "y")]`. -/
def finalizeWitnessProjected : Dag :=
  { nodes := [(0, mkInput "x" .tInt), (1, mkAlias "y" .tInt 0)], nextNode := 2
    index := ⟨2, [(1, ⟨1, "y"⟩)], [("y", 1)]⟩
    settings := { projected_output := true } }

/-- Witness for C5: a DAG whose only node is the input `"x"`, with
`projected_output` unset: `finalize` applies `removeUnusedActions`; after
`project([("x","y")])` the flag is set and `finalize` is the identity. -/
theorem step_finalize_respects_projected_output_witness :
    stepFinalize finalizeWitnessDag ["x"] = finalizeWitnessDag.removeUnusedActions ["x"] ∧
      finalizeWitnessDag.project [("x", "y")] = .ok finalizeWitnessProjected ∧
      stepFinalize finalizeWitnessProjected ["y"] = finalizeWitnessProjected :=
  ⟨(step_finalize_respects_projected_output finalizeWitnessDag ["x"]).2.1 rfl,
    by rfl,
    (step_finalize_respects_projected_output finalizeWitnessDag ["y"]).2.2
      [("x", "y")] finalizeWitnessProjected (by rfl)⟩

/-! ## ExpressionActionsChain -/

/-- Errors raised by the chain accessors.  `emptyChain` is the spec's
*EmptyChain* kind (the source throws `LOGICAL_ERROR` with message
"Empty ExpressionActionsChain"); `nullDereference` models the undefined
behaviour of dereferencing the null result of
`typeid_cast<ExpressionActionsStep *>` when the last step is not an
`ExpressionActionsStep`. -/
inductive ChainErr
  | emptyChain
  | nullDereference
deriving DecidableEq

/-- One `ExpressionActionsChain::Step`.  Only `ExpressionActionsStep` holds
an `actions_dag`; the other two variants carry collaborator state that the
claims do not inspect. -/
inductive Step
  | exprStep (actions_dag : Dag) (required_output : List String)
  | arrayJoinStep (required_output : List String)
  | joinStep (required_output : List String)

/-- `ExpressionActionsChain` (the `context` member is an external
collaborator and carries no chain state). -/
structure Chain where
  steps : List Step

/-- `ExpressionActionsChain::getLastActions(allow_empty)`, translated from
the header: on an empty chain return a null pointer when `allow_empty`,
otherwise throw; else `typeid_cast` the last step and read its
`actions_dag`. -/
def Chain.getLastActions (chain : Chain) (allow_empty : Bool) : Except ChainErr (Option Dag) :=
  if chain.steps.isEmpty then
    if allow_empty then .ok none else .error .emptyChain
  else
    match chain.steps.getLast? with
    | some (.exprStep dag _) => .ok (some dag)
    | _ => .error .nullDereference

/-- `ExpressionActionsChain::getLastStep`, translated from the header. -/
def Chain.getLastStep (chain : Chain) : Except ChainErr Step :=
  match chain.steps.getLast? with
  | none => .error .emptyChain
  | some s => .ok s

/-- The loop of `Dag.ofColumns`: add the columns one by one as INPUT nodes,
failing with *DuplicateInput* when the name is already in the Index. -/
def Dag.ofColumnsGo : Dag → List (String × DType) → Except BuildErr Dag
  | dag, [] => .ok dag
  | dag, c :: rest =>
      if dag.index.contains c.1 then .error .duplicateInput
      else Dag.ofColumnsGo
        { nodes := dag.nodes ++ [(dag.nextNode, mkInput c.1 c.2)]
          nextNode := dag.nextNode + 1
          index := dag.index.insert ⟨dag.nextNode, c.1⟩
          settings := dag.settings } rest

/-- Modelled from the spec: the `ActionsDAG(const NamesAndTypesList &)`
constructor (body in the missing `.cpp`; spec §4.1 `addInput`, §7): insert
an INPUT node per column, in order, into the arena and the Index, failing
with *DuplicateInput* when a name is already present — the constructor
builds an input-typed source DAG. -/
def Dag.ofColumns (columns : List (String × DType)) : Except BuildErr Dag :=
  Dag.ofColumnsGo { nodes := [], nextNode := 0, index := ⟨0, [], []⟩, settings := {} }
    columns

/-- `ExpressionActionsChain::lastStep(columns)`, translated from the header:
on an empty chain emplace a fresh `ExpressionActionsStep` wrapping a new
`ActionsDAG(columns)` — an error thrown by that constructor propagates —
and return the last step (and the possibly grown chain). -/
def Chain.lastStep (chain : Chain) (columns : List (String × DType)) :
    Except BuildErr (Step × Chain) :=
  match chain.steps.getLast? with
  | some s => .ok (s, chain)
  | none =>
      (Dag.ofColumns columns).map fun dag =>
        let st := Step.exprStep dag []
        (st, ⟨chain.steps ++ [st]⟩)

/-- C8 amended: on an empty chain, `getLastActions` (with its default
`allow_empty = false`) and `getLastStep` fail with the *EmptyChain* error
kind; on a non-empty chain `getLastStep` returns the last step, and
`getLastActions` returns the last step's `actions_dag` provided that step
is an `ExpressionActionsStep`. -/
theorem chain_last_accessors (chain : Chain) :
    (chain.steps = [] →
      chain.getLastActions false = .error .emptyChain ∧
        chain.getLastStep = .error .emptyChain) ∧
      (∀ s, chain.steps.getLast? = some s →
        chain.getLastStep = .ok s ∧
          ∀ dag ro, s = .exprStep dag ro →
            chain.getLastActions false = .ok (some dag)) := by
  constructor
  · intro h
    constructor
    · simp [Chain.getLastActions, h]
    · simp [Chain.getLastStep, h]
  · intro s hs
    constructor
    · simp [Chain.getLastStep, hs]
    · intro dag ro hd
      subst hd
      have hne : chain.steps.isEmpty = false := by
        cases hsteps : chain.steps with
        | nil => rw [hsteps] at hs; cases hs
        | cons a l => rfl
      simp [Chain.getLastActions, hne, hs]

/-- Counterexample for C8 as stated: a non-empty chain whose last step is an
`ArrayJoinStep`.  `getLastActions` does not return the last step's actions
without error; the `typeid_cast` yields null and the source dereferences
it. -/
theorem chain_getLastActions_non_expr_step :
    (Chain.mk [Step.arrayJoinStep []]).getLastActions false =
      .error .nullDereference := rfl

/-- A one-column DAG used by the C8 and C9 witnesses (the payload
`Dag.ofColumns [("x", tInt)]` builds). -/
def witnessDag : Dag :=
  { nodes := [(0, mkInput "x" DType.tInt)]
    nextNode := 1
    index := Index.insert ⟨0, [], []⟩ ⟨0, "x"⟩
    settings := {} }

/-- The single step of the witness chain. -/
def witnessStep : Step := Step.exprStep witnessDag []

/-- The witness chain. -/
def witnessChain : Chain := Chain.mk [witnessStep]

/-- Witness for C8: the empty chain errors with *EmptyChain* on both
accessors, and a one-step chain returns its step and its actions. -/
theorem chain_last_accessors_witness :
    ((Chain.mk []).getLastActions false = .error .emptyChain ∧
        (Chain.mk []).getLastStep = .error .emptyChain) ∧
      (witnessChain.getLastStep = .ok witnessStep ∧
        witnessChain.getLastActions false = .ok (some witnessDag)) :=
  ⟨(chain_last_accessors (Chain.mk [])).1 rfl,
    ⟨((chain_last_accessors witnessChain).2 witnessStep rfl).1,
      ((chain_last_accessors witnessChain).2 witnessStep rfl).2 witnessDag [] rfl⟩⟩

/-- Counterexample for C9 as stated ("for every column list, lastStep does
not raise"): on the empty chain, a column list repeating the name `"x"`
makes the `ActionsDAG(columns)` constructor — and so `lastStep` — fail with
*DuplicateInput* (spec §4.1 `addInput`, §7). -/
theorem chain_lastStep_duplicate_input :
    (Chain.mk []).lastStep [("x", DType.tInt), ("x", DType.tInt)] =
      .error .duplicateInput := rfl

/-- Building an input-typed DAG from columns with pairwise-distinct names
succeeds. -/
theorem ofColumnsGo_ok :
    ∀ (columns : List (String × DType)) (dag0 : Dag),
      (columns.map Prod.fst).Nodup →
      (∀ c ∈ columns, dag0.index.contains c.1 = false) →
      ∃ dag, Dag.ofColumnsGo dag0 columns = .ok dag := by
  intro columns
  induction columns with
  | nil => intro dag0 _ _; exact ⟨dag0, rfl⟩
  | cons c rest ih =>
      intro dag0 hnd hfresh
      have hc := hfresh c (List.mem_cons_self _ _)
      simp only [List.map_cons, List.nodup_cons] at hnd
      have hfresh1 : ∀ c' ∈ rest,
          (dag0.index.insert ⟨dag0.nextNode, c.1⟩).contains c'.1 = false := by
        intro c' hc'
        have hne : c'.1 ≠ c.1 := by
          intro he
          exact hnd.1 (he ▸ List.mem_map.mpr ⟨c', hc', rfl⟩)
        have heq : (dag0.index.insert ⟨dag0.nextNode, c.1⟩).contains c'.1 =
            dag0.index.contains c'.1 := by
          unfold Index.contains Index.insert
          simp only
          rw [lookup_setAssoc_ne dag0.index.map c.1 c'.1 dag0.index.nextId hne]
        rw [heq]
        exact hfresh c' (List.mem_cons_of_mem _ hc')
      obtain ⟨dag, hdag⟩ := ih
        { nodes := dag0.nodes ++ [(dag0.nextNode, mkInput c.1 c.2)]
          nextNode := dag0.nextNode + 1
          index := dag0.index.insert ⟨dag0.nextNode, c.1⟩
          settings := dag0.settings } hnd.2 hfresh1
      refine ⟨dag, ?_⟩
      unfold Dag.ofColumnsGo
      rw [hc]
      exact hdag

theorem ofColumns_ok (columns : List (String × DType))
    (hnd : (columns.map Prod.fst).Nodup) :
    ∃ dag, Dag.ofColumns columns = .ok dag :=
  ofColumnsGo_ok columns _ hnd (fun c _ => rfl)

/-- C9 amended: for every chain with an empty step list and every column
list with pairwise-distinct names, `lastStep(columns)` does not raise: it
appends a fresh `ExpressionActionsStep` wrapping the new `ActionsDAG` built
from the columns and returns that step; on a non-empty chain it returns the
existing last step and leaves the chain unmodified.  (With a duplicated
column name the constructor raises *DuplicateInput* instead.) -/
theorem chain_lastStep_behavior (chain : Chain) (columns : List (String × DType)) :
    (chain.steps = [] → (columns.map Prod.fst).Nodup →
      ∃ dag, Dag.ofColumns columns = .ok dag ∧
        chain.lastStep columns =
          .ok (Step.exprStep dag [], ⟨chain.steps ++ [Step.exprStep dag []]⟩)) ∧
      (∀ s, chain.steps.getLast? = some s →
        chain.lastStep columns = .ok (s, chain)) := by
  constructor
  · intro h hnd
    obtain ⟨dag, hdag⟩ := ofColumns_ok columns hnd
    refine ⟨dag, hdag, ?_⟩
    have hl : chain.steps.getLast? = none := by rw [h]; rfl
    simp [Chain.lastStep, hl, hdag, Except.map]
  · intro s hs
    simp [Chain.lastStep, hs]

/-- Witness for C9: the empty chain grows by one fresh step over the
one-column DAG; a one-step chain is returned unchanged. -/
theorem chain_lastStep_behavior_witness :
    (∃ dag, Dag.ofColumns [("x", DType.tInt)] = .ok dag ∧
        (Chain.mk []).lastStep [("x", DType.tInt)] =
          .ok (Step.exprStep dag [], ⟨[Step.exprStep dag []]⟩)) ∧
      witnessChain.lastStep [] = .ok (witnessStep, witnessChain) :=
  ⟨(chain_lastStep_behavior (Chain.mk []) [("x", DType.tInt)]).1 rfl (by decide),
    (chain_lastStep_behavior witnessChain []).2 witnessStep rfl⟩

/-- C10: on an empty chain, `getLastActions(allow_empty = true)` returns a
null `ActionsDAGPtr` (no error).  `getLastActions` reads the chain and
returns a value, so the chain is left unchanged. -/
theorem chain_getLastActions_allow_empty :
    (Chain.mk []).getLastActions true = .ok none := rfl

/-! ## ExpressionActions: linearization and execution (spec §4.3)

`ExpressionActions::execute`, `checkLimits` and `linearizeActions` are only
declared in the header; the model below follows the spec, §4.3.  One
simplification is documented where made: every node gets its own column
slot (the spec's slot-reuse high-water allocator changes no observable
result), and slots are held in an association list whose live entries are
exactly the live columns. -/

/-- Execution-time errors (spec §7). -/
inductive ExecErr
  | notFoundColumn
  | typeMismatch
  | tooManyTemporaryColumns
  | tooManyTemporaryNonConstColumns
  | arrayJoinTypeMismatch
  | logicalError
deriving DecidableEq

/-- A column's data: constant (one value with a logical length) or full. -/
inductive ColData
  | constCol (len : Nat) (v : Val)
  | fullCol (vs : List Val)

def ColData.isConst : ColData → Bool
  | .constCol _ _ => true
  | .fullCol _ => false

def ColData.rows : ColData → List Val
  | .constCol n v => List.replicate n v
  | .fullCol vs => vs

/-- `ColumnWithTypeAndName`. -/
structure CWTN where
  name : String
  dtype : DType
  data : ColData

/-- `Block`: a list of named, typed columns. -/
abbrev Block := List CWTN

/-- The schema (names and types, in order) of a block. -/
def schemaOf (b : Block) : List (String × DType) := b.map fun c => (c.name, c.dtype)

def DType.isArr : DType → Bool
  | .tArr _ => true
  | .tInt => false

def Val.elems : Val → List Val
  | .vArr xs => xs
  | .vInt _ => []

/-- Replicate each row of `vs` the corresponding number of times (array-join
row expansion, spec §4.3). -/
def replRows (lens : List Nat) (vs : List Val) : List Val :=
  ((lens.zip vs).map fun p => List.replicate p.1 p.2).flatten

/-- Array-join replication of a whole column; a constant column stays
constant with the expanded length. -/
def ColData.replicate (lens : List Nat) : ColData → ColData
  | .constCol _ v => .constCol lens.sum v
  | .fullCol vs => .fullCol (replRows lens vs)

/-- Row-wise application of a scalar function to argument columns. -/
def evalFunCol (f : FuncKind) (args : List ColData) (nrows : Nat) : ColData :=
  .fullCol ((List.range nrows).map fun i =>
    applyFun f (args.map fun c => c.rows.getD i (.vInt 0)))

/-- Set a slot in the environment (replace or append). -/
def updAssoc {α : Type} (l : List (Nat × α)) (k : Nat) (v : α) : List (Nat × α) :=
  match l with
  | [] => [(k, v)]
  | p :: rest => if p.1 = k then (k, v) :: rest else p :: updAssoc rest k v

/-- The execution environment: live column slots, keyed by node id. -/
abbrev Env := List (Nat × CWTN)

/-- `ExpressionActions` after `linearizeActions` (spec §4.3): the INPUT
nodes (ordered), the non-INPUT nodes as actions in topological (arena)
order, the result nodes (Index order) with their names and types, and the
settings.  Each node id is its own column slot. -/
structure ExpressionActions where
  inputs : List (Nat × String × DType)
  actions : List (Nat × Node)
  results : List (Nat × String × DType)
  settings : ActionsSettings

/-- Modelled from the spec: `linearizeActions` (§4.3, body in the missing
`.cpp`): actions are the non-INPUT nodes in topological (arena) order,
`required_columns` come from the INPUT nodes, result positions from the
final Index. -/
def ExpressionActions.ofDag (dag : Dag) : ExpressionActions :=
  { inputs := dag.nodes.filterMap fun p =>
      if p.2.type = .input then some (p.1, p.2.result_name, p.2.result_type) else none
    actions := dag.nodes.filter fun p => !(p.2.type == .input)
    results := dag.index.cells.filterMap fun c =>
      (dag.nodes.lookup c.2.id).map fun nd => (c.2.id, nd.result_name, nd.result_type)
    settings := dag.settings }

/-- Fetch one required column from the block, by name, checking the type
(spec §4.3: "Validate that `block` carries every `required_columns` entry
by name and type"). -/
def getInput (block : Block) (name : String) (ty : DType) : Except ExecErr CWTN :=
  match block.find? fun c => c.name == name with
  | none => .error .notFoundColumn
  | some c => if c.dtype == ty then .ok c else .error .typeMismatch

/-- Place every input column at its slot. -/
def placeInputs (inputs : List (Nat × String × DType)) (block : Block) : Except ExecErr Env :=
  match inputs with
  | [] => .ok []
  | (i, nm, ty) :: rest => do
      let c ← getInput block nm ty
      let env ← placeInputs rest block
      .ok ((i, c) :: env)

/-- Fetch the argument columns of an action from the environment. -/
def argCols (env : Env) (cs : List Nat) : Except ExecErr (List CWTN) :=
  match cs with
  | [] => .ok []
  | c :: rest =>
      match env.lookup c with
      | none => .error .logicalError
      | some col => (argCols env rest).map (col :: ·)

/-- `Argument::needed_later` (spec §4.3): the child has a later consumer or
is among the result columns. -/
def neededLater (rest : List (Nat × Node)) (resultIds : List Nat) (c : Nat) : Bool :=
  rest.any (fun a => a.2.children.contains c) || resultIds.contains c

/-- Free the slots of the action's children that are not needed later
(spec §4.3: "After each Action, free slots whose children are
`!needed_later`"). -/
def freeArgs (rest : List (Nat × Node)) (resultIds : List Nat) (children : List Nat)
    (env : Env) : Env :=
  env.filter fun p => !(children.contains p.1 && !neededLater rest resultIds p.1)

/-- Array-join replication of one slot: the column keeps its name and type,
its data is expanded row-wise. -/
def replCW (lens : List Nat) (c : CWTN) : CWTN := ⟨c.name, c.dtype, c.data.replicate lens⟩

/-- Apply one Action to the state (environment, row count), without the
limit check.  ALIAS copies the child column; ARRAY_JOIN unfolds the child
array column and replicates every other live slot in lockstep (failing
with *ArrayJoinTypeMismatch* on a non-array child); FUNCTION evaluates
row-wise (or produces an empty placeholder of the right type under
`dry_run`); COLUMN materializes the constant.  The slots of children not
needed later are freed. -/
def applyActionRaw (resultIds : List Nat) (rest : List (Nat × Node)) (dry : Bool)
    (st : Env × Nat) (a : Nat × Node) : Except ExecErr (Env × Nat) :=
  let env := st.1
  let nrows := st.2
  let nd := a.2
  match nd.type with
  | .input => .error .logicalError
  | .column =>
      let col : CWTN := ⟨nd.result_name, nd.result_type, .constCol nrows nd.value⟩
      .ok (freeArgs rest resultIds nd.children (updAssoc env a.1 col), nrows)
  | .aliasNode => do
      let cs ← argCols env nd.children
      match cs with
      | [c] =>
          .ok (freeArgs rest resultIds nd.children
            (updAssoc env a.1 ⟨nd.result_name, nd.result_type, c.data⟩), nrows)
      | _ => .error .logicalError
  | .arrayJoin => do
      let cs ← argCols env nd.children
      match cs with
      | [c] =>
          match c.dtype with
          | .tArr _ =>
              let lens := c.data.rows.map fun v => v.elems.length
              let newCol : CWTN :=
                ⟨nd.result_name, nd.result_type, .fullCol (c.data.rows.map Val.elems).flatten⟩
              let env' := env.map fun p => (p.1, replCW lens p.2)
              .ok (freeArgs rest resultIds nd.children (updAssoc env' a.1 newCol), lens.sum)
          | _ => .error .arrayJoinTypeMismatch
      | _ => .error .logicalError
  | .function => do
      let cs ← argCols env nd.children
      let col : CWTN :=
        if dry then ⟨nd.result_name, nd.result_type, .fullCol []⟩
        else ⟨nd.result_name, nd.result_type, evalFunCol nd.func (cs.map CWTN.data) nrows⟩
      .ok (freeArgs rest resultIds nd.children (updAssoc env a.1 col), nrows)

/-- Modelled from the spec: `ExpressionActions::checkLimits` (body in the
missing `.cpp`; spec §4.3/§7): error when the number of live columns
exceeds `max_temporary_columns` (0 = unlimited), then when the number of
live non-constant columns exceeds `max_temporary_non_const_columns`. -/
def checkLimits (settings : ActionsSettings) (env : Env) : Except ExecErr Unit :=
  if settings.max_temporary_columns ≠ 0 ∧
      settings.max_temporary_columns < env.length then
    .error .tooManyTemporaryColumns
  else if settings.max_temporary_non_const_columns ≠ 0 ∧
      settings.max_temporary_non_const_columns <
        (env.filter fun p => !p.2.data.isConst).length then
    .error .tooManyTemporaryNonConstColumns
  else .ok ()

/-- Run the action list, checking limits after every action
(spec §4.3: "`checkLimits(current_columns)` after every Action"). -/
def execActions (settings : ActionsSettings) (resultIds : List Nat) (dry : Bool) :
    List (Nat × Node) → Env × Nat → Except ExecErr (Env × Nat)
  | [], st => .ok st
  | a :: rest, st => do
      let st' ← applyActionRaw resultIds rest dry st a
      let _ ← checkLimits settings st'.1
      execActions settings resultIds dry rest st'

/-- Rebuild the output block from the result slots, in Index order, with
each result column named and typed by its node. -/
def buildResult (env : Env) : List (Nat × String × DType) → Except ExecErr Block
  | [] => .ok []
  | (i, nm, ty) :: rest =>
      match env.lookup i with
      | none => .error .logicalError
      | some c => (buildResult env rest).map (⟨nm, ty, c.data⟩ :: ·)

/-- Modelled from the spec: `ExpressionActions::execute(block, num_rows,
dry_run)` (§4.3, body in the missing `.cpp`): validate and place the
required input columns, run the actions in order with a limit check after
each, and rebuild the block from the result positions in Index order.
Returns the result block and the (possibly array-join-updated) row
count. -/
def ExpressionActions.execute (ea : ExpressionActions) (block : Block) (nrows : Nat)
    (dry : Bool) : Except ExecErr (Block × Nat) := do
  let env0 ← placeInputs ea.inputs block
  let st ← execActions ea.settings (ea.results.map Prod.fst) dry ea.actions (env0, nrows)
  let out ← buildResult st.1 ea.results
  .ok (out, st.2)

/-- Modelled from the spec: the `sample_block` (§4.3, item 5): execute the
plan on an empty block (the required columns with no rows) in dry-run
mode. -/
def ExpressionActions.sampleBlockE (ea : ExpressionActions) : Except ExecErr Block :=
  (ea.execute (ea.inputs.map fun p => ⟨p.2.1, p.2.2, .fullCol []⟩) 0 true).map Prod.fst

/-- Run at most `k` checked action steps of the list.  Each step sees the
true remaining suffix, exactly as in `execActions` (so `needed_later`
freeing agrees with the full run). -/
def execSteps (settings : ActionsSettings) (resultIds : List Nat) (dry : Bool) :
    Nat → List (Nat × Node) → Env × Nat → Except ExecErr (Env × Nat)
  | _, [], st => .ok st
  | 0, _, st => .ok st
  | k + 1, a :: rest, st => do
      let st' ← applyActionRaw resultIds rest dry st a
      let _ ← checkLimits settings st'.1
      execSteps settings resultIds dry k rest st'

/-- The state during `execute`, after the input placement and the first `k`
checked action steps. -/
def ExpressionActions.execStateAfter (ea : ExpressionActions) (block : Block) (nrows : Nat)
    (dry : Bool) (k : Nat) : Except ExecErr (Env × Nat) := do
  let env0 ← placeInputs ea.inputs block
  execSteps ea.settings (ea.results.map Prod.fst) dry k ea.actions (env0, nrows)

/-- `block` carries every required column by name and type. -/
def blockCarries (block : Block) (inputs : List (Nat × String × DType)) : Bool :=
  inputs.all fun p =>
    match block.find? fun c => c.name == p.2.1 with
    | none => false
    | some c => c.dtype == p.2.2

/-- Well-formedness of a built DAG for execution (the invariants the
builder API maintains, spec §3): arena ids strictly increase (so the arena
order is topological), children exist and have smaller ids, ALIAS and
ARRAY_JOIN nodes have exactly one child, and an ARRAY_JOIN child has array
type. -/
def WFDag (dag : Dag) : Prop :=
  dag.nodes.Pairwise (fun a b => a.1 < b.1) ∧
    (∀ p ∈ dag.nodes, ∀ c ∈ p.2.children, c < p.1 ∧ (dag.nodes.lookup c).isSome) ∧
    (∀ p ∈ dag.nodes, p.2.type = .aliasNode → p.2.children.length = 1) ∧
    (∀ p ∈ dag.nodes, p.2.type = .arrayJoin → p.2.children.length = 1) ∧
    (∀ p ∈ dag.nodes, p.2.type = .arrayJoin → ∀ c ∈ p.2.children,
      ((dag.nodes.lookup c).all fun cnd => cnd.result_type.isArr) = true)

instance (dag : Dag) : Decidable (WFDag dag) := by
  unfold WFDag; infer_instance

/-! ### Association-list lemmas for the environment -/

theorem lookup_updAssoc_self {α : Type} (l : List (Nat × α)) (k : Nat) (v : α) :
    (updAssoc l k v).lookup k = some v := by
  induction l with
  | nil => simp [updAssoc, List.lookup]
  | cons p rest ih =>
      by_cases h : p.1 = k
      · simp [updAssoc, h, List.lookup]
      · have hb : (k == p.1) = false := beq_eq_false_iff_ne.mpr fun he => h he.symm
        simp [updAssoc, h, List.lookup, hb, ih]

theorem lookup_updAssoc_ne {α : Type} (l : List (Nat × α)) (k j : Nat) (v : α)
    (h : j ≠ k) : (updAssoc l k v).lookup j = l.lookup j := by
  induction l with
  | nil =>
      have hb : (j == k) = false := beq_eq_false_iff_ne.mpr h
      simp [updAssoc, List.lookup, hb]
  | cons p rest ih =>
      by_cases hp : p.1 = k
      · have hb : (j == k) = false := beq_eq_false_iff_ne.mpr h
        have hb2 : (j == p.1) = false := beq_eq_false_iff_ne.mpr (hp ▸ h)
        simp [updAssoc, hp, List.lookup, hb, hb2]
      · by_cases hj : j = p.1
        · simp [updAssoc, hp, List.lookup, hj]
        · have hb : (j == p.1) = false := beq_eq_false_iff_ne.mpr hj
          simp [updAssoc, hp, List.lookup, hb, ih]

theorem mem_keys_updAssoc {α : Type} (l : List (Nat × α)) (k j : Nat) (v : α)
    (h : j ∈ (updAssoc l k v).map Prod.fst) : j ∈ l.map Prod.fst ∨ j = k := by
  induction l with
  | nil =>
      simp only [updAssoc, List.map_cons, List.map_nil, List.mem_singleton] at h
      exact Or.inr h
  | cons p rest ih =>
      by_cases hp : p.1 = k
      · simp only [updAssoc, if_pos hp, List.map_cons, List.mem_cons] at h
        rcases h with h1 | h1
        · exact Or.inr h1
        · exact Or.inl (List.mem_cons_of_mem _ h1)
      · simp only [updAssoc, if_neg hp, List.map_cons, List.mem_cons] at h
        rcases h with h1 | h1
        · exact Or.inl (h1 ▸ List.mem_cons_self _ _)
        · rcases ih h1 with h2 | h2
          · exact Or.inl (List.mem_cons_of_mem _ h2)
          · exact Or.inr h2

theorem keys_updAssoc_nodup {α : Type} (l : List (Nat × α)) (k : Nat) (v : α)
    (h : (l.map Prod.fst).Nodup) : ((updAssoc l k v).map Prod.fst).Nodup := by
  induction l with
  | nil => simp [updAssoc]
  | cons p rest ih =>
      simp only [List.map_cons, List.nodup_cons] at h
      by_cases hp : p.1 = k
      · subst hp
        have hupd : updAssoc (p :: rest) p.1 v = (p.1, v) :: rest := by
          simp [updAssoc]
        rw [hupd]
        simp only [List.map_cons, List.nodup_cons]
        exact ⟨h.1, h.2⟩
      · simp only [updAssoc, if_neg hp, List.map_cons, List.nodup_cons]
        refine ⟨fun hm => ?_, ih h.2⟩
        rcases mem_keys_updAssoc rest k p.1 v hm with h1 | h1
        · exact h.1 h1
        · exact hp h1

theorem lookup_filter_of_nodup {α : Type} (l : List (Nat × α)) (q : Nat × α → Bool)
    (j : Nat) (v : α) (hnd : (l.map Prod.fst).Nodup)
    (h : (l.filter q).lookup j = some v) : l.lookup j = some v := by
  induction l with
  | nil => simp [List.lookup] at h
  | cons p rest ih =>
      simp only [List.map_cons, List.nodup_cons] at hnd
      obtain ⟨p1, p2⟩ := p
      by_cases hj : j = p1
      · rw [hj] at h ⊢
        by_cases hq : q (p1, p2)
        · simp only [List.filter_cons_of_pos hq, List.lookup, beq_self_eq_true] at h
          simpa [List.lookup] using h
        · simp only [List.filter_cons_of_neg hq] at h
          exfalso
          have hmem := mem_of_lookup_eq_some h
          exact hnd.1 (List.mem_map.mpr ⟨(p1, v), List.mem_of_mem_filter hmem, rfl⟩)
      · have hb : (j == p1) = false := beq_eq_false_iff_ne.mpr hj
        by_cases hq : q (p1, p2)
        · simp only [List.filter_cons_of_pos hq, List.lookup, hb] at h
          simp only [List.lookup, hb]
          exact ih hnd.2 h
        · simp only [List.filter_cons_of_neg hq] at h
          simp only [List.lookup, hb]
          exact ih hnd.2 h

theorem lookup_filter_kept {α : Type} (l : List (Nat × α)) (q : Nat × α → Bool)
    (j : Nat) (v : α) (h : l.lookup j = some v) (hkeep : q (j, v) = true) :
    (l.filter q).lookup j = some v := by
  induction l with
  | nil => simp [List.lookup] at h
  | cons p rest ih =>
      obtain ⟨p1, p2⟩ := p
      by_cases hj : j = p1
      · subst hj
        simp only [List.lookup, beq_self_eq_true] at h
        injection h with hv
        subst hv
        simp [List.filter_cons_of_pos hkeep, List.lookup]
      · have hb : (j == p1) = false := beq_eq_false_iff_ne.mpr hj
        simp only [List.lookup, hb] at h
        by_cases hq : q (p1, p2)
        · simp only [List.filter_cons_of_pos hq, List.lookup, hb]
          exact ih h
        · simp only [List.filter_cons_of_neg hq]
          exact ih h

theorem lookup_map_snd {α β : Type} (l : List (Nat × α)) (g : α → β) (j : Nat) :
    (l.map fun p => (p.1, g p.2)).lookup j = (l.lookup j).map g := by
  induction l with
  | nil => simp [List.lookup]
  | cons p rest ih =>
      by_cases hj : j = p.1
      · subst hj
        simp [List.lookup]
      · have hb : (j == p.1) = false := beq_eq_false_iff_ne.mpr hj
        simp [List.lookup, hb, ih]

theorem isSome_lookup_of_mem_keys {α : Type} (l : List (Nat × α)) (j : Nat)
    (h : j ∈ l.map Prod.fst) : (l.lookup j).isSome := by
  induction l with
  | nil => simp at h
  | cons p rest ih =>
      by_cases hj : j = p.1
      · subst hj
        simp [List.lookup]
      · have hb : (j == p.1) = false := beq_eq_false_iff_ne.mpr hj
        simp only [List.map_cons, List.mem_cons] at h
        rcases h with h1 | h1
        · exact absurd h1 hj
        · simp only [List.lookup, hb]
          exact ih h1

theorem lookup_eq_of_mem_nodup {α : Type} {l : List (Nat × α)} {k : Nat} {v : α}
    (hm : (k, v) ∈ l) (hnd : (l.map Prod.fst).Nodup) : l.lookup k = some v := by
  induction l with
  | nil => simp at hm
  | cons p rest ih =>
      simp only [List.map_cons, List.nodup_cons] at hnd
      rcases List.mem_cons.mp hm with h1 | h1
      · subst h1
        simp [List.lookup]
      · have hj : k ≠ p.1 := by
          intro he
          exact hnd.1 (he ▸ List.mem_map.mpr ⟨(k, v), h1, rfl⟩)
        have hb : (k == p.1) = false := beq_eq_false_iff_ne.mpr hj
        simp only [List.lookup, hb]
        exact ih h1 hnd.2

theorem argCols_ok (env : Env) (cs : List Nat)
    (h : ∀ c ∈ cs, (env.lookup c).isSome) :
    ∃ cols, argCols env cs = .ok cols := by
  induction cs with
  | nil => exact ⟨[], rfl⟩
  | cons c rest ih =>
      obtain ⟨col, hcol⟩ := Option.isSome_iff_exists.mp (h c (List.mem_cons_self c rest))
      obtain ⟨cols, hcols⟩ := ih fun d hd => h d (List.mem_cons_of_mem c hd)
      exact ⟨col :: cols, by simp [argCols, hcol, hcols, Except.map]⟩

theorem checkLimits_zero (settings : ActionsSettings) (env : Env)
    (h1 : settings.max_temporary_columns = 0)
    (h2 : settings.max_temporary_non_const_columns = 0) :
    checkLimits settings env = .ok () := by
  simp [checkLimits, h1, h2]

theorem neededLater_of_result (rest : List (Nat × Node)) (resultIds : List Nat)
    (r : Nat) (h : r ∈ resultIds) : neededLater rest resultIds r = true := by
  simp [neededLater, h]

theorem neededLater_of_child (rest : List (Nat × Node)) (resultIds : List Nat)
    (a : Nat × Node) (c : Nat) (ha : a ∈ rest) (hc : c ∈ a.2.children) :
    neededLater rest resultIds c = true := by
  simp only [neededLater, Bool.or_eq_true, List.any_eq_true]
  exact Or.inl ⟨a, ha, by simpa using hc⟩

/-- The properties of one action's environment update
`freeArgs rest resultIds children (updAssoc envX i colNew)`, where `envX`
is the incoming environment possibly rewritten slot-wise (array-join
replication): the new slot is present, keys stay duplicate-free, every
other surviving slot lifts to an original slot of the same type, and every
original slot that is still needed later survives. -/
theorem free_upd_props (rest : List (Nat × Node)) (resultIds : List Nat)
    (children : List Nat) (env envX : Env) (i : Nat) (colNew : CWTN)
    (hik : i ∉ children)
    (hXkeys : envX.map Prod.fst = env.map Prod.fst)
    (hXlift : ∀ j col, envX.lookup j = some col →
      ∃ col0, env.lookup j = some col0 ∧ col0.dtype = col.dtype)
    (hXsome : ∀ j, (env.lookup j).isSome → (envX.lookup j).isSome)
    (hnd : (env.map Prod.fst).Nodup) :
    ((freeArgs rest resultIds children (updAssoc envX i colNew)).map Prod.fst).Nodup ∧
      (freeArgs rest resultIds children (updAssoc envX i colNew)).lookup i = some colNew ∧
      (∀ j col, j ≠ i →
        (freeArgs rest resultIds children (updAssoc envX i colNew)).lookup j = some col →
        ∃ col0, env.lookup j = some col0 ∧ col0.dtype = col.dtype) ∧
      (∀ j, j ≠ i → (env.lookup j).isSome → neededLater rest resultIds j = true →
        ((freeArgs rest resultIds children (updAssoc envX i colNew)).lookup j).isSome) := by
  have hXnd : (envX.map Prod.fst).Nodup := hXkeys ▸ hnd
  have hund : ((updAssoc envX i colNew).map Prod.fst).Nodup := keys_updAssoc_nodup _ _ _ hXnd
  have hcontains : children.contains i = false := by
    simpa using hik
  refine ⟨?_, ?_, ?_, ?_⟩
  · have hsub : List.Sublist
        ((freeArgs rest resultIds children (updAssoc envX i colNew)).map Prod.fst)
        ((updAssoc envX i colNew).map Prod.fst) :=
      List.Sublist.map _ (List.filter_sublist _)
    exact hund.sublist hsub
  · refine lookup_filter_kept _ _ _ _ (lookup_updAssoc_self _ _ _) ?_
    simp [hcontains]
    exact Or.inl hik
  · intro j col hji hlk
    have h1 : (updAssoc envX i colNew).lookup j = some col :=
      lookup_filter_of_nodup _ _ _ _ hund hlk
    rw [lookup_updAssoc_ne _ _ _ _ hji] at h1
    exact hXlift j col h1
  · intro j hji hsome hneed
    obtain ⟨col, hcol⟩ := Option.isSome_iff_exists.mp (hXsome j hsome)
    have h1 : (updAssoc envX i colNew).lookup j = some col := by
      rw [lookup_updAssoc_ne _ _ _ _ hji]
      exact hcol
    have h2 := lookup_filter_kept _
      (fun p => !(children.contains p.1 && !neededLater rest resultIds p.1)) _ _ h1
      (by simp [hneed])
    have h3 : (freeArgs rest resultIds children (updAssoc envX i colNew)).lookup j =
        some col := h2
    rw [h3]
    rfl

/-- With both limits disabled, every well-formed suffix of the action list
executes successfully, and every result slot is live at the end. -/
theorem execActions_ok
    (nodesAll : List (Nat × Node)) (settings : ActionsSettings)
    (resultIds : List Nat) (dry : Bool)
    (hL : settings.max_temporary_columns = 0)
    (hLnc : settings.max_temporary_non_const_columns = 0)
    (hndAll : (nodesAll.map Prod.fst).Nodup)
    (hch : ∀ p ∈ nodesAll, ∀ c ∈ p.2.children, c < p.1 ∧ (nodesAll.lookup c).isSome)
    (hal : ∀ p ∈ nodesAll, p.2.type = .aliasNode → p.2.children.length = 1)
    (haj : ∀ p ∈ nodesAll, p.2.type = .arrayJoin → p.2.children.length = 1)
    (hajt : ∀ p ∈ nodesAll, p.2.type = .arrayJoin → ∀ c ∈ p.2.children,
      ((nodesAll.lookup c).all fun cnd => cnd.result_type.isArr) = true) :
    ∀ (suffix : List (Nat × Node)) (env : Env) (nrows : Nat),
      (∀ a ∈ suffix, a ∈ nodesAll) →
      (∀ a ∈ suffix, a.2.type ≠ .input) →
      suffix.Pairwise (fun a b => a.1 < b.1) →
      (env.map Prod.fst).Nodup →
      (∀ j col, env.lookup j = some col → ∀ nd, nodesAll.lookup j = some nd →
        col.dtype = nd.result_type) →
      (∀ a ∈ suffix, ∀ c ∈ a.2.children,
        (env.lookup c).isSome ∨ c ∈ suffix.map Prod.fst) →
      (∀ r ∈ resultIds, (env.lookup r).isSome ∨ r ∈ suffix.map Prod.fst) →
      ∃ env' nrows',
        execActions settings resultIds dry suffix (env, nrows) = .ok (env', nrows') ∧
          ∀ r ∈ resultIds, (env'.lookup r).isSome := by
  intro suffix
  induction suffix with
  | nil =>
      intro env nrows _ _ _ _ _ _ hres
      refine ⟨env, nrows, rfl, fun r hr => ?_⟩
      rcases hres r hr with h | h
      · exact h
      · simp at h
  | cons a rest ih =>
      intro env nrows hsub hni hsort hnd hty hargs hres
      obtain ⟨i, nd⟩ := a
      have hmem : (i, nd) ∈ nodesAll := hsub _ (List.mem_cons_self _ _)
      have hlt : ∀ b ∈ rest, i < b.1 := fun b hb =>
        (List.pairwise_cons.mp hsort).1 b hb
      have hsort' := (List.pairwise_cons.mp hsort).2
      have hcenv : ∀ c ∈ nd.children, (env.lookup c).isSome := by
        intro c hc
        rcases hargs (i, nd) (List.mem_cons_self _ _) c hc with h | h
        · exact h
        · exfalso
          have hci : c < i := (hch _ hmem c hc).1
          simp only [List.map_cons, List.mem_cons] at h
          rcases h with h1 | h1
          · omega
          · obtain ⟨b, hb, hbe⟩ := List.mem_map.mp h1
            have := hlt b hb
            omega
      have hik : i ∉ nd.children := fun hmem2 => by
        have := (hch _ hmem i hmem2).1
        omega
      have hstep : ∃ env1 nrows1,
          applyActionRaw resultIds rest dry (env, nrows) (i, nd) = .ok (env1, nrows1) ∧
            (env1.map Prod.fst).Nodup ∧
            (∃ coli, env1.lookup i = some coli ∧ coli.dtype = nd.result_type) ∧
            (∀ j col, j ≠ i → env1.lookup j = some col →
              ∃ col0, env.lookup j = some col0 ∧ col0.dtype = col.dtype) ∧
            (∀ j, j ≠ i → (env.lookup j).isSome →
              neededLater rest resultIds j = true → (env1.lookup j).isSome) := by
        cases ht : nd.type with
        | input => exact absurd ht (hni (i, nd) (List.mem_cons_self _ _))
        | column =>
            refine ⟨freeArgs rest resultIds nd.children
              (updAssoc env i ⟨nd.result_name, nd.result_type, .constCol nrows nd.value⟩),
              nrows, ?_, ?_⟩
            · simp [applyActionRaw, ht]
            · obtain ⟨h1, h2, h3, h4⟩ := free_upd_props rest resultIds nd.children env env i
                ⟨nd.result_name, nd.result_type, .constCol nrows nd.value⟩ hik rfl
                (fun j col h => ⟨col, h, rfl⟩) (fun j h => h) hnd
              exact ⟨h1, ⟨_, h2, rfl⟩, h3, h4⟩
        | aliasNode =>
            obtain ⟨c0, hc0⟩ := List.length_eq_one.mp (hal _ hmem ht)
            obtain ⟨col0, hcol0⟩ := Option.isSome_iff_exists.mp
              (hcenv c0 (hc0 ▸ List.mem_singleton_self c0))
            have hac : argCols env nd.children = .ok [col0] := by
              rw [hc0]
              simp [argCols, hcol0, Except.map]
            refine ⟨freeArgs rest resultIds nd.children
              (updAssoc env i ⟨nd.result_name, nd.result_type, col0.data⟩), nrows, ?_, ?_⟩
            · simp only [applyActionRaw, ht, hac]
              rfl
            · obtain ⟨h1, h2, h3, h4⟩ := free_upd_props rest resultIds nd.children env env i
                ⟨nd.result_name, nd.result_type, col0.data⟩ hik rfl
                (fun j col h => ⟨col, h, rfl⟩) (fun j h => h) hnd
              exact ⟨h1, ⟨_, h2, rfl⟩, h3, h4⟩
        | arrayJoin =>
            obtain ⟨c0, hc0⟩ := List.length_eq_one.mp (haj _ hmem ht)
            obtain ⟨col0, hcol0⟩ := Option.isSome_iff_exists.mp
              (hcenv c0 (hc0 ▸ List.mem_singleton_self c0))
            obtain ⟨cnd, hcnd⟩ := Option.isSome_iff_exists.mp
              (hch _ hmem c0 (hc0 ▸ List.mem_singleton_self c0)).2
            have hisarr : cnd.result_type.isArr = true := by
              have := hajt _ hmem ht c0 (hc0 ▸ List.mem_singleton_self c0)
              rw [hcnd] at this
              simpa [Option.all] using this
            have hdt : col0.dtype = cnd.result_type :=
              hty c0 col0 hcol0 cnd hcnd
            obtain ⟨t, hta⟩ : ∃ t, col0.dtype = DType.tArr t := by
              rw [hdt]
              cases hrt : cnd.result_type with
              | tInt => rw [hrt] at hisarr; simp [DType.isArr] at hisarr
              | tArr t => exact ⟨t, rfl⟩
            obtain ⟨nm0, ty0, data0⟩ := col0
            simp only at hta
            subst hta
            have hac : argCols env nd.children = .ok [⟨nm0, DType.tArr t, data0⟩] := by
              rw [hc0]
              simp [argCols, hcol0, Except.map]
            refine ⟨freeArgs rest resultIds nd.children
              (updAssoc (env.map fun p =>
                  (p.1, replCW (data0.rows.map fun v => v.elems.length) p.2))
                i ⟨nd.result_name, nd.result_type,
                  .fullCol (data0.rows.map Val.elems).flatten⟩),
              (data0.rows.map fun v => v.elems.length).sum, ?_, ?_⟩
            · simp only [applyActionRaw, ht, hac]
              rfl
            · have hXlift : ∀ j col,
                  (env.map fun p =>
                    (p.1, replCW (data0.rows.map fun v => v.elems.length) p.2)).lookup j
                    = some col →
                  ∃ col0, env.lookup j = some col0 ∧ col0.dtype = col.dtype := by
                intro j col h
                rw [lookup_map_snd env (replCW (data0.rows.map fun v => v.elems.length)) j] at h
                cases henvj : env.lookup j with
                | none => rw [henvj] at h; cases h
                | some c1 =>
                    rw [henvj] at h
                    injection h with h2
                    exact ⟨c1, rfl, by rw [← h2]; rfl⟩
              have hXsome : ∀ j, (env.lookup j).isSome = true →
                  ((env.map fun p =>
                    (p.1, replCW (data0.rows.map fun v => v.elems.length) p.2)).lookup j).isSome
                    = true := by
                intro j h
                rw [lookup_map_snd env (replCW (data0.rows.map fun v => v.elems.length)) j]
                simpa using h
              obtain ⟨h1, h2, h3, h4⟩ := free_upd_props rest resultIds nd.children env
                (env.map fun p =>
                  (p.1, replCW (data0.rows.map fun v => v.elems.length) p.2))
                i ⟨nd.result_name, nd.result_type,
                  .fullCol (data0.rows.map Val.elems).flatten⟩ hik
                (by simp) hXlift hXsome hnd
              exact ⟨h1, ⟨_, h2, rfl⟩, h3, h4⟩
        | function =>
            obtain ⟨cols, hcols⟩ := argCols_ok env nd.children hcenv
            refine ⟨freeArgs rest resultIds nd.children
              (updAssoc env i (if dry then ⟨nd.result_name, nd.result_type, .fullCol []⟩
                else ⟨nd.result_name, nd.result_type,
                  evalFunCol nd.func (cols.map CWTN.data) nrows⟩)), nrows, ?_, ?_⟩
            · simp only [applyActionRaw, ht, hcols]
              rfl
            · obtain ⟨h1, h2, h3, h4⟩ := free_upd_props rest resultIds nd.children env env i
                (if dry then ⟨nd.result_name, nd.result_type, .fullCol []⟩
                  else ⟨nd.result_name, nd.result_type,
                    evalFunCol nd.func (cols.map CWTN.data) nrows⟩) hik rfl
                (fun j col h => ⟨col, h, rfl⟩) (fun j h => h) hnd
              refine ⟨h1, ⟨_, h2, ?_⟩, h3, h4⟩
              cases dry <;> rfl
      obtain ⟨env1, nrows1, happ, hnd1, ⟨coli, hcoli, hcolit⟩, hlift, hkeep⟩ := hstep
      have hcl : checkLimits settings env1 = .ok () := checkLimits_zero settings env1 hL hLnc
      have hexec : execActions settings resultIds dry ((i, nd) :: rest) (env, nrows) =
          execActions settings resultIds dry rest (env1, nrows1) := by
        simp only [execActions, happ]
        show (do
          let _ ← checkLimits settings env1
          execActions settings resultIds dry rest (env1, nrows1)) = _
        rw [hcl]
        rfl
      have hty1 : ∀ j col, env1.lookup j = some col → ∀ ndj, nodesAll.lookup j = some ndj →
          col.dtype = ndj.result_type := by
        intro j col hcol ndj hndj
        by_cases hji : j = i
        · subst hji
          rw [hcoli] at hcol
          injection hcol with hc
          subst hc
          have hl : nodesAll.lookup j = some nd := lookup_eq_of_mem_nodup hmem hndAll
          rw [hl] at hndj
          injection hndj with hn
          rw [← hn]
          exact hcolit
        · obtain ⟨col0, henv0, hdty⟩ := hlift j col hji hcol
          rw [← hdty]
          exact hty j col0 henv0 ndj hndj
      have hargs1 : ∀ a ∈ rest, ∀ c ∈ a.2.children,
          (env1.lookup c).isSome ∨ c ∈ rest.map Prod.fst := by
        intro a ha c hc
        by_cases hci : c = i
        · subst hci
          exact Or.inl (by simp [hcoli])
        · rcases hargs a (List.mem_cons_of_mem _ ha) c hc with h | h
          · exact Or.inl (hkeep c hci h (neededLater_of_child rest resultIds a c ha hc))
          · simp only [List.map_cons, List.mem_cons] at h
            rcases h with h1 | h1
            · exact absurd h1 hci
            · exact Or.inr h1
      have hres1 : ∀ r ∈ resultIds, (env1.lookup r).isSome ∨ r ∈ rest.map Prod.fst := by
        intro r hr
        by_cases hri : r = i
        · subst hri
          exact Or.inl (by simp [hcoli])
        · rcases hres r hr with h | h
          · exact Or.inl (hkeep r hri h (neededLater_of_result rest resultIds r hr))
          · simp only [List.map_cons, List.mem_cons] at h
            rcases h with h1 | h1
            · exact absurd h1 hri
            · exact Or.inr h1
      obtain ⟨env', nrows', hexec', hres'⟩ := ih env1 nrows1
        (fun a ha => hsub a (List.mem_cons_of_mem _ ha))
        (fun a ha => hni a (List.mem_cons_of_mem _ ha))
        hsort' hnd1 hty1 hargs1 hres1
      exact ⟨env', nrows', by rw [hexec]; exact hexec', hres'⟩

theorem placeInputs_ok (inputs : List (Nat × String × DType)) (block : Block)
    (h : blockCarries block inputs = true) :
    ∃ env0, placeInputs inputs block = .ok env0 ∧
      env0.map Prod.fst = inputs.map Prod.fst ∧
      (∀ j col, env0.lookup j = some col →
        ∃ nm ty, (j, nm, ty) ∈ inputs ∧ col.dtype = ty) := by
  induction inputs with
  | nil =>
      refine ⟨[], rfl, rfl, fun j col hc => ?_⟩
      simp [List.lookup] at hc
  | cons p rest ih =>
      obtain ⟨i, nm, ty⟩ := p
      simp only [blockCarries, List.all_cons, Bool.and_eq_true] at h
      have hrest : blockCarries block rest = true := h.2
      obtain ⟨c, hfind, hty⟩ : ∃ c, (block.find? fun b => b.name == nm) = some c ∧
          c.dtype = ty := by
        cases hf : block.find? fun b => b.name == nm with
        | none => rw [hf] at h; exact absurd h.1 (by simp)
        | some c =>
            rw [hf] at h
            exact ⟨c, rfl, by simpa using h.1⟩
      have hget : getInput block nm ty = .ok c := by
        simp [getInput, hfind, hty]
      obtain ⟨env, henv, hkeys, hprop⟩ := ih hrest
      refine ⟨(i, c) :: env, ?_, ?_, ?_⟩
      · simp only [placeInputs, hget, henv]
        rfl
      · simpa using hkeys
      · intro j col hc
        by_cases hj : j = i
        · subst hj
          simp only [List.lookup, beq_self_eq_true] at hc
          injection hc with hc2
          subst hc2
          exact ⟨nm, ty, List.mem_cons_self _ _, hty⟩
        · have hb : (j == i) = false := beq_eq_false_iff_ne.mpr hj
          simp only [List.lookup, hb] at hc
          obtain ⟨nm2, ty2, hmem2, hd2⟩ := hprop j col hc
          exact ⟨nm2, ty2, List.mem_cons_of_mem _ hmem2, hd2⟩

theorem map_fst_filterMap_if {γ : Type} (nodes : List (Nat × Node))
    (g : Nat × Node → γ) (q : Nat × Node → Prop) [DecidablePred q] :
    List.Sublist
      ((nodes.filterMap fun p => if q p then some (p.1, g p) else none).map Prod.fst)
      (nodes.map Prod.fst) := by
  induction nodes with
  | nil => simp
  | cons p rest ih =>
      by_cases hq : q p
      · simp only [List.filterMap_cons, if_pos hq, List.map_cons]
        exact List.Sublist.cons₂ _ ih
      · simp only [List.filterMap_cons, if_neg hq, List.map_cons]
        exact List.Sublist.cons _ ih

/-- The block of required columns with no rows carries the required
columns, provided the input names are distinct. -/
theorem blockCarries_self (inputs : List (Nat × String × DType))
    (hnd : (inputs.map fun p => p.2.1).Nodup) :
    blockCarries (inputs.map fun p => (⟨p.2.1, p.2.2, .fullCol []⟩ : CWTN)) inputs = true := by
  have main : ∀ (inputs2 : List (Nat × String × DType)),
      (∀ p ∈ inputs2, ∃ c, ((inputs.map fun p => (⟨p.2.1, p.2.2, .fullCol []⟩ : CWTN)).find?
        fun b => b.name == p.2.1) = some c ∧ c.dtype = p.2.2) →
      blockCarries (inputs.map fun p => (⟨p.2.1, p.2.2, .fullCol []⟩ : CWTN)) inputs2 = true := by
    intro inputs2 hall
    induction inputs2 with
    | nil => rfl
    | cons p rest ih =>
        obtain ⟨c, hfind, hty⟩ := hall p (List.mem_cons_self _ _)
        simp only [blockCarries, List.all_cons, Bool.and_eq_true]
        constructor
        · rw [hfind]
          simpa using hty
        · exact ih fun p2 hp2 => hall p2 (List.mem_cons_of_mem _ hp2)
  refine main inputs ?_
  clear main
  induction inputs with
  | nil => intro p hp; simp at hp
  | cons q rest ih =>
      intro p hp
      simp only [List.map_cons, List.nodup_cons] at hnd
      rcases List.mem_cons.mp hp with h1 | h1
      · subst h1
        exact ⟨⟨p.2.1, p.2.2, .fullCol []⟩, by simp [List.find?], rfl⟩
      · have hne : p.2.1 ≠ q.2.1 := by
          intro he
          exact hnd.1 (he ▸ List.mem_map.mpr ⟨p, h1, rfl⟩)
        obtain ⟨c, hfind, hty⟩ := ih hnd.2 p h1
        refine ⟨c, ?_, hty⟩
        have hb : ((⟨q.2.1, q.2.2, ColData.fullCol []⟩ : CWTN).name == p.2.1) = false :=
          beq_eq_false_iff_ne.mpr fun he => hne he.symm
        simp only [List.map_cons, List.find?, hb]
        exact hfind

theorem buildResult_ok (env : Env) (results : List (Nat × String × DType))
    (h : ∀ r ∈ results, (env.lookup r.1).isSome) :
    ∃ out, buildResult env results = .ok out ∧
      schemaOf out = results.map fun r => (r.2.1, r.2.2) := by
  induction results with
  | nil => exact ⟨[], rfl, rfl⟩
  | cons r rest ih =>
      obtain ⟨c, hc⟩ := Option.isSome_iff_exists.mp (h r (List.mem_cons_self r rest))
      obtain ⟨out, hout, hsch⟩ := ih fun d hd => h d (List.mem_cons_of_mem r hd)
      obtain ⟨i, nm, ty⟩ := r
      refine ⟨⟨nm, ty, c.data⟩ :: out, ?_, ?_⟩
      · simp only [buildResult]
        rw [hc, hout]
        rfl
      · simp [schemaOf] at hsch ⊢
        exact hsch

/-- Characterization of `(ExpressionActions.ofDag dag).inputs`. -/
theorem mem_inputs_spec (dag : Dag) (j : Nat) (nm : String) (ty : DType)
    (h : (j, nm, ty) ∈ (ExpressionActions.ofDag dag).inputs) :
    ∃ nd, (j, nd) ∈ dag.nodes ∧ nd.type = .input ∧ nd.result_name = nm ∧
      nd.result_type = ty := by
  obtain ⟨p, hp, heq⟩ := List.mem_filterMap.mp h
  by_cases hq : p.2.type = ActionType.input
  · rw [if_pos hq] at heq
    injection heq with hpair
    injection hpair with h1 h2
    injection h2 with h2 h3
    exact ⟨p.2, by rw [← h1]; simpa using hp, hq, h2, h3⟩
  · rw [if_neg hq] at heq
    cases heq

/-- Every arena node is either placed as an input or computed by an
action. -/
theorem computed_somewhere (dag : Dag) (c : Nat) (cnd : Node)
    (h : (c, cnd) ∈ dag.nodes) :
    c ∈ (ExpressionActions.ofDag dag).inputs.map Prod.fst ∨
      c ∈ (ExpressionActions.ofDag dag).actions.map Prod.fst := by
  by_cases hq : cnd.type = ActionType.input
  · refine Or.inl (List.mem_map.mpr ⟨(c, cnd.result_name, cnd.result_type), ?_, rfl⟩)
    exact List.mem_filterMap.mpr ⟨(c, cnd), h, by rw [if_pos hq]⟩
  · refine Or.inr (List.mem_map.mpr ⟨(c, cnd), ?_, rfl⟩)
    refine List.mem_filter.mpr ⟨h, ?_⟩
    simpa using hq

/-- Under the builder invariants (`WFDag`), with both limits disabled and a
block carrying the required columns by name and type, `execute` succeeds
and the output block's schema is the result schema (names and types of the
Index nodes, in order). -/
theorem execute_ok (dag : Dag) (block : Block) (nrows : Nat) (dry : Bool)
    (hwf : WFDag dag)
    (hL : dag.settings.max_temporary_columns = 0)
    (hLnc : dag.settings.max_temporary_non_const_columns = 0)
    (hcar : blockCarries block (ExpressionActions.ofDag dag).inputs = true) :
    ∃ out n, (ExpressionActions.ofDag dag).execute block nrows dry = .ok (out, n) ∧
      schemaOf out = (ExpressionActions.ofDag dag).results.map fun r => (r.2.1, r.2.2) := by
  obtain ⟨hpw, hch, hal, haj, hajt⟩ := hwf
  have hndAll : (dag.nodes.map Prod.fst).Nodup :=
    List.pairwise_map.mpr (hpw.imp fun hab => Nat.ne_of_lt hab)
  obtain ⟨env0, hplace, hkeys, hprop⟩ :=
    placeInputs_ok (ExpressionActions.ofDag dag).inputs block hcar
  have hnd0 : (env0.map Prod.fst).Nodup := by
    rw [hkeys]
    refine List.Nodup.sublist ?_ hndAll
    exact map_fst_filterMap_if dag.nodes
      (fun p => (p.2.result_name, p.2.result_type)) (fun p => p.2.type = ActionType.input)
  have hty0 : ∀ j col, env0.lookup j = some col → ∀ nd, dag.nodes.lookup j = some nd →
      col.dtype = nd.result_type := by
    intro j col hc nd hnd
    obtain ⟨nm, ty, hmem, hd⟩ := hprop j col hc
    obtain ⟨nd2, hmem2, _, _, hty2⟩ := mem_inputs_spec dag j nm ty hmem
    have : dag.nodes.lookup j = some nd2 := lookup_eq_of_mem_nodup hmem2 hndAll
    rw [this] at hnd
    injection hnd with he
    rw [← he, hty2]
    exact hd
  have hargs0 : ∀ a ∈ (ExpressionActions.ofDag dag).actions, ∀ c ∈ a.2.children,
      (env0.lookup c).isSome ∨ c ∈ (ExpressionActions.ofDag dag).actions.map Prod.fst := by
    intro a ha c hc
    have hmem : a ∈ dag.nodes := List.mem_of_mem_filter ha
    obtain ⟨cnd, hcnd⟩ := Option.isSome_iff_exists.mp (hch a hmem c hc).2
    rcases computed_somewhere dag c cnd (mem_of_lookup_eq_some hcnd) with h1 | h1
    · refine Or.inl (isSome_lookup_of_mem_keys env0 c ?_)
      rw [hkeys]
      exact h1
    · exact Or.inr h1
  have hres0 : ∀ r ∈ (ExpressionActions.ofDag dag).results.map Prod.fst,
      (env0.lookup r).isSome ∨ r ∈ (ExpressionActions.ofDag dag).actions.map Prod.fst := by
    intro r hr
    obtain ⟨rr, hrmem, hre⟩ := List.mem_map.mp hr
    obtain ⟨cell, hcell, hcelleq⟩ := List.mem_filterMap.mp hrmem
    cases hl : dag.nodes.lookup cell.2.id with
    | none => rw [hl] at hcelleq; cases hcelleq
    | some nd =>
        rw [hl] at hcelleq
        injection hcelleq with he
        have hid : rr.1 = cell.2.id := by rw [← he]
        rcases computed_somewhere dag cell.2.id nd (mem_of_lookup_eq_some hl) with h1 | h1
        · refine Or.inl (isSome_lookup_of_mem_keys env0 r ?_)
          rw [hkeys, ← hre, hid]
          exact h1
        · rw [← hre, hid]
          exact Or.inr h1
  obtain ⟨env', n', hexec, hsome⟩ := execActions_ok dag.nodes
    (ExpressionActions.ofDag dag).settings
    ((ExpressionActions.ofDag dag).results.map Prod.fst) dry hL hLnc hndAll hch hal haj hajt
    (ExpressionActions.ofDag dag).actions env0 nrows
    (fun a ha => List.mem_of_mem_filter ha)
    (fun a ha => by simpa using (List.mem_filter.mp ha).2)
    (hpw.sublist (List.filter_sublist _))
    hnd0 hty0 hargs0 hres0
  obtain ⟨out, hbuild, hsch⟩ := buildResult_ok env' (ExpressionActions.ofDag dag).results
    (fun r hr => hsome r.1 (List.mem_map.mpr ⟨r, hr, rfl⟩))
  refine ⟨out, n', ?_, hsch⟩
  show (do
    let env0 ← placeInputs (ExpressionActions.ofDag dag).inputs block
    let st ← execActions (ExpressionActions.ofDag dag).settings
      ((ExpressionActions.ofDag dag).results.map Prod.fst) dry
      (ExpressionActions.ofDag dag).actions (env0, nrows)
    let outb ← buildResult st.1 (ExpressionActions.ofDag dag).results
    Except.ok (outb, st.2)) = Except.ok (out, n')
  rw [hplace]
  show (do
    let st ← execActions (ExpressionActions.ofDag dag).settings
      ((ExpressionActions.ofDag dag).results.map Prod.fst) dry
      (ExpressionActions.ofDag dag).actions (env0, nrows)
    let outb ← buildResult st.1 (ExpressionActions.ofDag dag).results
    Except.ok (outb, st.2)) = Except.ok (out, n')
  rw [hexec]
  show (do
    let outb ← buildResult env' (ExpressionActions.ofDag dag).results
    Except.ok (outb, n')) = Except.ok (out, n')
  rw [hbuild]
  rfl

/-- C4 amended: for every finalized (well-formed) DAG wrapped in an
`ExpressionActions` whose temporary-column limits are disabled (their
default, 0), and every block that carries all of `getRequiredColumns` by
name and type, `execute` succeeds and the resulting block's schema (column
names and types in order) equals `getSampleBlock()`'s. -/
theorem execute_schema_matches_sample (dag : Dag) (block : Block) (nrows : Nat)
    (hwf : WFDag dag)
    (hnames : ((ExpressionActions.ofDag dag).inputs.map fun p => p.2.1).Nodup)
    (hL : dag.settings.max_temporary_columns = 0)
    (hLnc : dag.settings.max_temporary_non_const_columns = 0)
    (hcar : blockCarries block (ExpressionActions.ofDag dag).inputs = true) :
    ∃ out n sb,
      (ExpressionActions.ofDag dag).execute block nrows false = .ok (out, n) ∧
        (ExpressionActions.ofDag dag).sampleBlockE = .ok sb ∧
        schemaOf out = schemaOf sb := by
  obtain ⟨out, n, hex, hsch⟩ := execute_ok dag block nrows false hwf hL hLnc hcar
  obtain ⟨sb, m, hex2, hsch2⟩ := execute_ok dag
    ((ExpressionActions.ofDag dag).inputs.map fun p => ⟨p.2.1, p.2.2, .fullCol []⟩) 0 true
    hwf hL hLnc (blockCarries_self _ hnames)
  refine ⟨out, n, sb, hex, ?_, ?_⟩
  · unfold ExpressionActions.sampleBlockE
    rw [hex2]
    rfl
  · rw [hsch, hsch2]

/-- A DAG identical to the witness DAG but with `max_temporary_columns = 2`:
three columns (the two inputs and the sum, all in the Index) are live after
the addition. -/
def limitDag : Dag :=
  { nodes := [(0, mkInput "a" .tInt), (1, mkInput "b" .tInt),
      (2, mkFunction "s" .tInt .fPlus [0, 1])]
    nextNode := 3
    index := ⟨3, [(0, ⟨0, "a"⟩), (1, ⟨1, "b"⟩), (2, ⟨2, "s"⟩)], [("a", 0), ("b", 1), ("s", 2)]⟩
    settings := { max_temporary_columns := 2 } }

/-- Counterexample to C4 as stated: `limitDag` is well formed and the block
carries its required columns, yet `execute` fails with
*TooManyTemporaryColumns* instead of succeeding — the claim as stated
quantifies over every `ExpressionActions`, including ones whose
`max_temporary_columns` limit is set and exceeded. -/
theorem execute_limit_counterexample :
    WFDag limitDag ∧
      blockCarries [⟨"a", .tInt, .fullCol [.vInt 1]⟩, ⟨"b", .tInt, .fullCol [.vInt 2]⟩]
        (ExpressionActions.ofDag limitDag).inputs = true ∧
      (ExpressionActions.ofDag limitDag).execute
          [⟨"a", .tInt, .fullCol [.vInt 1]⟩, ⟨"b", .tInt, .fullCol [.vInt 2]⟩] 1 false =
        .error .tooManyTemporaryColumns :=
  ⟨by decide, by decide, rfl⟩

/-- The C4 witness DAG: inputs `a`, `b` and their sum `s`, all visible, no
limits. -/
def schemaDag : Dag :=
  { nodes := [(0, mkInput "a" .tInt), (1, mkInput "b" .tInt),
      (2, mkFunction "s" .tInt .fPlus [0, 1])]
    nextNode := 3
    index := ⟨3, [(0, ⟨0, "a"⟩), (1, ⟨1, "b"⟩), (2, ⟨2, "s"⟩)], [("a", 0), ("b", 1), ("s", 2)]⟩
    settings := {} }

theorem bind_ok_ex {ε α β : Type} (x : α) (f : α → Except ε β) :
    (do let a ← Except.ok x; f a) = f x := rfl

theorem bind_err_ex {ε α β : Type} (e : ε) (f : α → Except ε β) :
    (do let a ← (Except.error e : Except ε α); f a) = Except.error e := rfl

theorem checkLimits_ok_inv (settings : ActionsSettings) (env : Env)
    (h : checkLimits settings env = .ok ()) :
    (settings.max_temporary_columns ≠ 0 →
      env.length ≤ settings.max_temporary_columns) ∧
      (settings.max_temporary_non_const_columns ≠ 0 →
        (env.filter fun p => !p.2.data.isConst).length ≤
          settings.max_temporary_non_const_columns) := by
  unfold checkLimits at h
  by_cases h1 : settings.max_temporary_columns ≠ 0 ∧
      settings.max_temporary_columns < env.length
  · rw [if_pos h1] at h
    cases h
  · rw [if_neg h1] at h
    by_cases h2 : settings.max_temporary_non_const_columns ≠ 0 ∧
        settings.max_temporary_non_const_columns <
          (env.filter fun p => !p.2.data.isConst).length
    · rw [if_pos h2] at h
      cases h
    · push_neg at h1 h2
      exact ⟨h1, h2⟩

theorem checkLimits_too_many (settings : ActionsSettings) (env : Env)
    (h1 : settings.max_temporary_columns ≠ 0)
    (h2 : settings.max_temporary_columns < env.length) :
    checkLimits settings env = .error .tooManyTemporaryColumns := by
  unfold checkLimits
  rw [if_pos ⟨h1, h2⟩]

theorem checkLimits_too_many_nc (settings : ActionsSettings) (env : Env)
    (h0 : settings.max_temporary_columns = 0 ∨
      env.length ≤ settings.max_temporary_columns)
    (h1 : settings.max_temporary_non_const_columns ≠ 0)
    (h2 : settings.max_temporary_non_const_columns <
      (env.filter fun p => !p.2.data.isConst).length) :
    checkLimits settings env = .error .tooManyTemporaryNonConstColumns := by
  unfold checkLimits
  have hneg : ¬(settings.max_temporary_columns ≠ 0 ∧
      settings.max_temporary_columns < env.length) := by
    rcases h0 with h0 | h0
    · exact fun hc => hc.1 h0
    · exact fun hc => absurd h0 (Nat.not_le_of_lt hc.2)
  rw [if_neg hneg, if_pos ⟨h1, h2⟩]

/-- Every successful bounded run of at least one step ends in a state that
just passed `checkLimits`. -/
theorem execSteps_last_check (settings : ActionsSettings) (rids : List Nat) (dry : Bool) :
    ∀ (k : Nat) (as : List (Nat × Node)) (st0 st : Env × Nat),
      execSteps settings rids dry k as st0 = .ok st → 1 ≤ k → as ≠ [] →
      checkLimits settings st.1 = .ok () := by
  intro k
  induction k with
  | zero =>
      intro as st0 st h h1 _
      omega
  | succ k ih =>
      intro as st0 st h _ hne
      cases as with
      | nil => exact absurd rfl hne
      | cons a rest =>
          simp only [execSteps] at h
          cases happ : applyActionRaw rids rest dry st0 a with
          | error e =>
              rw [happ] at h
              simp only [bind_err_ex] at h
              cases h
          | ok st1 =>
              rw [happ] at h
              simp only [bind_ok_ex] at h
              cases hcl : checkLimits settings st1.1 with
              | error e =>
                  rw [hcl] at h
                  simp only [bind_err_ex] at h
                  cases h
              | ok u =>
                  cases u
                  rw [hcl] at h
                  simp only [bind_ok_ex] at h
                  cases hk : k with
                  | zero =>
                      subst hk
                      cases rest with
                      | nil =>
                          simp only [execSteps] at h
                          injection h with he
                          rw [← he]
                          exact hcl
                      | cons b rb =>
                          simp only [execSteps] at h
                          injection h with he
                          rw [← he]
                          exact hcl
                  | succ m =>
                      subst hk
                      cases rest with
                      | nil =>
                          simp only [execSteps] at h
                          injection h with he
                          rw [← he]
                          exact hcl
                      | cons b rb =>
                          exact ih (b :: rb) st1 st h (by omega) (by simp)

/-- The full action run decomposes as a bounded run followed by the
remaining suffix. -/
theorem execActions_through (settings : ActionsSettings) (rids : List Nat) (dry : Bool) :
    ∀ (k : Nat) (as : List (Nat × Node)) (st : Env × Nat),
      execActions settings rids dry as st =
        (execSteps settings rids dry k as st).bind
          fun st1 => execActions settings rids dry (as.drop k) st1 := by
  intro k
  induction k with
  | zero =>
      intro as st
      cases as with
      | nil => rfl
      | cons a rest => rfl
  | succ k ih =>
      intro as st
      cases as with
      | nil => rfl
      | cons a rest =>
          simp only [execActions, execSteps, List.drop_succ_cons]
          cases happ : applyActionRaw rids rest dry st a with
          | error e => simp [bind_err_ex, Except.bind]
          | ok st1 =>
              simp only [bind_ok_ex]
              cases hcl : checkLimits settings st1.1 with
              | error e => simp [bind_err_ex, Except.bind]
              | ok u =>
                  cases u
                  simp only [bind_ok_ex]
                  exact ih rest st1

/-- C3: after every Action, `checkLimits` has been applied to the live
columns: (1) whenever execution reaches the state after `k ≥ 1` actions,
the number of live columns is at most `max_temporary_columns` (when set),
and the number of live non-constant columns at most
`max_temporary_non_const_columns` (when set); (2) if applying the next
action would exceed the column bound, `execute` fails with
*TooManyTemporaryColumns*, and analogously with
*TooManyTemporaryNonConstColumns* for the non-const bound. -/
theorem limits_enforced (ea : ExpressionActions) (block : Block) (nrows : Nat)
    (dry : Bool) :
    (∀ k st, ea.execStateAfter block nrows dry k = .ok st → 1 ≤ k → ea.actions ≠ [] →
      (ea.settings.max_temporary_columns ≠ 0 →
        st.1.length ≤ ea.settings.max_temporary_columns) ∧
        (ea.settings.max_temporary_non_const_columns ≠ 0 →
          (st.1.filter fun p => !p.2.data.isConst).length ≤
            ea.settings.max_temporary_non_const_columns)) ∧
      (∀ k a rest st st', ea.actions.drop k = a :: rest →
        ea.execStateAfter block nrows dry k = .ok st →
        applyActionRaw (ea.results.map Prod.fst) rest dry st a = .ok st' →
        (ea.settings.max_temporary_columns ≠ 0 →
          ea.settings.max_temporary_columns < st'.1.length →
          ea.execute block nrows dry = .error .tooManyTemporaryColumns) ∧
          ((ea.settings.max_temporary_columns = 0 ∨
              st'.1.length ≤ ea.settings.max_temporary_columns) →
            ea.settings.max_temporary_non_const_columns ≠ 0 →
            ea.settings.max_temporary_non_const_columns <
              (st'.1.filter fun p => !p.2.data.isConst).length →
            ea.execute block nrows dry = .error .tooManyTemporaryNonConstColumns)) := by
  constructor
  · intro k st h hk hne
    unfold ExpressionActions.execStateAfter at h
    cases hpl : placeInputs ea.inputs block with
    | error e =>
        rw [hpl] at h
        simp only [bind_err_ex] at h
        cases h
    | ok env0 =>
        rw [hpl] at h
        simp only [bind_ok_ex] at h
        exact checkLimits_ok_inv ea.settings st.1
          (execSteps_last_check ea.settings (ea.results.map Prod.fst) dry k ea.actions
            (env0, nrows) st h hk hne)
  · intro k a rest st st' hdrop hst happly
    unfold ExpressionActions.execStateAfter at hst
    cases hpl : placeInputs ea.inputs block with
    | error e =>
        rw [hpl] at hst
        simp only [bind_err_ex] at hst
        cases hst
    | ok env0 =>
        rw [hpl] at hst
        simp only [bind_ok_ex] at hst
        have hdec := execActions_through ea.settings (ea.results.map Prod.fst) dry k
          ea.actions (env0, nrows)
        rw [hst, hdrop] at hdec
        simp only [Except.bind] at hdec
        constructor
        · intro h1 h2
          have hcl := checkLimits_too_many ea.settings st'.1 h1 h2
          have herr : execActions ea.settings (ea.results.map Prod.fst) dry (a :: rest) st =
              .error .tooManyTemporaryColumns := by
            simp only [execActions, happly, bind_ok_ex, hcl, bind_err_ex]
          unfold ExpressionActions.execute
          rw [hpl]
          simp only [bind_ok_ex]
          rw [hdec, herr]
          rfl
        · intro h0 h1 h2
          have hcl := checkLimits_too_many_nc ea.settings st'.1 h0 h1 h2
          have herr : execActions ea.settings (ea.results.map Prod.fst) dry (a :: rest) st =
              .error .tooManyTemporaryNonConstColumns := by
            simp only [execActions, happly, bind_ok_ex, hcl, bind_err_ex]
          unfold ExpressionActions.execute
          rw [hpl]
          simp only [bind_ok_ex]
          rw [hdec, herr]
          rfl

/-- Witness for C3: on `limitDag` (`max_temporary_columns = 2`), the state
after the addition holds three live columns, and `execute` fails with
*TooManyTemporaryColumns*. -/
theorem limits_enforced_witness :
    (ExpressionActions.ofDag limitDag).execute
        [⟨"a", .tInt, .fullCol [.vInt 1]⟩, ⟨"b", .tInt, .fullCol [.vInt 2]⟩] 1 false =
      .error .tooManyTemporaryColumns :=
  ((limits_enforced (ExpressionActions.ofDag limitDag)
      [⟨"a", .tInt, .fullCol [.vInt 1]⟩, ⟨"b", .tInt, .fullCol [.vInt 2]⟩] 1 false).2
    0 (2, mkFunction "s" .tInt .fPlus [0, 1]) []
    ([(0, ⟨"a", .tInt, .fullCol [.vInt 1]⟩), (1, ⟨"b", .tInt, .fullCol [.vInt 2]⟩)], 1)
    ([(0, ⟨"a", .tInt, .fullCol [.vInt 1]⟩), (1, ⟨"b", .tInt, .fullCol [.vInt 2]⟩),
      (2, ⟨"s", .tInt, .fullCol [.vInt 3]⟩)], 1)
    rfl rfl (by rfl)).1 (by decide) (by decide)

/-- Witness for C4 (amended): on `schemaDag` with a one-row block, `execute`
succeeds and its schema agrees with the sample block's. -/
theorem execute_schema_matches_sample_witness :
    ∃ out n sb,
      (ExpressionActions.ofDag schemaDag).execute
          [⟨"a", .tInt, .fullCol [.vInt 1]⟩, ⟨"b", .tInt, .fullCol [.vInt 2]⟩] 1 false =
        .ok (out, n) ∧
        (ExpressionActions.ofDag schemaDag).sampleBlockE = .ok sb ∧
        schemaOf out = schemaOf sb :=
  execute_schema_matches_sample schemaDag
    [⟨"a", .tInt, .fullCol [.vInt 1]⟩, ⟨"b", .tInt, .fullCol [.vInt 2]⟩] 1
    (by decide) (by decide) rfl rfl (by decide)

/-! ## ActionsDAG value semantics and splitActionsBeforeArrayJoin (C2)

For the split claim the DAG itself is executed over blocks of row values
(`execute(original, B)` in the spec's split-soundness property).  The
value-level semantics processes the arena in order (children come first),
carrying an environment of computed row columns and the current row count;
an ARRAY_JOIN node unfolds its child column and replicates every other
live column in lockstep, exactly as in §4.3. -/

/-- A block of named row columns. -/
abbrev VBlock := List (String × List Val)

/-- Node id → rows. -/
abbrev VEnv := List (Nat × List Val)

/-- Evaluate one node in arena order. -/
def evalNodeStep (block : VBlock) (st : VEnv × Nat) (p : Nat × Node) :
    Except ExecErr (VEnv × Nat) :=
  let env := st.1
  let nrows := st.2
  let nd := p.2
  match nd.type with
  | .input =>
      match block.lookup nd.result_name with
      | none => .error .notFoundColumn
      | some col => .ok (env ++ [(p.1, col)], nrows)
  | .column => .ok (env ++ [(p.1, List.replicate nrows nd.value)], nrows)
  | .aliasNode =>
      match nd.children with
      | [c] =>
          match env.lookup c with
          | none => .error .logicalError
          | some col => .ok (env ++ [(p.1, col)], nrows)
      | _ => .error .logicalError
  | .arrayJoin =>
      match nd.children with
      | [c] =>
          match env.lookup c with
          | none => .error .logicalError
          | some col =>
              let lens := col.map fun v => v.elems.length
              .ok ((env.map fun q => (q.1, replRows lens q.2)) ++
                [(p.1, (col.map Val.elems).flatten)], lens.sum)
      | _ => .error .logicalError
  | .function =>
      match nd.children.mapM fun c => env.lookup c with
      | none => .error .logicalError
      | some cols =>
          .ok (env ++ [(p.1, (List.range nrows).map fun i =>
            applyFun nd.func (cols.map fun col => col.getD i (.vInt 0)))], nrows)

/-- Process a node list in order. -/
def execNodes (block : VBlock) : List (Nat × Node) → VEnv × Nat → Except ExecErr (VEnv × Nat)
  | [], st => .ok st
  | p :: rest, st => (evalNodeStep block st p).bind fun st' => execNodes block rest st'

/-- Collect the Index columns, in order, by name. -/
def outCols (env : VEnv) : List (Nat × NodePtr) → Except ExecErr VBlock
  | [] => .ok []
  | cell :: rest =>
      match env.lookup cell.2.id with
      | none => .error .logicalError
      | some col => (outCols env rest).map ((cell.2.result_name, col) :: ·)

/-- Execute the whole DAG on a value block: run the arena in order, then
read off the Index columns. -/
def Dag.execDag (dag : Dag) (block : VBlock) (nrows : Nat) : Except ExecErr (VBlock × Nat) :=
  (execNodes block dag.nodes ([], nrows)).bind fun st =>
    (outCols st.1 dag.index.cells).map fun out => (out, st.2)

/-- The ids of nodes that depend (transitively) on the array-joined set:
the node's own result name is in the set, the node is itself an ARRAY JOIN
(row-sensitive computations stay on the post side, spec §4.2), or some
child depends.  One forward pass suffices because children come first. -/
def depSet (nodes : List (Nat × Node)) (S : List String) : List Nat :=
  nodes.foldl
    (fun acc p =>
      if S.contains p.2.result_name || p.2.type == ActionType.arrayJoin
          || p.2.children.any (fun c => acc.contains c)
      then acc ++ [p.1] else acc) []

/-- Build an Index exposing the given nodes, in order. -/
def indexOfNodes (nodes : List (Nat × Node)) : Index :=
  nodes.foldl (fun idx p => idx.insert ⟨p.1, p.2.result_name⟩) ⟨0, [], []⟩

/-- Modelled from the spec: `ActionsDAG::splitActionsBeforeArrayJoin
(array_joined_columns)` (body in the missing `.cpp`; spec §4.2): return a
new (pre) DAG containing all computations that do not depend transitively
on any node named in `array_joined_columns` — ARRAY JOIN nodes being
row-sensitive always stay behind — leaving the remainder (post) in place;
return null when no action can be moved (every non-input node depends on
the array-joined set).  The pre-DAG keeps every INPUT node (the
array-joined sources pass through it) and exposes all its nodes; in the
post-DAG each moved node becomes an INPUT fed by the pre-DAG's output, and
the ARRAY JOIN node becomes an INPUT fed by the ARRAY JOIN's result
column. -/
def Dag.splitActionsBeforeArrayJoin (dag : Dag) (S : List String) : Option (Dag × Dag) :=
  let dep := depSet dag.nodes S
  let movable := dag.nodes.filter fun p =>
    !(dep.contains p.1) && !(p.2.type == ActionType.input)
  if movable.isEmpty then none
  else
    let preNodes := dag.nodes.filter fun p =>
      !(dep.contains p.1) || p.2.type == ActionType.input
    some
      ({ nodes := preNodes
         nextNode := dag.nextNode
         index := indexOfNodes preNodes
         settings := dag.settings },
       { nodes := dag.nodes.map fun p =>
           if !(dep.contains p.1) || p.2.type == ActionType.arrayJoin
           then (p.1, mkInput p.2.result_name p.2.result_type)
           else p
         nextNode := dag.nextNode
         index := dag.index
         settings := dag.settings })

/-- The external ARRAY JOIN step between the two halves (spec §6,
`ArrayJoinAction`): unfold the source column into the result name,
replicating every other column's rows in lockstep; the row count becomes
the total number of array elements. -/
def arrayJoinBlock (sName rName : String) (block : VBlock) :
    Except ExecErr (VBlock × Nat) :=
  match block.lookup sName with
  | none => .error .notFoundColumn
  | some scol =>
      let lens := scol.map fun v => v.elems.length
      .ok ((block.map fun c => (c.1, replRows lens c.2)) ++
        [(rName, (scol.map Val.elems).flatten)], lens.sum)

/-! ### Generic association-list lemmas over arbitrary keys -/

theorem lookup_append_left_of_some {κ β : Type} [BEq κ] (k : κ) (v : β)
    (l l' : List (κ × β)) (h : l.lookup k = some v) :
    (l ++ l').lookup k = some v := by
  induction l with
  | nil => simp [List.lookup] at h
  | cons p rest ih =>
      by_cases hk : (k == p.1) = true
      · simp only [List.lookup, hk] at h
        simpa [List.lookup, hk] using h
      · have hb : (k == p.1) = false := by simpa using hk
        simp only [List.lookup, hb] at h
        simp only [List.cons_append, List.lookup, hb]
        exact ih h

theorem lookup_append_right_of_none {κ β : Type} [BEq κ] (k : κ)
    (l l' : List (κ × β)) (h : l.lookup k = none) :
    (l ++ l').lookup k = l'.lookup k := by
  induction l with
  | nil => rfl
  | cons p rest ih =>
      by_cases hk : (k == p.1) = true
      · simp [List.lookup, hk] at h
      · have hb : (k == p.1) = false := by simpa using hk
        simp only [List.lookup, hb] at h
        simp only [List.cons_append, List.lookup, hb]
        exact ih h

theorem lookup_eq_none_of_not_mem_keys {κ β : Type} [BEq κ] [LawfulBEq κ] (k : κ)
    (l : List (κ × β)) (h : k ∉ l.map Prod.fst) : l.lookup k = none := by
  induction l with
  | nil => rfl
  | cons p rest ih =>
      simp only [List.map_cons, List.mem_cons] at h
      push_neg at h
      have hb : (k == p.1) = false := beq_eq_false_iff_ne.mpr h.1
      simp only [List.lookup, hb]
      exact ih h.2

theorem lookup_map_snd_gen {κ α β : Type} [BEq κ] (l : List (κ × α)) (g : α → β) (k : κ) :
    (l.map fun p => (p.1, g p.2)).lookup k = (l.lookup k).map g := by
  induction l with
  | nil => simp [List.lookup]
  | cons p rest ih =>
      by_cases hk : (k == p.1) = true
      · simp [List.lookup, hk]
      · have hb : (k == p.1) = false := by simpa using hk
        simp [List.lookup, hb, ih]

/-- Look a node's name up in a name-keyed projection of a node list whose
names are duplicate-free. -/
theorem lookup_map_by_name {β : Type} (ps : List (Nat × Node)) (g : Nat × Node → β)
    (i : Nat) (nd : Node) (hmem : (i, nd) ∈ ps)
    (hnd : (ps.map fun p => p.2.result_name).Nodup) :
    (ps.map fun p => (p.2.result_name, g p)).lookup nd.result_name = some (g (i, nd)) := by
  induction ps with
  | nil => simp at hmem
  | cons p rest ih =>
      simp only [List.map_cons, List.nodup_cons] at hnd
      rcases List.mem_cons.mp hmem with h1 | h1
      · subst h1
        simp [List.lookup]
      · have hne : nd.result_name ≠ p.2.result_name := by
          intro he
          exact hnd.1 (he ▸ List.mem_map.mpr ⟨(i, nd), h1, rfl⟩)
        have hb : (nd.result_name == p.2.result_name) = false := beq_eq_false_iff_ne.mpr hne
        simp only [List.map_cons, List.lookup, hb]
        exact ih h1 hnd.2

/-! ### Row-replication lemmas -/

theorem replRows_cons (l : Nat) (lens : List Nat) (c0 : Val) (ct : List Val) :
    replRows (l :: lens) (c0 :: ct) = List.replicate l c0 ++ replRows lens ct := by
  simp [replRows]

theorem replRows_nil_right (lens : List Nat) : replRows lens [] = [] := by
  cases lens <;> simp [replRows]

theorem replRows_length (lens : List Nat) (vs : List Val) (h : lens.length = vs.length) :
    (replRows lens vs).length = lens.sum := by
  induction lens generalizing vs with
  | nil => simp [replRows]
  | cons l lens' ih =>
      cases vs with
      | nil => simp at h
      | cons v vt =>
          rw [replRows_cons]
          simp only [List.length_append, List.length_replicate, List.sum_cons]
          rw [ih vt (by simpa using h)]

theorem replRows_replicate (lens : List Nat) (n : Nat) (v : Val) (h : lens.length = n) :
    replRows lens (List.replicate n v) = List.replicate lens.sum v := by
  induction lens generalizing n with
  | nil => simp [replRows]
  | cons l lens' ih =>
      cases n with
      | zero => simp at h
      | succ n' =>
          simp only [List.replicate_succ]
          rw [replRows_cons, List.sum_cons, List.replicate_add]
          rw [ih n' (by simpa using h)]

theorem flatten_elems_length (col : List Val) :
    ((col.map Val.elems).flatten).length = (col.map fun v => v.elems.length).sum := by
  rw [List.length_flatten]
  simp only [List.map_map]
  rfl

theorem getD_replicate_lt {α : Type} (a d : α) :
    ∀ (l i : Nat), i < l → (List.replicate l a).getD i d = a := by
  intro l
  induction l with
  | zero => intro i h; omega
  | succ l' ih =>
      intro i h
      cases i with
      | zero => rfl
      | succ i' => exact ih i' (by omega)

/-- Row-wise evaluation commutes with array-join replication: an
elementwise function over replicated columns equals the replication of the
elementwise function over the original columns. -/
theorem rows_replRows (h : List Val → Val) :
    ∀ (lens : List Nat) (n : Nat) (cols : List (List Val)),
      lens.length = n → (∀ col ∈ cols, col.length = n) →
      ((List.range lens.sum).map fun i =>
          h (cols.map fun col => (replRows lens col).getD i (.vInt 0))) =
        replRows lens ((List.range n).map fun i =>
          h (cols.map fun col => col.getD i (.vInt 0))) := by
  intro lens
  induction lens with
  | nil =>
      intro n cols hl _
      have hn : n = 0 := by simpa using hl.symm
      subst hn
      simp [replRows]
  | cons l lens' ih =>
      intro n cols hl hcols
      cases n with
      | zero => simp at hl
      | succ n' =>
          have hl' : lens'.length = n' := by simpa using hl
          have hne : ∀ col ∈ cols, col ≠ [] := by
            intro col hc he
            have := hcols col hc
            rw [he] at this
            simp at this
          have htails : ∀ col ∈ cols.map List.tail, col.length = n' := by
            intro col hc
            obtain ⟨c, hcm, hce⟩ := List.mem_map.mp hc
            have := hcols c hcm
            rw [← hce, List.length_tail]
            omega
          have hfact1 : ∀ i, i < l → ∀ col ∈ cols,
              (replRows (l :: lens') col).getD i (.vInt 0) = col.getD 0 (.vInt 0) := by
            intro i hi col hc
            cases col with
            | nil => exact absurd rfl (hne [] hc)
            | cons c0 ct =>
                rw [replRows_cons]
                rw [List.getD_append _ _ _ _ (by simpa using hi)]
                exact getD_replicate_lt c0 (.vInt 0) l i hi
          have hfact2 : ∀ i, ∀ col ∈ cols,
              (replRows (l :: lens') col).getD (l + i) (.vInt 0) =
                (replRows lens' col.tail).getD i (.vInt 0) := by
            intro i col hc
            cases col with
            | nil => exact absurd rfl (hne [] hc)
            | cons c0 ct =>
                rw [replRows_cons]
                rw [List.getD_append_right _ _ _ _ (by simp)]
                simp
          have hsum : (l :: lens').sum = l + lens'.sum := List.sum_cons
          rw [hsum, List.range_add, List.map_append, List.map_map]
          have hpart1 : (List.range l).map (fun i =>
              h (cols.map fun col => (replRows (l :: lens') col).getD i (.vInt 0))) =
              List.replicate l (h (cols.map fun col => col.getD 0 (.vInt 0))) := by
            have : (List.range l).map (fun i =>
                h (cols.map fun col => (replRows (l :: lens') col).getD i (.vInt 0))) =
                (List.range l).map (fun _ =>
                  h (cols.map fun col => col.getD 0 (.vInt 0))) := by
              refine List.map_congr_left ?_
              intro i hi
              have hil : i < l := List.mem_range.mp hi
              congr 1
              exact List.map_congr_left fun col hc => hfact1 i hil col hc
            rw [this]
            have := List.map_const (List.range l) (h (cols.map fun col => col.getD 0 (.vInt 0)))
            simpa [Function.const, List.length_range] using this
          have hpart2 : (List.range lens'.sum).map ((fun i =>
              h (cols.map fun col => (replRows (l :: lens') col).getD i (.vInt 0))) ∘
                fun x => l + x) =
              replRows lens' ((List.range n').map fun i =>
                h ((cols.map List.tail).map fun col => col.getD i (.vInt 0))) := by
            have hstep : (List.range lens'.sum).map ((fun i =>
                h (cols.map fun col => (replRows (l :: lens') col).getD i (.vInt 0))) ∘
                  fun x => l + x) =
                (List.range lens'.sum).map fun i =>
                  h ((cols.map List.tail).map fun col =>
                    (replRows lens' col).getD i (.vInt 0)) := by
              refine List.map_congr_left ?_
              intro i _
              simp only [Function.comp]
              congr 1
              rw [List.map_map]
              exact List.map_congr_left fun col hc => hfact2 i col hc
            rw [hstep]
            exact ih n' (cols.map List.tail) hl' htails
          rw [hpart1, hpart2]
          rw [List.range_succ_eq_map, List.map_cons, List.map_map]
          rw [replRows_cons]
          congr 1
          congr 1
          refine List.map_congr_left ?_
          intro i _
          simp only [Function.comp]
          congr 1
          rw [List.map_map]
          refine List.map_congr_left ?_
          intro col hc
          cases col with
          | nil => exact absurd rfl (hne [] hc)
          | cons c0 ct => rfl

theorem execNodes_append (block : VBlock) :
    ∀ (as bs : List (Nat × Node)) (st : VEnv × Nat),
      execNodes block (as ++ bs) st =
        (execNodes block as st).bind fun st1 => execNodes block bs st1 := by
  intro as
  induction as with
  | nil => intro bs st; rfl
  | cons a rest ih =>
      intro bs st
      simp only [List.cons_append, execNodes]
      cases hs : evalNodeStep block st a with
      | error e => rfl
      | ok st1 =>
          simp only [Except.bind]
          exact ih bs st1

/-- A node that is not an ARRAY JOIN appends one binding and keeps the row
count. -/
theorem evalNodeStep_nojoin (block : VBlock) (st : VEnv × Nat) (p : Nat × Node)
    (hnj : p.2.type ≠ .arrayJoin) (st' : VEnv × Nat)
    (h : evalNodeStep block st p = .ok st') :
    st'.2 = st.2 ∧ ∃ col, st'.1 = st.1 ++ [(p.1, col)] := by
  obtain ⟨i, nd⟩ := p
  simp only at hnj
  cases ht : nd.type with
  | input =>
      cases hb : block.lookup nd.result_name with
      | none =>
          have heval : evalNodeStep block st (i, nd) = .error .notFoundColumn := by
            simp [evalNodeStep, ht, hb]
          rw [heval] at h
          cases h
      | some col =>
          have heval : evalNodeStep block st (i, nd) = .ok (st.1 ++ [(i, col)], st.2) := by
            simp [evalNodeStep, ht, hb]
          rw [heval] at h
          injection h with h2
          rw [← h2]
          exact ⟨rfl, col, rfl⟩
  | column =>
      have heval : evalNodeStep block st (i, nd) =
          .ok (st.1 ++ [(i, List.replicate st.2 nd.value)], st.2) := by
        simp [evalNodeStep, ht]
      rw [heval] at h
      injection h with h2
      rw [← h2]
      exact ⟨rfl, _, rfl⟩
  | aliasNode =>
      cases hc : nd.children with
      | nil =>
          have heval : evalNodeStep block st (i, nd) = .error .logicalError := by
            simp [evalNodeStep, ht, hc]
          rw [heval] at h
          cases h
      | cons c cr =>
          cases cr with
          | cons d dr =>
              have heval : evalNodeStep block st (i, nd) = .error .logicalError := by
                simp [evalNodeStep, ht, hc]
              rw [heval] at h
              cases h
          | nil =>
              cases he : st.1.lookup c with
              | none =>
                  have heval : evalNodeStep block st (i, nd) = .error .logicalError := by
                    simp [evalNodeStep, ht, hc, he]
                  rw [heval] at h
                  cases h
              | some col =>
                  have heval : evalNodeStep block st (i, nd) =
                      .ok (st.1 ++ [(i, col)], st.2) := by
                    simp [evalNodeStep, ht, hc, he]
                  rw [heval] at h
                  injection h with h2
                  rw [← h2]
                  exact ⟨rfl, col, rfl⟩
  | arrayJoin => exact absurd ht hnj
  | function =>
      cases hm : nd.children.mapM fun c => st.1.lookup c with
      | none =>
          have heval : evalNodeStep block st (i, nd) = .error .logicalError := by
            simp only [evalNodeStep, ht, hm]
          rw [heval] at h
          cases h
      | some cols =>
          have heval : evalNodeStep block st (i, nd) =
              .ok (st.1 ++ [(i, (List.range st.2).map fun r =>
                applyFun nd.func (cols.map fun col => col.getD r (.vInt 0)))], st.2) := by
            simp only [evalNodeStep, ht, hm]
          rw [heval] at h
          injection h with h2
          rw [← h2]
          exact ⟨rfl, _, rfl⟩

/-- A run containing no ARRAY JOIN node appends bindings and keeps the row
count. -/
theorem execNodes_nojoin_extends (block : VBlock) :
    ∀ (as : List (Nat × Node)) (env : VEnv) (n : Nat) (env' : VEnv) (n' : Nat),
      (∀ p ∈ as, p.2.type ≠ .arrayJoin) →
      execNodes block as (env, n) = .ok (env', n') →
      n' = n ∧ ∃ ext, env' = env ++ ext := by
  intro as
  induction as with
  | nil =>
      intro env n env' n' _ h
      injection h with he
      injection he with h1 h2
      exact ⟨h2.symm, [], by simp [h1]⟩
  | cons a rest ih =>
      intro env n env' n' hnj h
      simp only [execNodes] at h
      cases hs : evalNodeStep block (env, n) a with
      | error e => rw [hs] at h; cases h
      | ok st1 =>
          rw [hs] at h
          simp only [Except.bind] at h
          obtain ⟨h2, col, h3⟩ :=
            evalNodeStep_nojoin block (env, n) a (hnj a (List.mem_cons_self _ _)) st1 hs
          obtain ⟨st11, st12⟩ := st1
          simp only at h2 h3
          rw [h2, h3] at h
          obtain ⟨h4, ext, h5⟩ := ih (env ++ [(a.1, col)]) n env' n'
            (fun p hp => hnj p (List.mem_cons_of_mem _ hp)) h
          exact ⟨h4, [(a.1, col)] ++ ext, by rw [h5, List.append_assoc]⟩

/-- The cell contents of `indexOfNodes`. -/
theorem indexOfNodes_cells (ns : List (Nat × Node)) :
    (indexOfNodes ns).cells.map Prod.snd =
      ns.map fun p => (⟨p.1, p.2.result_name⟩ : NodePtr) := by
  have main : ∀ (ns : List (Nat × Node)) (idx0 : Index),
      ((ns.foldl (fun idx p => idx.insert ⟨p.1, p.2.result_name⟩) idx0).cells).map Prod.snd =
        idx0.cells.map Prod.snd ++ ns.map fun p => (⟨p.1, p.2.result_name⟩ : NodePtr) := by
    intro ns
    induction ns with
    | nil => intro idx0; simp
    | cons p rest ih =>
        intro idx0
        simp only [List.foldl_cons]
        rw [ih]
        simp [Index.insert]
    
  simpa using main ns ⟨0, [], []⟩

/-- `outCols` evaluated when every cell's slot is live. -/
theorem outCols_eq (env : VEnv) :
    ∀ (cells : List (Nat × NodePtr)),
      (∀ cell ∈ cells, (env.lookup cell.2.id).isSome) →
      outCols env cells =
        .ok (cells.map fun cell => (cell.2.result_name, (env.lookup cell.2.id).getD [])) := by
  intro cells
  induction cells with
  | nil => intro _; rfl
  | cons cell rest ih =>
      intro h
      obtain ⟨col, hcol⟩ := Option.isSome_iff_exists.mp (h cell (List.mem_cons_self _ _))
      simp only [outCols, hcol]
      rw [ih fun c hc => h c (List.mem_cons_of_mem _ hc)]
      simp only [List.map_cons, hcol]
      rfl

/-! ### The dependency set computed by `splitActionsBeforeArrayJoin` -/

theorem contains_iff_mem {l : List Nat} {x : Nat} : l.contains x = true ↔ x ∈ l := by
  simp [List.contains, List.elem_iff]

/-- The folded step of `depSet`, named so the fold can be reasoned about. -/
def depF (S : List String) (acc : List Nat) (p : Nat × Node) : List Nat :=
  if S.contains p.2.result_name || p.2.type == ActionType.arrayJoin
      || p.2.children.any (fun c => acc.contains c)
  then acc ++ [p.1] else acc

theorem depSet_eq (nodes : List (Nat × Node)) (S : List String) :
    depSet nodes S = nodes.foldl (depF S) [] := rfl

theorem depF_grow (S : List String) (acc : List Nat) (p : Nat × Node) (x : Nat)
    (h : x ∈ acc) : x ∈ depF S acc p := by
  unfold depF
  split <;> simp [h]

theorem depF_sub (S : List String) (acc : List Nat) (p : Nat × Node) (x : Nat)
    (h : x ∈ depF S acc p) : x ∈ acc ∨ x = p.1 := by
  unfold depF at h
  split at h
  · rcases List.mem_append.mp h with h1 | h1
    · exact Or.inl h1
    · exact Or.inr (by simpa using h1)
  · exact Or.inl h

theorem foldl_depF_grow (S : List String) :
    ∀ (ns : List (Nat × Node)) (acc : List Nat) (x : Nat), x ∈ acc →
      x ∈ ns.foldl (depF S) acc := by
  intro ns
  induction ns with
  | nil => intro acc x h; simpa using h
  | cons q rest ih =>
      intro acc x h
      exact ih (depF S acc q) x (depF_grow S acc q x h)

theorem foldl_depF_sub (S : List String) :
    ∀ (ns : List (Nat × Node)) (acc : List Nat) (x : Nat),
      x ∈ ns.foldl (depF S) acc → x ∈ acc ∨ x ∈ ns.map Prod.fst := by
  intro ns
  induction ns with
  | nil => intro acc x h; exact Or.inl (by simpa using h)
  | cons q rest ih =>
      intro acc x h
      rcases ih (depF S acc q) x h with h1 | h1
      · rcases depF_sub S acc q x h1 with h2 | h2
        · exact Or.inl h2
        · exact Or.inr (by simp [h2])
      · exact Or.inr (by simp [h1])

theorem foldl_depF_cond (S : List String) :
    ∀ (ns : List (Nat × Node)) (acc : List Nat), ∀ p ∈ ns,
      (S.contains p.2.result_name || p.2.type == ActionType.arrayJoin) = true →
      p.1 ∈ ns.foldl (depF S) acc := by
  intro ns
  induction ns with
  | nil => intro acc p hp; simp at hp
  | cons q rest ih =>
      intro acc p hp hc
      rcases List.mem_cons.mp hp with h1 | h1
      · subst h1
        refine foldl_depF_grow S rest (depF S acc p) p.1 ?_
        unfold depF
        rw [Bool.or_eq_true] at hc
        rcases hc with hc | hc
        · have hm : p.2.result_name ∈ S := by
            simpa [List.contains, List.elem_iff] using hc
          simp [hm]
        · have ht : p.2.type = ActionType.arrayJoin := by simpa using hc
          simp [ht]
      · exact ih (depF S acc q) p h1 hc

theorem foldl_depF_upward (S : List String) :
    ∀ (ns : List (Nat × Node)) (acc : List Nat),
      ns.Pairwise (fun a b => a.1 < b.1) →
      ∀ p ∈ ns, ∀ c ∈ p.2.children, c < p.1 →
      c ∈ ns.foldl (depF S) acc → p.1 ∈ ns.foldl (depF S) acc := by
  intro ns
  induction ns with
  | nil => intro acc _ p hp; simp at hp
  | cons q rest ih =>
      intro acc hpw p hp c hc hlt hmem
      rcases List.mem_cons.mp hp with h1 | h1
      · subst h1
        -- the child was settled strictly before this node's own step
        have hnotrest : c ∉ rest.map Prod.fst := by
          intro hcr
          obtain ⟨r, hr, hre⟩ := List.mem_map.mp hcr
          have := (List.pairwise_cons.mp hpw).1 r hr
          omega
        have hcacc : c ∈ acc := by
          rcases foldl_depF_sub S rest (depF S acc p) c hmem with h2 | h2
          · rcases depF_sub S acc p c h2 with h3 | h3
            · exact h3
            · omega
          · exact absurd h2 hnotrest
        have hstep : depF S acc p = acc ++ [p.1] := by
          unfold depF
          have hex : ∃ x ∈ p.2.children, x ∈ acc := ⟨c, hc, hcacc⟩
          simp [hex]
        refine foldl_depF_grow S rest (depF S acc p) p.1 ?_
        rw [hstep]
        simp
      · exact ih (depF S acc q) (List.pairwise_cons.mp hpw).2 p h1 c hc hlt hmem

/-- A node outside the dependency set has all its children outside it. -/
theorem depSet_not_mem_children (nodes : List (Nat × Node)) (S : List String)
    (hpw : nodes.Pairwise (fun a b => a.1 < b.1))
    (p : Nat × Node) (hp : p ∈ nodes) (hnd : p.1 ∉ depSet nodes S)
    (c : Nat) (hc : c ∈ p.2.children) (hlt : c < p.1) : c ∉ depSet nodes S := by
  intro hmem
  rw [depSet_eq] at hmem hnd
  exact hnd (foldl_depF_upward S nodes [] hpw p hp c hc hlt hmem)

/-- Every ARRAY JOIN node is in the dependency set. -/
theorem depSet_join_mem (nodes : List (Nat × Node)) (S : List String)
    (p : Nat × Node) (hp : p ∈ nodes) (ht : p.2.type = .arrayJoin) :
    p.1 ∈ depSet nodes S := by
  rw [depSet_eq]
  refine foldl_depF_cond S nodes [] p hp ?_
  simp [ht]

/-- A node whose result name is array-joined is in the dependency set. -/
theorem depSet_name_mem (nodes : List (Nat × Node)) (S : List String)
    (p : Nat × Node) (hp : p ∈ nodes) (hn : p.2.result_name ∈ S) :
    p.1 ∈ depSet nodes S := by
  rw [depSet_eq]
  refine foldl_depF_cond S nodes [] p hp ?_
  have : S.contains p.2.result_name = true := by
    simpa [List.contains, List.elem_iff] using hn
  rw [Bool.or_eq_true]
  exact Or.inl this

theorem mapM_eq_some_map {α β : Type} (f : α → Option β) (g : α → β) :
    ∀ (cs : List α), (∀ c ∈ cs, f c = some (g c)) → cs.mapM f = some (cs.map g) := by
  intro cs
  induction cs with
  | nil => intro _; rfl
  | cons c rest ih =>
      intro h
      rw [List.mapM_cons, h c (List.mem_cons_self _ _),
        ih fun x hx => h x (List.mem_cons_of_mem _ hx)]
      rfl

/-- A run of ARRAY-JOIN-free nodes whose inputs are covered by the block,
whose aliases are unary, and whose children are available succeeds, keeps
the row count, preserves the environment, binds every processed node to a
column of the right length, and binds INPUT nodes to their block column. -/
theorem execNodes_nojoin_ok (block : VBlock) (n : Nat) :
    ∀ (todo : List (Nat × Node)) (env : VEnv),
      (∀ p ∈ todo, p.2.type ≠ .arrayJoin) →
      (∀ p ∈ todo, p.2.type = .aliasNode → ∃ c, p.2.children = [c]) →
      (∀ p ∈ todo, p.2.type = .input →
        ∃ col, block.lookup p.2.result_name = some col ∧ col.length = n) →
      todo.Pairwise (fun a b => a.1 < b.1) →
      (∀ p ∈ todo, ∀ c ∈ p.2.children, c < p.1) →
      (∀ p ∈ todo, ∀ c ∈ p.2.children,
        (env.lookup c).isSome ∨ c ∈ todo.map Prod.fst) →
      (∀ i v, env.lookup i = some v → v.length = n) →
      (∀ p ∈ todo, env.lookup p.1 = none) →
      ∃ env', execNodes block todo (env, n) = .ok (env', n) ∧
        (∀ i v, env'.lookup i = some v → v.length = n) ∧
        (∀ i v, env.lookup i = some v → env'.lookup i = some v) ∧
        (∀ p ∈ todo, (env'.lookup p.1).isSome) ∧
        (∀ p ∈ todo, p.2.type = .input → ∀ colB,
          block.lookup p.2.result_name = some colB → env'.lookup p.1 = some colB) := by
  intro todo
  induction todo with
  | nil =>
      intro env _ _ _ _ _ _ hrows _
      exact ⟨env, rfl, hrows, fun _ _ h => h, by simp, by simp⟩
  | cons x rest ih =>
      intro env hnj hal hB hpw hclt havail hrows hfresh
      obtain ⟨i, nd⟩ := x
      -- every child of the head node is already bound
      have hchild : ∀ c ∈ nd.children, ∃ v, env.lookup c = some v := by
        intro c hc
        have hlt : c < i := hclt (i, nd) (List.mem_cons_self _ _) c hc
        rcases havail (i, nd) (List.mem_cons_self _ _) c hc with h1 | h1
        · exact Option.isSome_iff_exists.mp h1
        · simp only [List.map_cons, List.mem_cons] at h1
          rcases h1 with h2 | h2
          · omega
          · obtain ⟨r, hr, hre⟩ := List.mem_map.mp h2
            have := (List.pairwise_cons.mp hpw).1 r hr
            omega
      -- the head node evaluates to one appended binding of length n
      have hstep : ∃ col, col.length = n ∧
          evalNodeStep block (env, n) (i, nd) = .ok (env ++ [(i, col)], n) ∧
          (nd.type = .input → ∀ colB,
            block.lookup nd.result_name = some colB → col = colB) := by
        cases ht : nd.type with
        | input =>
            obtain ⟨col, hcol, hlen⟩ := hB (i, nd) (List.mem_cons_self _ _) ht
            refine ⟨col, hlen, by simp [evalNodeStep, ht, hcol], ?_⟩
            intro _ colB hcB
            rw [hcol] at hcB
            exact Option.some_inj.mp hcB
        | column =>
            refine ⟨List.replicate n nd.value, by simp,
              by simp [evalNodeStep, ht], ?_⟩
            intro h
            exact absurd h (by decide)
        | aliasNode =>
            obtain ⟨c, hc⟩ := hal (i, nd) (List.mem_cons_self _ _) ht
            have hc2 : nd.children = [c] := hc
            obtain ⟨v, hv⟩ := hchild c (by rw [hc2]; exact List.mem_singleton_self c)
            refine ⟨v, hrows c v hv, by simp [evalNodeStep, ht, hc2, hv], ?_⟩
            intro h
            exact absurd h (by decide)
        | arrayJoin => exact absurd ht (hnj (i, nd) (List.mem_cons_self _ _))
        | function =>
            have hm : nd.children.mapM (fun c => env.lookup c) =
                some (nd.children.map fun c => (env.lookup c).getD []) := by
              refine mapM_eq_some_map _ _ _ ?_
              intro c hc
              obtain ⟨v, hv⟩ := hchild c hc
              simp [hv]
            refine ⟨(List.range n).map fun r => applyFun nd.func
              ((nd.children.map fun c => (env.lookup c).getD []).map fun col =>
                col.getD r (.vInt 0)), by simp, ?_, ?_⟩
            · simp only [evalNodeStep, ht, hm]
            · intro h
              exact absurd h (by decide)
      obtain ⟨col, hlen, heval, hinputval⟩ := hstep
      -- facts about the extended environment
      have hfreshi : env.lookup i = none := hfresh (i, nd) (List.mem_cons_self _ _)
      have hlooki : (env ++ [(i, col)]).lookup i = some col := by
        rw [lookup_append_right_of_none i env [(i, col)] hfreshi]
        simp [List.lookup]
      have hpres : ∀ j v, env.lookup j = some v →
          (env ++ [(i, col)]).lookup j = some v := by
        intro j v h
        exact lookup_append_left_of_some j v env [(i, col)] h
      have hrows1 : ∀ j v, (env ++ [(i, col)]).lookup j = some v → v.length = n := by
        intro j v h
        cases he : env.lookup j with
        | some v0 =>
            rw [hpres j v0 he] at h
            exact (Option.some_inj.mp h) ▸ hrows j v0 he
        | none =>
            rw [lookup_append_right_of_none j env [(i, col)] he] at h
            by_cases hj : (j == i) = true
            · simp only [List.lookup, hj] at h
              exact (Option.some_inj.mp h) ▸ hlen
            · simp only [List.lookup, Bool.not_eq_true] at h
              rw [Bool.not_eq_true] at hj
              rw [hj] at h
              cases h
      have hfresh1 : ∀ p ∈ rest, (env ++ [(i, col)]).lookup p.1 = none := by
        intro p hp
        have hne : i < p.1 := (List.pairwise_cons.mp hpw).1 p hp
        rw [lookup_append_right_of_none p.1 env [(i, col)]
          (hfresh p (List.mem_cons_of_mem _ hp))]
        have hb : (p.1 == i) = false := by
          refine beq_eq_false_iff_ne.mpr ?_
          omega
        simp [List.lookup, hb]
      have havail1 : ∀ p ∈ rest, ∀ c ∈ p.2.children,
          ((env ++ [(i, col)]).lookup c).isSome ∨ c ∈ rest.map Prod.fst := by
        intro p hp c hc
        rcases havail p (List.mem_cons_of_mem _ hp) c hc with h1 | h1
        · obtain ⟨v, hv⟩ := Option.isSome_iff_exists.mp h1
          exact Or.inl (by rw [hpres c v hv]; rfl)
        · simp only [List.map_cons, List.mem_cons] at h1
          rcases h1 with h2 | h2
          · exact Or.inl (by rw [h2, hlooki]; rfl)
          · exact Or.inr h2
      obtain ⟨env', hrun, hrows', hpres', hsome', hinp'⟩ :=
        ih (env ++ [(i, col)])
          (fun p hp => hnj p (List.mem_cons_of_mem _ hp))
          (fun p hp => hal p (List.mem_cons_of_mem _ hp))
          (fun p hp => hB p (List.mem_cons_of_mem _ hp))
          (List.pairwise_cons.mp hpw).2
          (fun p hp => hclt p (List.mem_cons_of_mem _ hp))
          havail1 hrows1 hfresh1
      refine ⟨env', ?_, hrows', ?_, ?_, ?_⟩
      · show (evalNodeStep block (env, n) (i, nd)).bind
          (fun st' => execNodes block rest st') = .ok (env', n)
        rw [heval]
        exact hrun
      · intro j v h
        exact hpres' j v (hpres j v h)
      · intro p hp
        rcases List.mem_cons.mp hp with h1 | h1
        · rw [h1]
          simp only
          rw [hpres' i col hlooki]
          rfl
        · exact hsome' p h1
      · intro p hp ht colB hcB
        rcases List.mem_cons.mp hp with h1 | h1
        · rw [h1]
          simp only
          rw [h1] at ht hcB
          simp only at ht hcB
          have hcc : col = colB := hinputval ht colB hcB
          rw [← hcc]
          exact hpres' i col hlooki
        · exact hinp' p h1 ht colB hcB

/-! ### Step-evaluation equations and split projections -/

theorem evalNodeStep_input_eval (block : VBlock) (env : VEnv) (n i : Nat)
    (nd : Node) (col : List Val) (ht : nd.type = .input)
    (hc : block.lookup nd.result_name = some col) :
    evalNodeStep block (env, n) (i, nd) = .ok (env ++ [(i, col)], n) := by
  simp [evalNodeStep, ht, hc]

theorem evalNodeStep_column_eval (block : VBlock) (env : VEnv) (n i : Nat)
    (nd : Node) (ht : nd.type = .column) :
    evalNodeStep block (env, n) (i, nd) =
      .ok (env ++ [(i, List.replicate n nd.value)], n) := by
  simp [evalNodeStep, ht]

theorem evalNodeStep_alias_eval (block : VBlock) (env : VEnv) (n i c : Nat)
    (nd : Node) (v : List Val) (ht : nd.type = .aliasNode)
    (hch : nd.children = [c]) (hv : env.lookup c = some v) :
    evalNodeStep block (env, n) (i, nd) = .ok (env ++ [(i, v)], n) := by
  simp [evalNodeStep, ht, hch, hv]

theorem evalNodeStep_function_eval (block : VBlock) (env : VEnv) (n i : Nat)
    (nd : Node) (g : Nat → List Val) (ht : nd.type = .function)
    (hg : ∀ c ∈ nd.children, env.lookup c = some (g c)) :
    evalNodeStep block (env, n) (i, nd) =
      .ok (env ++ [(i, (List.range n).map fun r =>
        applyFun nd.func (nd.children.map fun c => (g c).getD r (.vInt 0)))], n) := by
  have hm := mapM_eq_some_map (fun c => env.lookup c) g nd.children hg
  simp only [evalNodeStep, ht, hm]
  simp only [List.map_map]
  rfl

theorem evalNodeStep_join_eval (block : VBlock) (env : VEnv) (n i c : Nat)
    (nd : Node) (w : List Val) (ht : nd.type = .arrayJoin)
    (hch : nd.children = [c]) (hv : env.lookup c = some w) :
    evalNodeStep block (env, n) (i, nd) =
      .ok ((env.map fun q => (q.1, replRows (w.map fun v => v.elems.length) q.2)) ++
        [(i, (w.map Val.elems).flatten)], (w.map fun v => v.elems.length).sum) := by
  simp [evalNodeStep, ht, hch, hv]

theorem map_fst_map_repl (l : List (Nat × List Val)) (lens : List Nat) :
    ((l.map fun q => (q.1, replRows lens q.2)).map Prod.fst) = l.map Prod.fst := by
  induction l with
  | nil => rfl
  | cons p rest ih => simp [ih]

theorem ids_nodup (ns : List (Nat × Node))
    (h : ns.Pairwise fun a b => a.1 < b.1) : (ns.map Prod.fst).Nodup := by
  exact List.pairwise_map.mpr (h.imp fun hlt => Nat.ne_of_lt hlt)

/-- The `pre` half keeps nodes outside the dependency set and all inputs. -/
def keepPre (D : List Nat) (p : Nat × Node) : Bool :=
  !(D.contains p.1) || p.2.type == ActionType.input

/-- The `post` half turns moved nodes and the ARRAY JOIN node into inputs. -/
def postF (D : List Nat) (p : Nat × Node) : Nat × Node :=
  if !(D.contains p.1) || p.2.type == ActionType.arrayJoin
  then (p.1, mkInput p.2.result_name p.2.result_type) else p

theorem split_eq (dag : Dag) (S : List String) (pre post : Dag)
    (h : dag.splitActionsBeforeArrayJoin S = some (pre, post)) :
    pre.nodes = dag.nodes.filter (keepPre (depSet dag.nodes S)) ∧
    pre.index = indexOfNodes (dag.nodes.filter (keepPre (depSet dag.nodes S))) ∧
    post.nodes = dag.nodes.map (postF (depSet dag.nodes S)) ∧
    post.index = dag.index := by
  unfold Dag.splitActionsBeforeArrayJoin at h
  simp only at h
  split at h
  · cases h
  · injection h with h1
    injection h1 with h2 h3
    rw [← h2, ← h3]
    exact ⟨rfl, rfl, rfl, rfl⟩

theorem split_none_iff (dag : Dag) (S : List String) :
    dag.splitActionsBeforeArrayJoin S = none ↔
      ∀ p ∈ dag.nodes, p.2.type ≠ .input → p.1 ∈ depSet dag.nodes S := by
  unfold Dag.splitActionsBeforeArrayJoin
  simp only
  constructor
  · intro h p hp hni
    by_contra hnd
    split at h
    · rename_i hemp
      rw [List.isEmpty_iff, List.filter_eq_nil_iff] at hemp
      have hx := hemp p hp
      have h1 : (depSet dag.nodes S).contains p.1 = false := by
        cases hcb : (depSet dag.nodes S).contains p.1
        · rfl
        · exact absurd (contains_iff_mem.mp hcb) hnd
      have h2 : (p.2.type == ActionType.input) = false := by
        simpa using hni
      rw [h1, h2] at hx
      simp at hx
    · cases h
  · intro h
    have hemp : (dag.nodes.filter fun p =>
        !((depSet dag.nodes S).contains p.1) &&
          !(p.2.type == ActionType.input)).isEmpty = true := by
      rw [List.isEmpty_iff, List.filter_eq_nil_iff]
      intro p hp hx
      rw [Bool.and_eq_true] at hx
      obtain ⟨hx1, hx2⟩ := hx
      have hni : p.2.type ≠ ActionType.input := by
        intro he
        rw [he] at hx2
        simp at hx2
      have h1 : (depSet dag.nodes S).contains p.1 = true :=
        contains_iff_mem.mpr (h p hp hni)
      rw [h1] at hx1
      simp at hx1
    split
    · rfl
    · rename_i hne
      exact absurd hemp hne

theorem lookup_append_singleton_self {α : Type} (l : List (Nat × α)) (i : Nat) (v : α)
    (h : l.lookup i = none) : (l ++ [(i, v)]).lookup i = some v := by
  rw [lookup_append_right_of_none i l _ h]
  simp [List.lookup]

/-- The running invariant of the three-run simulation: every processed node
holds a column in the original run; the post run holds its replication
before the ARRAY JOIN is reached and the same column after; nodes kept in
the pre half hold the pre-run column, which the original column replicates
once the ARRAY JOIN has fired. -/
def InvVals (D lens : List Nat) (jId nrows : Nat) (done : List (Nat × Node))
    (envO envP envQ : VEnv) (nO : Nat) : Prop :=
  ∀ p ∈ done, ∃ w, envO.lookup p.1 = some w ∧ w.length = nO ∧
    (jId ∉ done.map Prod.fst → envQ.lookup p.1 = some (replRows lens w)) ∧
    (jId ∈ done.map Prod.fst → envQ.lookup p.1 = some w) ∧
    (keepPre D p = true → ∃ v, envP.lookup p.1 = some v ∧ v.length = nrows ∧
      (jId ∉ done.map Prod.fst → w = v) ∧
      (jId ∈ done.map Prod.fst → w = replRows lens v))

theorem InvVals_extend (D lens : List Nat) (jId nrows : Nat)
    (done : List (Nat × Node)) (envO envP envQ envP' : VEnv) (nO : Nat)
    (i : Nat) (nd : Node) (wx qx : List Val)
    (hInv : InvVals D lens jId nrows done envO envP envQ nO)
    (hfO : envO.lookup i = none)
    (hfQ : envQ.lookup i = none)
    (hij : jId ≠ i)
    (hwlen : wx.length = nO)
    (hq1 : jId ∉ done.map Prod.fst → qx = replRows lens wx)
    (hq2 : jId ∈ done.map Prod.fst → qx = wx)
    (hPpres : ∀ k v, envP.lookup k = some v → envP'.lookup k = some v)
    (hpre : keepPre D (i, nd) = true → ∃ vx, envP'.lookup i = some vx ∧
      vx.length = nrows ∧
      (jId ∉ done.map Prod.fst → wx = vx) ∧
      (jId ∈ done.map Prod.fst → wx = replRows lens vx)) :
    InvVals D lens jId nrows (done ++ [(i, nd)])
      (envO ++ [(i, wx)]) envP' (envQ ++ [(i, qx)]) nO := by
  have hmem_iff : (jId ∈ (done ++ [(i, nd)]).map Prod.fst) ↔
      jId ∈ done.map Prod.fst := by
    rw [List.map_append]
    simp only [List.mem_append, List.map_cons, List.map_nil, List.mem_singleton]
    constructor
    · rintro (h | h)
      · exact h
      · exact absurd h hij
    · exact Or.inl
  intro p hp
  rcases List.mem_append.mp hp with hpd | hpx
  · obtain ⟨w, hO, hlen, h1, h2, hkp⟩ := hInv p hpd
    refine ⟨w, lookup_append_left_of_some _ _ _ _ hO, hlen, ?_, ?_, ?_⟩
    · intro hn
      exact lookup_append_left_of_some _ _ _ _ (h1 fun hd => hn (hmem_iff.mpr hd))
    · intro hd
      exact lookup_append_left_of_some _ _ _ _ (h2 (hmem_iff.mp hd))
    · intro hk
      obtain ⟨v, hvP, hvlen, hr1, hr2⟩ := hkp hk
      exact ⟨v, hPpres _ _ hvP, hvlen,
        fun hn => hr1 fun hd => hn (hmem_iff.mpr hd),
        fun hd => hr2 (hmem_iff.mp hd)⟩
  · have hpe : p = (i, nd) := by simpa using hpx
    subst hpe
    refine ⟨wx, lookup_append_singleton_self envO i wx hfO, hwlen, ?_, ?_, ?_⟩
    · intro hn
      rw [lookup_append_singleton_self envQ i qx hfQ,
        hq1 fun hd => hn (hmem_iff.mpr hd)]
    · intro hd
      rw [lookup_append_singleton_self envQ i qx hfQ, hq2 (hmem_iff.mp hd)]
    · intro hk
      obtain ⟨vx, hvP, hvlen, hr1, hr2⟩ := hpre hk
      exact ⟨vx, hvP, hvlen,
        fun hn => hr1 fun hd => hn (hmem_iff.mpr hd),
        fun hd => hr2 (hmem_iff.mp hd)⟩

theorem InvVals_extend_join (D lens : List Nat) (jId nrows : Nat)
    (done : List (Nat × Node)) (envO envP envQ : VEnv)
    (jn : Node) (flat : List Val)
    (hInv : InvVals D lens jId nrows done envO envP envQ nrows)
    (hjnd : jId ∉ done.map Prod.fst)
    (hOkeys : envO.map Prod.fst = done.map Prod.fst)
    (hfQ : envQ.lookup jId = none)
    (hlenslen : lens.length = nrows)
    (hflatlen : flat.length = lens.sum)
    (hkpj : keepPre D (jId, jn) = false) :
    InvVals D lens jId nrows (done ++ [(jId, jn)])
      ((envO.map fun q => (q.1, replRows lens q.2)) ++ [(jId, flat)]) envP
      (envQ ++ [(jId, flat)]) lens.sum := by
  have hjd' : jId ∈ (done ++ [(jId, jn)]).map Prod.fst := by simp
  intro p hp
  rcases List.mem_append.mp hp with hpd | hpx
  · obtain ⟨w, hO, hlen, h1, h2, hkp⟩ := hInv p hpd
    have hOm : (envO.map fun q => (q.1, replRows lens q.2)).lookup p.1 =
        some (replRows lens w) := by
      rw [lookup_map_snd envO (replRows lens) p.1, hO]
      rfl
    refine ⟨replRows lens w, lookup_append_left_of_some _ _ _ _ hOm,
      replRows_length lens w (by rw [hlenslen, hlen]), ?_, ?_, ?_⟩
    · intro hn
      exact absurd hjd' hn
    · intro _
      exact lookup_append_left_of_some _ _ _ _ (h1 hjnd)
    · intro hk
      obtain ⟨v, hvP, hvlen, hr1, _⟩ := hkp hk
      refine ⟨v, hvP, hvlen, fun hn => absurd hjd' hn, fun _ => ?_⟩
      rw [hr1 hjnd]
  · have hpe : p = (jId, jn) := by simpa using hpx
    subst hpe
    have hOn : (envO.map fun q => (q.1, replRows lens q.2)).lookup jId = none := by
      refine lookup_eq_none_of_not_mem_keys jId _ ?_
      rw [map_fst_map_repl, hOkeys]
      exact hjnd
    refine ⟨flat, lookup_append_singleton_self _ jId flat hOn, hflatlen, ?_, ?_, ?_⟩
    · intro hn
      exact absurd hjd' hn
    · intro _
      exact lookup_append_singleton_self envQ jId flat hfQ
    · intro hk
      rw [hkpj] at hk
      cases hk

/-- The three-run simulation: running the original arena is simulated by
running the pre half, array-joining its output block, and running the
post half on that block.  Stated as an induction over the remaining
suffix of the arena. -/
theorem master_runs
    (nodes : List (Nat × Node)) (D : List Nat) (B b2 : VBlock)
    (nrows : Nat) (lens : List Nat) (scol : List Val)
    (jId sId : Nat) (jn sn : Node) (envPF : VEnv)
    (hpw : nodes.Pairwise fun a b => a.1 < b.1)
    (hclt : ∀ p ∈ nodes, ∀ c ∈ p.2.children, c < p.1)
    (hex : ∀ p ∈ nodes, ∀ c ∈ p.2.children, ∃ cn, (c, cn) ∈ nodes)
    (hal : ∀ p ∈ nodes, p.2.type = .aliasNode → ∃ c, p.2.children = [c])
    (hone : ∀ p ∈ nodes, p.2.type = .arrayJoin → p = (jId, jn))
    (hjmem : (jId, jn) ∈ nodes) (hjt : jn.type = .arrayJoin)
    (hjch : jn.children = [sId])
    (hsmem : (sId, sn) ∈ nodes) (hst : sn.type = .input)
    (hinj : ∀ p ∈ nodes, p.2.type = .input → p.1 < jId)
    (hDj : jId ∈ D)
    (hDcl : ∀ p ∈ nodes, p.1 ∉ D → ∀ c ∈ p.2.children, c ∉ D)
    (hB : ∀ p ∈ nodes, p.2.type = .input →
      ∃ col, B.lookup p.2.result_name = some col ∧ col.length = nrows)
    (hlens : lens = scol.map fun v => v.elems.length)
    (hlenslen : lens.length = nrows)
    (hpreRun : execNodes B (nodes.filter (keepPre D)) ([], nrows) = .ok (envPF, nrows))
    (hsPF : envPF.lookup sId = some scol)
    (hb2 : ∀ p ∈ nodes.filter (keepPre D), ∀ v, envPF.lookup p.1 = some v →
      b2.lookup p.2.result_name = some (replRows lens v))
    (hb2r : b2.lookup jn.result_name = some ((scol.map Val.elems).flatten)) :
    ∀ (todo done : List (Nat × Node)) (envO envP envQ : VEnv) (nO : Nat),
      nodes = done ++ todo →
      execNodes B (done.filter (keepPre D)) ([], nrows) = .ok (envP, nrows) →
      envO.map Prod.fst = done.map Prod.fst →
      envQ.map Prod.fst = done.map Prod.fst →
      envP.map Prod.fst = (done.filter (keepPre D)).map Prod.fst →
      ((jId ∉ done.map Prod.fst ∧ nO = nrows) ∨
        (jId ∈ done.map Prod.fst ∧ nO = lens.sum)) →
      InvVals D lens jId nrows done envO envP envQ nO →
      ∃ envO' envQ',
        execNodes B todo (envO, nO) = .ok (envO', lens.sum) ∧
        execNodes b2 (todo.map (postF D)) (envQ, lens.sum) = .ok (envQ', lens.sum) ∧
        ∀ p ∈ nodes, ∃ w, envO'.lookup p.1 = some w ∧ envQ'.lookup p.1 = some w := by
  intro todo
  induction todo with
  | nil =>
      intro done envO envP envQ nO hEq _ _ _ _ hphase hInv
      have hdone : nodes = done := by simpa using hEq
      have hjd : jId ∈ done.map Prod.fst :=
        List.mem_map.mpr ⟨(jId, jn), by rw [← hdone]; exact hjmem, rfl⟩
      rcases hphase with ⟨hn, _⟩ | ⟨_, hv⟩
      · exact absurd hjd hn
      · refine ⟨envO, envQ, by rw [hv]; rfl, rfl, ?_⟩
        intro p hp
        rw [hdone] at hp
        obtain ⟨w, hO, _, _, h2, _⟩ := hInv p hp
        exact ⟨w, hO, h2 hjd⟩
  | cons x todo' ih =>
      intro done envO envP envQ nO hEq hrunP hOkeys hQkeys hPkeys hphase hInv
      obtain ⟨i, nd⟩ := x
      -- positions in the arena
      have hpw2 : (done ++ (i, nd) :: todo').Pairwise (fun a b => a.1 < b.1) := by
        rw [← hEq]; exact hpw
      have hpa := List.pairwise_append.mp hpw2
      have hdlt : ∀ p ∈ done, p.1 < i :=
        fun p hp => hpa.2.2 p hp (i, nd) (List.mem_cons_self _ _)
      have htgt : ∀ p ∈ todo', i < p.1 := (List.pairwise_cons.mp hpa.2.1).1
      have hxmem : (i, nd) ∈ nodes := by
        rw [hEq]; exact List.mem_append_right _ (List.mem_cons_self _ _)
      have htodo'mem : ∀ p ∈ todo', p ∈ nodes := by
        intro p hp
        rw [hEq]
        exact List.mem_append_right _ (List.mem_cons_of_mem _ hp)
      have hid_done : i ∉ done.map Prod.fst := by
        intro hm
        obtain ⟨q, hq, hqe⟩ := List.mem_map.mp hm
        have := hdlt q hq
        omega
      have memdone : ∀ c (cn : Node), (c, cn) ∈ nodes → c < i → (c, cn) ∈ done := by
        intro c cn hm hlt
        rw [hEq] at hm
        rcases List.mem_append.mp hm with h | h
        · exact h
        · rcases List.mem_cons.mp h with h | h
          · injection h with h1 _
            omega
          · have := htgt (c, cn) h
            simp only at this
            omega
      have hfO : envO.lookup i = none :=
        lookup_eq_none_of_not_mem_keys i envO (by rw [hOkeys]; exact hid_done)
      have hfQ : envQ.lookup i = none :=
        lookup_eq_none_of_not_mem_keys i envQ (by rw [hQkeys]; exact hid_done)
      have hfP : envP.lookup i = none := by
        refine lookup_eq_none_of_not_mem_keys i envP ?_
        rw [hPkeys]
        intro hm
        obtain ⟨q, hq, hqe⟩ := List.mem_map.mp hm
        have := hdlt q (List.mem_of_mem_filter hq)
        omega
      have hchdone : ∀ c ∈ nd.children, ∃ cn, (c, cn) ∈ done := by
        intro c hc
        obtain ⟨cn, hcn⟩ := hex (i, nd) hxmem c hc
        exact ⟨cn, memdone c cn hcn (hclt (i, nd) hxmem c hc)⟩
      -- the ARRAY JOIN node never sits in the pre half
      have hkpj : keepPre D (jId, jn) = false := by
        have h1 : (D.contains jId) = true := contains_iff_mem.mpr hDj
        have h2 : (jn.type == ActionType.input) = false := by simp [hjt]
        simp [keepPre, h1, h2, hDj]
      have hnojoin_t : ∀ p ∈ todo'.filter (keepPre D),
          p.2.type ≠ ActionType.arrayJoin := by
        intro p hp hpt
        have hkpp := List.of_mem_filter hp
        rw [hone p (htodo'mem p (List.mem_of_mem_filter hp)) hpt, hkpj] at hkpp
        cases hkpp
      by_cases hj : nd.type = ActionType.arrayJoin
      · -- the head is the unique ARRAY JOIN node
        have hxj := hone (i, nd) hxmem hj
        have hi : i = jId := congrArg Prod.fst hxj
        have hndj : nd = jn := congrArg Prod.snd hxj
        subst hi
        subst hndj
        rcases hphase with ⟨hjnd, hnO⟩ | ⟨hjd, _⟩
        · subst nO
          -- the source column's value in all three runs
          have hslt : sId < i :=
            hclt (i, nd) hxmem sId (by rw [hjch]; exact List.mem_singleton_self sId)
          have hsdone : (sId, sn) ∈ done := memdone sId sn hsmem hslt
          obtain ⟨ws, hwsO, hwslen, hQ1s, _, hkps⟩ := hInv (sId, sn) hsdone
          have hkpsT : keepPre D (sId, sn) = true := by simp [keepPre, hst]
          obtain ⟨vs, hvsP, hvslen, hph1s, _⟩ := hkps hkpsT
          have hfdec : nodes.filter (keepPre D) =
              done.filter (keepPre D) ++ todo'.filter (keepPre D) := by
            rw [hEq, List.filter_append,
              List.filter_cons_of_neg (by rw [hkpj]; exact Bool.false_ne_true)]
          have hPFtail : execNodes B (todo'.filter (keepPre D)) (envP, nrows) =
              .ok (envPF, nrows) := by
            have hcopy := hpreRun
            rw [hfdec, execNodes_append, hrunP] at hcopy
            exact hcopy
          obtain ⟨-, ext, hPFeq⟩ := execNodes_nojoin_extends B
            (todo'.filter (keepPre D)) envP nrows envPF nrows hnojoin_t hPFtail
          have hvsPF : envPF.lookup sId = some vs := by
            rw [hPFeq]
            exact lookup_append_left_of_some _ _ _ _ hvsP
          have hvseq : vs = scol := by
            rw [hvsPF] at hsPF
            exact Option.some_inj.mp hsPF
          have hwseq : ws = scol := (hph1s hjnd).trans hvseq
          -- steps
          have hOstep := evalNodeStep_join_eval B envO nrows i sId nd ws hj hjch hwsO
          have hlensws : (ws.map fun v => v.elems.length) = lens := by
            rw [hwseq, ← hlens]
          rw [hlensws, hwseq] at hOstep
          have hpostj : postF D (i, nd) = (i, mkInput nd.result_name nd.result_type) := by
            have h1 : (nd.type == ActionType.arrayJoin) = true := by simp [hj]
            simp [postF, h1]
          have hQstep := evalNodeStep_input_eval b2 envQ lens.sum i
            (mkInput nd.result_name nd.result_type) ((scol.map Val.elems).flatten)
            rfl hb2r
          have hflatlen : ((scol.map Val.elems).flatten).length = lens.sum := by
            rw [flatten_elems_length, ← hlens]
          have hInv' := InvVals_extend_join D lens i nrows done envO envP envQ nd
            ((scol.map Val.elems).flatten) hInv hjnd hOkeys hfQ hlenslen hflatlen hkpj
          have hEq' : nodes = (done ++ [(i, nd)]) ++ todo' := by
            rw [hEq, List.append_assoc]
            rfl
          have hfsing : [(i, nd)].filter (keepPre D) = [] := by
            simp [hkpj]
          have hrunP' : execNodes B ((done ++ [(i, nd)]).filter (keepPre D))
              ([], nrows) = .ok (envP, nrows) := by
            rw [List.filter_append, hfsing, List.append_nil]
            exact hrunP
          have hOkeys' : ((envO.map fun q => (q.1, replRows lens q.2)) ++
              [(i, (scol.map Val.elems).flatten)]).map Prod.fst =
              (done ++ [(i, nd)]).map Prod.fst := by
            rw [List.map_append, map_fst_map_repl, hOkeys, List.map_append]
            rfl
          have hQkeys' : (envQ ++ [(i, (scol.map Val.elems).flatten)]).map Prod.fst =
              (done ++ [(i, nd)]).map Prod.fst := by
            rw [List.map_append, hQkeys, List.map_append]
            rfl
          have hPkeys' : envP.map Prod.fst =
              ((done ++ [(i, nd)]).filter (keepPre D)).map Prod.fst := by
            rw [List.filter_append, hfsing, List.append_nil]
            exact hPkeys
          obtain ⟨envO', envQ', hO', hQ', hfin⟩ := ih (done ++ [(i, nd)])
            ((envO.map fun q => (q.1, replRows lens q.2)) ++
              [(i, (scol.map Val.elems).flatten)])
            envP (envQ ++ [(i, (scol.map Val.elems).flatten)]) lens.sum
            hEq' hrunP' hOkeys' hQkeys' hPkeys'
            (Or.inr ⟨by simp, rfl⟩) hInv'
          refine ⟨envO', envQ', ?_, ?_, hfin⟩
          · simp only [execNodes]
            rw [hOstep]
            exact hO'
          · simp only [List.map_cons, execNodes]
            rw [hpostj, hQstep]
            exact hQ'
        · exact absurd hjd hid_done
      · -- the head is not the ARRAY JOIN node
        have hij : jId ≠ i := by
          intro he
          have hnd1 : nodes.lookup i = some nd :=
            lookup_eq_of_mem_nodup hxmem (ids_nodup nodes hpw)
          have hnd2 : nodes.lookup i = some jn :=
            lookup_eq_of_mem_nodup (he ▸ hjmem) (ids_nodup nodes hpw)
          rw [hnd1] at hnd2
          have : nd = jn := Option.some_inj.mp hnd2
          rw [this] at hj
          exact hj hjt
        have hmem_iff : (jId ∈ (done ++ [(i, nd)]).map Prod.fst) ↔
            jId ∈ done.map Prod.fst := by
          rw [List.map_append]
          simp only [List.mem_append, List.map_cons, List.map_nil,
            List.mem_singleton]
          constructor
          · rintro (h | h)
            · exact h
            · exact absurd h hij
          · exact Or.inl
        have hEq' : nodes = (done ++ [(i, nd)]) ++ todo' := by
          rw [hEq, List.append_assoc]
          rfl
        have hphase' : (jId ∉ (done ++ [(i, nd)]).map Prod.fst ∧ nO = nrows) ∨
            (jId ∈ (done ++ [(i, nd)]).map Prod.fst ∧ nO = lens.sum) :=
          hphase.imp (fun h => ⟨fun hd => h.1 (hmem_iff.mp hd), h.2⟩)
            (fun h => ⟨hmem_iff.mpr h.1, h.2⟩)
        by_cases hkp : keepPre D (i, nd) = true
        · -- the head moves to the pre half
          have hqnode : ∃ ndq, postF D (i, nd) = (i, ndq) ∧
              ndq.type = ActionType.input ∧ ndq.result_name = nd.result_name := by
            by_cases hdep : (D.contains i) = true
            · have hti : nd.type = ActionType.input := by
                have hc := hkp
                unfold keepPre at hc
                rw [hdep] at hc
                simpa using hc
              refine ⟨nd, ?_, hti, rfl⟩
              have h2 : (nd.type == ActionType.arrayJoin) = false := by simp [hti]
              simp [postF, hdep, h2]
              intro hmem
              exact absurd (contains_iff_mem.mp hdep) hmem
            · refine ⟨mkInput nd.result_name nd.result_type, ?_, rfl, rfl⟩
              have h1 : (D.contains i) = false := by
                cases hcb : D.contains i
                · rfl
                · exact absurd hcb hdep
              simp [postF, h1]
              intro hmem
              have hq := contains_iff_mem.mpr hmem
              rw [h1] at hq
              exact absurd hq (by decide)
          obtain ⟨ndq, hpostx, hndqt, hndqn⟩ := hqnode
          have hxfil : (i, nd) ∈ nodes.filter (keepPre D) :=
            List.mem_filter.mpr ⟨hxmem, hkp⟩
          have hfdec : nodes.filter (keepPre D) =
              done.filter (keepPre D) ++ ((i, nd) :: todo'.filter (keepPre D)) := by
            rw [hEq, List.filter_append, List.filter_cons_of_pos hkp]
          -- for childful kept nodes, the head lies outside the dependency set
          have hxndOf : nd.type ≠ ActionType.input → i ∉ D := by
            intro hti hmem
            have hb : (nd.type == ActionType.input) = false := by
              simpa using hti
            have hc := hkp
            unfold keepPre at hc
            rw [hb, Bool.or_false, contains_iff_mem.mpr hmem] at hc
            simp at hc
          have hmain : ∃ vx wx,
              evalNodeStep B (envP, nrows) (i, nd) = .ok (envP ++ [(i, vx)], nrows) ∧
              evalNodeStep B (envO, nO) (i, nd) = .ok (envO ++ [(i, wx)], nO) ∧
              vx.length = nrows ∧ wx.length = nO ∧
              (jId ∉ done.map Prod.fst → wx = vx) ∧
              (jId ∈ done.map Prod.fst → wx = replRows lens vx) := by
            cases hty : nd.type with
            | arrayJoin => exact absurd hty hj
            | input =>
                obtain ⟨colB, hcolB, hcolBlen⟩ := hB (i, nd) hxmem hty
                have hph1 : jId ∉ done.map Prod.fst ∧ nO = nrows := by
                  rcases hphase with h | ⟨hd, _⟩
                  · exact h
                  · exfalso
                    obtain ⟨q, hq, hqe⟩ := List.mem_map.mp hd
                    have h1 := hdlt q hq
                    have h2 := hinj (i, nd) hxmem hty
                    omega
                refine ⟨colB, colB,
                  evalNodeStep_input_eval B envP nrows i nd colB hty hcolB,
                  ?_, hcolBlen, ?_, fun _ => rfl, fun hd => absurd hd hph1.1⟩
                · rw [hph1.2]
                  exact evalNodeStep_input_eval B envO nrows i nd colB hty hcolB
                · rw [hph1.2]
                  exact hcolBlen
            | column =>
                refine ⟨List.replicate nrows nd.value, List.replicate nO nd.value,
                  evalNodeStep_column_eval B envP nrows i nd hty,
                  evalNodeStep_column_eval B envO nO i nd hty,
                  by simp, by simp, ?_, ?_⟩
                · intro hn
                  rcases hphase with ⟨_, hv⟩ | ⟨hd, _⟩
                  · rw [hv]
                  · exact absurd hd hn
                · intro hd
                  rcases hphase with ⟨hn, _⟩ | ⟨_, hv⟩
                  · exact absurd hd hn
                  · rw [hv, replRows_replicate lens nrows nd.value hlenslen]
            | aliasNode =>
                obtain ⟨c, hch⟩ := hal (i, nd) hxmem hty
                have hcmem : c ∈ nd.children := by
                  rw [hch]; exact List.mem_singleton_self c
                obtain ⟨cn, hcdone⟩ := hchdone c hcmem
                obtain ⟨wc, hwcO, hwclen, _, _, hkpc⟩ := hInv (c, cn) hcdone
                have hcnd : c ∉ D :=
                  hDcl (i, nd) hxmem (hxndOf (by rw [hty]; exact fun h => by cases h))
                    c hcmem
                have hkpcT : keepPre D (c, cn) = true := by
                  have h1 : (D.contains c) = false := by
                    cases hcb : D.contains c
                    · rfl
                    · exact absurd (contains_iff_mem.mp hcb) hcnd
                  simp [keepPre, h1]
                  exact Or.inl hcnd
                obtain ⟨vc, hvcP, hvclen, hr1c, hr2c⟩ := hkpc hkpcT
                exact ⟨vc, wc,
                  evalNodeStep_alias_eval B envP nrows i c nd vc hty hch hvcP,
                  evalNodeStep_alias_eval B envO nO i c nd wc hty hch hwcO,
                  hvclen, hwclen, hr1c, hr2c⟩
            | function =>
                have hxnd : i ∉ D :=
                  hxndOf (by rw [hty]; exact fun h => by cases h)
                have hchfacts : ∀ c ∈ nd.children, ∃ wc vc,
                    envO.lookup c = some wc ∧ envP.lookup c = some vc ∧
                    vc.length = nrows ∧
                    (jId ∉ done.map Prod.fst → wc = vc) ∧
                    (jId ∈ done.map Prod.fst → wc = replRows lens vc) := by
                  intro c hc
                  obtain ⟨cn, hcdone⟩ := hchdone c hc
                  obtain ⟨wc, hwcO, hwclen, _, _, hkpc⟩ := hInv (c, cn) hcdone
                  have hcnd : c ∉ D := hDcl (i, nd) hxmem hxnd c hc
                  have hkpcT : keepPre D (c, cn) = true := by
                    have h1 : (D.contains c) = false := by
                      cases hcb : D.contains c
                      · rfl
                      · exact absurd (contains_iff_mem.mp hcb) hcnd
                    simp [keepPre, h1]
                    exact Or.inl hcnd
                  obtain ⟨vc, hvcP, hvclen, hr1c, hr2c⟩ := hkpc hkpcT
                  exact ⟨wc, vc, hwcO, hvcP, hvclen, hr1c, hr2c⟩
                have hgO : ∀ c ∈ nd.children,
                    envO.lookup c = some ((envO.lookup c).getD []) := by
                  intro c hc
                  obtain ⟨wc, vc, hwcO, _⟩ := hchfacts c hc
                  rw [hwcO]
                  rfl
                have hgP : ∀ c ∈ nd.children,
                    envP.lookup c = some ((envP.lookup c).getD []) := by
                  intro c hc
                  obtain ⟨wc, vc, _, hvcP, _⟩ := hchfacts c hc
                  rw [hvcP]
                  rfl
                refine ⟨(List.range nrows).map fun r => applyFun nd.func
                    (nd.children.map fun c => ((envP.lookup c).getD []).getD r (.vInt 0)),
                  (List.range nO).map fun r => applyFun nd.func
                    (nd.children.map fun c => ((envO.lookup c).getD []).getD r (.vInt 0)),
                  evalNodeStep_function_eval B envP nrows i nd
                    (fun c => (envP.lookup c).getD []) hty hgP,
                  evalNodeStep_function_eval B envO nO i nd
                    (fun c => (envO.lookup c).getD []) hty hgO,
                  by simp, by simp, ?_, ?_⟩
                · intro hn
                  rcases hphase with ⟨_, hv⟩ | ⟨hd, _⟩
                  · rw [hv]
                    refine List.map_congr_left ?_
                    intro r _
                    congr 1
                    refine List.map_congr_left ?_
                    intro c hc
                    obtain ⟨wc, vc, hwcO, hvcP, _, hr1c, _⟩ := hchfacts c hc
                    simp only [hwcO, hvcP, Option.getD_some]
                    rw [hr1c hn]
                  · exact absurd hd hn
                · intro hd
                  rcases hphase with ⟨hn, _⟩ | ⟨_, hv⟩
                  · exact absurd hd hn
                  · rw [hv]
                    have hcl : ∀ col ∈ nd.children.map
                        (fun c => (envP.lookup c).getD []), col.length = nrows := by
                      intro col hcol
                      obtain ⟨c, hc, hce⟩ := List.mem_map.mp hcol
                      obtain ⟨wc, vc, _, hvcP, hvclen, _, _⟩ := hchfacts c hc
                      rw [← hce, hvcP]
                      simpa using hvclen
                    have hkey := rows_replRows (applyFun nd.func) lens nrows
                      (nd.children.map fun c => (envP.lookup c).getD []) hlenslen hcl
                    simp only [List.map_map] at hkey
                    have hstep1 : ((List.range lens.sum).map fun r => applyFun nd.func
                        (nd.children.map fun c =>
                          ((envO.lookup c).getD []).getD r (Val.vInt 0))) =
                        ((List.range lens.sum).map fun r => applyFun nd.func
                        (nd.children.map fun c =>
                          (replRows lens ((envP.lookup c).getD [])).getD r (Val.vInt 0))) := by
                      refine List.map_congr_left ?_
                      intro r _
                      congr 1
                      refine List.map_congr_left ?_
                      intro c hc
                      obtain ⟨wc, vc, hwcO, hvcP, _, _, hr2c⟩ := hchfacts c hc
                      simp only [hwcO, hvcP, Option.getD_some]
                      rw [hr2c hd]
                    rw [hstep1]
                    exact hkey
          obtain ⟨vx, wx, hPstep, hOstep, hvxlen, hwxlen, hrel1, hrel2⟩ := hmain
          -- the pre-run value of the head persists to the full pre run
          have hPFtail : execNodes B ((i, nd) :: todo'.filter (keepPre D))
              (envP, nrows) = .ok (envPF, nrows) := by
            have hcopy := hpreRun
            rw [hfdec, execNodes_append, hrunP] at hcopy
            exact hcopy
          have hPFtail2 : execNodes B (todo'.filter (keepPre D))
              (envP ++ [(i, vx)], nrows) = .ok (envPF, nrows) := by
            have h2 := hPFtail
            simp only [execNodes] at h2
            rw [hPstep] at h2
            exact h2
          obtain ⟨-, ext, hPFeq⟩ := execNodes_nojoin_extends B
            (todo'.filter (keepPre D)) (envP ++ [(i, vx)]) nrows envPF nrows
            hnojoin_t hPFtail2
          have hPFi : envPF.lookup i = some vx := by
            rw [hPFeq]
            exact lookup_append_left_of_some _ _ _ _
              (lookup_append_singleton_self envP i vx hfP)
          have hb2i : b2.lookup nd.result_name = some (replRows lens vx) :=
            hb2 (i, nd) hxfil vx hPFi
          have hQstep : evalNodeStep b2 (envQ, lens.sum) (postF D (i, nd)) =
              .ok (envQ ++ [(i, replRows lens vx)], lens.sum) := by
            rw [hpostx]
            refine evalNodeStep_input_eval b2 envQ lens.sum i ndq
              (replRows lens vx) hndqt ?_
            rw [hndqn]
            exact hb2i
          have hInv' := InvVals_extend D lens jId nrows done envO envP envQ
            (envP ++ [(i, vx)]) nO i nd wx (replRows lens vx) hInv hfO hfQ hij
            hwxlen (fun hn => by rw [hrel1 hn]) (fun hd => (hrel2 hd).symm)
            (fun k v h => lookup_append_left_of_some _ _ _ _ h)
            (fun _ => ⟨vx, lookup_append_singleton_self envP i vx hfP,
              hvxlen, hrel1, hrel2⟩)
          have hrunP' : execNodes B ((done ++ [(i, nd)]).filter (keepPre D))
              ([], nrows) = .ok (envP ++ [(i, vx)], nrows) := by
            rw [List.filter_append, List.filter_cons_of_pos hkp]
            show (execNodes B (done.filter (keepPre D) ++ [(i, nd)]) ([], nrows)) = _
            rw [execNodes_append, hrunP]
            show execNodes B [(i, nd)] (envP, nrows) = _
            simp only [execNodes]
            rw [hPstep]
            rfl
          have hOkeys' : (envO ++ [(i, wx)]).map Prod.fst =
              (done ++ [(i, nd)]).map Prod.fst := by
            rw [List.map_append, hOkeys, List.map_append]
            rfl
          have hQkeys' : (envQ ++ [(i, replRows lens vx)]).map Prod.fst =
              (done ++ [(i, nd)]).map Prod.fst := by
            rw [List.map_append, hQkeys, List.map_append]
            rfl
          have hPkeys' : (envP ++ [(i, vx)]).map Prod.fst =
              ((done ++ [(i, nd)]).filter (keepPre D)).map Prod.fst := by
            rw [List.filter_append, List.filter_cons_of_pos hkp,
              List.map_append, hPkeys, List.map_append]
            rfl
          obtain ⟨envO', envQ', hO', hQ', hfin⟩ := ih (done ++ [(i, nd)])
            (envO ++ [(i, wx)]) (envP ++ [(i, vx)])
            (envQ ++ [(i, replRows lens vx)]) nO
            hEq' hrunP' hOkeys' hQkeys' hPkeys' hphase' hInv'
          refine ⟨envO', envQ', ?_, ?_, hfin⟩
          · simp only [execNodes]
            rw [hOstep]
            exact hO'
          · simp only [List.map_cons, execNodes]
            rw [hQstep]
            exact hQ'
        · -- the head stays only in the post half
          have hkpf : keepPre D (i, nd) = false := by
            cases hcb : keepPre D (i, nd)
            · rfl
            · exact absurd hcb hkp
          have hdep : (D.contains i) = true := by
            cases hcb : D.contains i
            · have hkpt : keepPre D (i, nd) = true := by
                simp [keepPre, hcb]
                refine Or.inl ?_
                intro hmem
                have hq := contains_iff_mem.mpr hmem
                rw [hcb] at hq
                exact absurd hq (by decide)
              exact absurd hkpt hkp
            · rfl
          have htni : (nd.type == ActionType.input) = false := by
            cases hcb : (nd.type == ActionType.input)
            · rfl
            · have hkpt : keepPre D (i, nd) = true := by
                simp [keepPre, hcb]
              exact absurd hkpt hkp
          have htni' : nd.type ≠ ActionType.input := by simpa using htni
          have hpostx : postF D (i, nd) = (i, nd) := by
            have h1 : (nd.type == ActionType.arrayJoin) = false := by simpa using hj
            simp [postF, hdep, h1]
            intro hmem
            exact absurd (contains_iff_mem.mp hdep) hmem
          have hmain : ∃ wx qx,
              evalNodeStep B (envO, nO) (i, nd) = .ok (envO ++ [(i, wx)], nO) ∧
              evalNodeStep b2 (envQ, lens.sum) (i, nd) =
                .ok (envQ ++ [(i, qx)], lens.sum) ∧
              wx.length = nO ∧
              (jId ∉ done.map Prod.fst → qx = replRows lens wx) ∧
              (jId ∈ done.map Prod.fst → qx = wx) := by
            cases hty : nd.type with
            | input => exact absurd hty htni'
            | arrayJoin => exact absurd hty hj
            | column =>
                refine ⟨List.replicate nO nd.value, List.replicate lens.sum nd.value,
                  evalNodeStep_column_eval B envO nO i nd hty,
                  evalNodeStep_column_eval b2 envQ lens.sum i nd hty,
                  by simp, ?_, ?_⟩
                · intro hn
                  rcases hphase with ⟨_, hv⟩ | ⟨hd, _⟩
                  · rw [hv, replRows_replicate lens nrows nd.value hlenslen]
                  · exact absurd hd hn
                · intro hd
                  rcases hphase with ⟨hn, _⟩ | ⟨_, hv⟩
                  · exact absurd hd hn
                  · rw [hv]
            | aliasNode =>
                obtain ⟨c, hch⟩ := hal (i, nd) hxmem hty
                have hcmem : c ∈ nd.children := by
                  rw [hch]; exact List.mem_singleton_self c
                obtain ⟨cn, hcdone⟩ := hchdone c hcmem
                obtain ⟨wc, hwcO, hwclen, hq1c, hq2c, _⟩ := hInv (c, cn) hcdone
                rcases hphase with ⟨hn, hv⟩ | ⟨hd, hv⟩
                · exact ⟨wc, replRows lens wc,
                    evalNodeStep_alias_eval B envO nO i c nd wc hty hch hwcO,
                    evalNodeStep_alias_eval b2 envQ lens.sum i c nd
                      (replRows lens wc) hty hch (hq1c hn),
                    hwclen, fun _ => rfl, fun hd => absurd hd hn⟩
                · exact ⟨wc, wc,
                    evalNodeStep_alias_eval B envO nO i c nd wc hty hch hwcO,
                    evalNodeStep_alias_eval b2 envQ lens.sum i c nd wc hty hch
                      (hq2c hd),
                    hwclen, fun hn => absurd hd hn, fun _ => rfl⟩
            | function =>
                have hgO : ∀ c ∈ nd.children,
                    envO.lookup c = some ((envO.lookup c).getD []) := by
                  intro c hc
                  obtain ⟨cn, hcdone⟩ := hchdone c hc
                  obtain ⟨wc, hwcO, _⟩ := hInv (c, cn) hcdone
                  rw [hwcO]
                  rfl
                have hgQ : ∀ c ∈ nd.children,
                    envQ.lookup c = some ((envQ.lookup c).getD []) := by
                  intro c hc
                  obtain ⟨cn, hcdone⟩ := hchdone c hc
                  obtain ⟨wc, _, _, hq1c, hq2c, _⟩ := hInv (c, cn) hcdone
                  rcases hphase with ⟨hn, _⟩ | ⟨hd, _⟩
                  · rw [hq1c hn]
                    rfl
                  · rw [hq2c hd]
                    rfl
                refine ⟨(List.range nO).map fun r => applyFun nd.func
                    (nd.children.map fun c => ((envO.lookup c).getD []).getD r (.vInt 0)),
                  (List.range lens.sum).map fun r => applyFun nd.func
                    (nd.children.map fun c => ((envQ.lookup c).getD []).getD r (.vInt 0)),
                  evalNodeStep_function_eval B envO nO i nd
                    (fun c => (envO.lookup c).getD []) hty hgO,
                  evalNodeStep_function_eval b2 envQ lens.sum i nd
                    (fun c => (envQ.lookup c).getD []) hty hgQ,
                  by simp, ?_, ?_⟩
                · intro hn
                  rcases hphase with ⟨_, hv⟩ | ⟨hd, _⟩
                  · rw [hv]
                    have hcl : ∀ col ∈ nd.children.map
                        (fun c => (envO.lookup c).getD []), col.length = nrows := by
                      intro col hcol
                      obtain ⟨c, hc, hce⟩ := List.mem_map.mp hcol
                      obtain ⟨cn, hcdone⟩ := hchdone c hc
                      obtain ⟨wc, hwcO, hwclen, _⟩ := hInv (c, cn) hcdone
                      rw [← hce, hwcO]
                      simp only [Option.getD_some]
                      rw [hwclen, hv]
                    have hkey := rows_replRows (applyFun nd.func) lens nrows
                      (nd.children.map fun c => (envO.lookup c).getD []) hlenslen hcl
                    simp only [List.map_map] at hkey
                    have hstep1 : ((List.range lens.sum).map fun r => applyFun nd.func
                        (nd.children.map fun c =>
                          ((envQ.lookup c).getD []).getD r (Val.vInt 0))) =
                        ((List.range lens.sum).map fun r => applyFun nd.func
                        (nd.children.map fun c =>
                          (replRows lens ((envO.lookup c).getD [])).getD r (Val.vInt 0))) := by
                      refine List.map_congr_left ?_
                      intro r _
                      congr 1
                      refine List.map_congr_left ?_
                      intro c hc
                      obtain ⟨cn, hcdone⟩ := hchdone c hc
                      obtain ⟨wc, hwcO, _, hq1c, _, _⟩ := hInv (c, cn) hcdone
                      simp only [hwcO, hq1c hn, Option.getD_some]
                    rw [hstep1]
                    exact hkey
                  · exact absurd hd hn
                · intro hd
                  rcases hphase with ⟨hn, _⟩ | ⟨_, hv⟩
                  · exact absurd hd hn
                  · rw [hv]
                    refine List.map_congr_left ?_
                    intro r _
                    congr 1
                    refine List.map_congr_left ?_
                    intro c hc
                    obtain ⟨cn, hcdone⟩ := hchdone c hc
                    obtain ⟨wc, hwcO, _, _, hq2c, _⟩ := hInv (c, cn) hcdone
                    rw [hq2c hd, hwcO]
          obtain ⟨wx, qx, hOstep, hQstep, hwxlen, hq1, hq2⟩ := hmain
          have hfil' : (done ++ [(i, nd)]).filter (keepPre D) =
              done.filter (keepPre D) := by
            rw [List.filter_append,
              List.filter_cons_of_neg (by rw [hkpf]; exact Bool.false_ne_true)]
            simp
          have hInv' := InvVals_extend D lens jId nrows done envO envP envQ envP
            nO i nd wx qx hInv hfO hfQ hij hwxlen hq1 hq2
            (fun k v h => h) (fun hk => absurd hk hkp)
          have hrunP' : execNodes B ((done ++ [(i, nd)]).filter (keepPre D))
              ([], nrows) = .ok (envP, nrows) := by
            rw [hfil']
            exact hrunP
          have hOkeys' : (envO ++ [(i, wx)]).map Prod.fst =
              (done ++ [(i, nd)]).map Prod.fst := by
            rw [List.map_append, hOkeys, List.map_append]
            rfl
          have hQkeys' : (envQ ++ [(i, qx)]).map Prod.fst =
              (done ++ [(i, nd)]).map Prod.fst := by
            rw [List.map_append, hQkeys, List.map_append]
            rfl
          have hPkeys' : envP.map Prod.fst =
              ((done ++ [(i, nd)]).filter (keepPre D)).map Prod.fst := by
            rw [hfil']
            exact hPkeys
          obtain ⟨envO', envQ', hO', hQ', hfin⟩ := ih (done ++ [(i, nd)])
            (envO ++ [(i, wx)]) envP (envQ ++ [(i, qx)]) nO
            hEq' hrunP' hOkeys' hQkeys' hPkeys' hphase' hInv'
          refine ⟨envO', envQ', ?_, ?_, hfin⟩
          · simp only [execNodes]
            rw [hOstep]
            exact hO'
          · simp only [List.map_cons, execNodes]
            rw [hpostx, hQstep]
            exact hQ'

/-- Two nodes of an arena with duplicate-free result names and the same
result name are the same node. -/
theorem name_unique (ps : List (Nat × Node))
    (hnd : (ps.map fun p => p.2.result_name).Nodup)
    (p q : Nat × Node) (hp : p ∈ ps) (hq : q ∈ ps)
    (he : p.2.result_name = q.2.result_name) : p = q := by
  have h1 := lookup_map_by_name ps (fun r => r) p.1 p.2 hp hnd
  have h2 := lookup_map_by_name ps (fun r => r) q.1 q.2 hq hnd
  rw [he] at h1
  rw [h1] at h2
  exact Option.some_inj.mp h2

/-- **C2**: If `splitActionsBeforeArrayJoin(S)` returns a non-null pre-DAG,
then for every input block carrying the required columns, executing the
original DAG equals executing the pre-DAG, applying the ARRAY JOIN to its
output block, and executing the post-DAG on the result; and the call
returns null exactly when no action can be moved before the ARRAY JOIN
(every non-input node depends on the array-joined set).  The DAG is
well-formed in the spec §3 sense (sorted arena, children present and
earlier, unary aliases, inputs childless, unique result names, Index cells
in the arena) and holds exactly one ARRAY JOIN node, fed by an INPUT
placed, like all INPUTs, before it. -/
theorem split_actions_before_array_join_spec :
    (∀ (dag pre post : Dag) (S : List String) (B : VBlock) (nrows jId sId : Nat)
        (jn sn : Node) (scol : List Val),
      dag.nodes.Pairwise (fun a b => a.1 < b.1) →
      (∀ p ∈ dag.nodes, ∀ c ∈ p.2.children, c < p.1) →
      (∀ p ∈ dag.nodes, ∀ c ∈ p.2.children, (dag.nodes.lookup c).isSome) →
      (∀ p ∈ dag.nodes, p.2.type = ActionType.aliasNode → p.2.children.length = 1) →
      (∀ p ∈ dag.nodes, p.2.type = ActionType.input → p.2.children = []) →
      ((dag.nodes.map fun p => p.2.result_name).Nodup) →
      (∀ p ∈ dag.nodes, p.2.type = ActionType.arrayJoin → p.1 = jId) →
      dag.nodes.lookup jId = some jn →
      jn.type = ActionType.arrayJoin →
      jn.children = [sId] →
      dag.nodes.lookup sId = some sn →
      sn.type = ActionType.input →
      (∀ p ∈ dag.nodes, p.2.type = ActionType.input → p.1 < jId) →
      (∀ cell ∈ dag.index.cells, (dag.nodes.lookup cell.2.id).isSome) →
      (∀ p ∈ dag.nodes, p.2.type = ActionType.input →
        (B.lookup p.2.result_name).map List.length = some nrows) →
      B.lookup sn.result_name = some scol →
      dag.splitActionsBeforeArrayJoin S = some (pre, post) →
      dag.execDag B nrows =
        (pre.execDag B nrows).bind fun r1 =>
          (arrayJoinBlock sn.result_name jn.result_name r1.1).bind fun r2 =>
            post.execDag r2.1 r2.2) ∧
    (∀ (dag : Dag) (S : List String),
      dag.splitActionsBeforeArrayJoin S = none ↔
        ∀ p ∈ dag.nodes, p.2.type ≠ ActionType.input → p.1 ∈ depSet dag.nodes S) := by
  constructor
  · intro dag pre post S B nrows jId sId jn sn scol hpw hclt hex hal hinch hnames
      hone hjl hjt hjch hsl hst hinj hidx hB hscol hsplit
    have hids := ids_nodup dag.nodes hpw
    have hjmem : (jId, jn) ∈ dag.nodes := mem_of_lookup_eq_some hjl
    have hsmem : (sId, sn) ∈ dag.nodes := mem_of_lookup_eq_some hsl
    have honeF : ∀ p ∈ dag.nodes, p.2.type = ActionType.arrayJoin → p = (jId, jn) := by
      intro p hp hpt
      obtain ⟨a, b⟩ := p
      have ha : a = jId := hone (a, b) hp hpt
      subst ha
      have h1 : dag.nodes.lookup a = some b := lookup_eq_of_mem_nodup hp hids
      rw [hjl] at h1
      rw [← Option.some_inj.mp h1]
    have hexF : ∀ p ∈ dag.nodes, ∀ c ∈ p.2.children, ∃ cn, (c, cn) ∈ dag.nodes := by
      intro p hp c hc
      obtain ⟨cn, hcn⟩ := Option.isSome_iff_exists.mp (hex p hp c hc)
      exact ⟨cn, mem_of_lookup_eq_some hcn⟩
    have halF : ∀ p ∈ dag.nodes, p.2.type = ActionType.aliasNode →
        ∃ c, p.2.children = [c] := by
      intro p hp ht
      have hl := hal p hp ht
      cases hch : p.2.children with
      | nil => rw [hch] at hl; simp at hl
      | cons c rest =>
          cases rest with
          | nil => exact ⟨c, rfl⟩
          | cons d ds => rw [hch] at hl; simp at hl
    have hBF : ∀ p ∈ dag.nodes, p.2.type = ActionType.input →
        ∃ col, B.lookup p.2.result_name = some col ∧ col.length = nrows := by
      intro p hp ht
      have h1 := hB p hp ht
      cases hcb : B.lookup p.2.result_name with
      | none => rw [hcb] at h1; cases h1
      | some col =>
          rw [hcb] at h1
          exact ⟨col, rfl, by simpa using h1⟩
    have hscollen : scol.length = nrows := by
      obtain ⟨col, hcl, hl⟩ := hBF (sId, sn) hsmem hst
      rw [hscol] at hcl
      rw [Option.some_inj.mp hcl]
      exact hl
    have hDj : jId ∈ depSet dag.nodes S :=
      depSet_join_mem dag.nodes S (jId, jn) hjmem hjt
    have hDcl : ∀ p ∈ dag.nodes, p.1 ∉ depSet dag.nodes S →
        ∀ c ∈ p.2.children, c ∉ depSet dag.nodes S :=
      fun p hp hnd c hc =>
        depSet_not_mem_children dag.nodes S hpw p hp hnd c hc (hclt p hp c hc)
    have hkpj : keepPre (depSet dag.nodes S) (jId, jn) = false := by
      have h1 : ((depSet dag.nodes S).contains jId) = true := contains_iff_mem.mpr hDj
      have h2 : (jn.type == ActionType.input) = false := by simp [hjt]
      simp [keepPre, h1, h2, hDj]
    have hprenj : ∀ p ∈ dag.nodes.filter (keepPre (depSet dag.nodes S)),
        p.2.type ≠ ActionType.arrayJoin := by
      intro p hp hpt
      have hkpp := List.of_mem_filter hp
      rw [honeF p (List.mem_of_mem_filter hp) hpt, hkpj] at hkpp
      cases hkpp
    have hprepw : (dag.nodes.filter (keepPre (depSet dag.nodes S))).Pairwise
        (fun a b => a.1 < b.1) :=
      List.Pairwise.sublist (List.filter_sublist _) hpw
    have hpreavail : ∀ p ∈ dag.nodes.filter (keepPre (depSet dag.nodes S)),
        ∀ c ∈ p.2.children, (([] : VEnv).lookup c).isSome ∨
          c ∈ (dag.nodes.filter (keepPre (depSet dag.nodes S))).map Prod.fst := by
      intro p hp c hc
      right
      have hpn := List.mem_of_mem_filter hp
      have hkpp := List.of_mem_filter hp
      by_cases hti : p.2.type = ActionType.input
      · rw [hinch p hpn hti] at hc
        simp at hc
      · have hnd : p.1 ∉ depSet dag.nodes S := by
          have hb : (p.2.type == ActionType.input) = false := by simpa using hti
          unfold keepPre at hkpp
          rw [hb, Bool.or_false] at hkpp
          intro hmem
          rw [contains_iff_mem.mpr hmem] at hkpp
          simp at hkpp
        have hcnd : c ∉ depSet dag.nodes S := hDcl p hpn hnd c hc
        obtain ⟨cn, hcn⟩ := hexF p hpn c hc
        have hckp : keepPre (depSet dag.nodes S) (c, cn) = true := by
          have h1 : ((depSet dag.nodes S).contains c) = false := by
            cases hcb : (depSet dag.nodes S).contains c
            · rfl
            · exact absurd (contains_iff_mem.mp hcb) hcnd
          simp [keepPre, h1]
          exact Or.inl hcnd
        exact List.mem_map.mpr ⟨(c, cn), List.mem_filter.mpr ⟨hcn, hckp⟩, rfl⟩
    obtain ⟨envPF, hpreRun, hPFrows, hPFpres, hPFsome, hPFinput⟩ :=
      execNodes_nojoin_ok B nrows (dag.nodes.filter (keepPre (depSet dag.nodes S))) []
        hprenj
        (fun p hp => halF p (List.mem_of_mem_filter hp))
        (fun p hp => hBF p (List.mem_of_mem_filter hp))
        hprepw
        (fun p hp => hclt p (List.mem_of_mem_filter hp))
        hpreavail
        (fun i v h => by simp [List.lookup] at h)
        (fun p hp => rfl)
    have hkpsT : keepPre (depSet dag.nodes S) (sId, sn) = true := by
      simp [keepPre, hst]
    have hsmemPre : (sId, sn) ∈ dag.nodes.filter (keepPre (depSet dag.nodes S)) :=
      List.mem_filter.mpr ⟨hsmem, hkpsT⟩
    have hsPF : envPF.lookup sId = some scol :=
      hPFinput (sId, sn) hsmemPre hst scol hscol
    have hprenames : ((dag.nodes.filter (keepPre (depSet dag.nodes S))).map
        fun p => p.2.result_name).Nodup :=
      List.Nodup.sublist (List.Sublist.map _ (List.filter_sublist _)) hnames
    have hcellsome : ∀ cell ∈ (indexOfNodes (dag.nodes.filter
        (keepPre (depSet dag.nodes S)))).cells, (envPF.lookup cell.2.id).isSome := by
      intro cell hcell
      have h1 : cell.2 ∈ (indexOfNodes (dag.nodes.filter
          (keepPre (depSet dag.nodes S)))).cells.map Prod.snd :=
        List.mem_map.mpr ⟨cell, hcell, rfl⟩
      rw [indexOfNodes_cells] at h1
      obtain ⟨p, hp, hpe⟩ := List.mem_map.mp h1
      have h2 := hPFsome p hp
      rw [← hpe]
      exact h2
    have hb1out := outCols_eq envPF _ hcellsome
    have hb1eq : ((indexOfNodes (dag.nodes.filter
        (keepPre (depSet dag.nodes S)))).cells.map
        fun cell => (cell.2.result_name, (envPF.lookup cell.2.id).getD [])) =
        (dag.nodes.filter (keepPre (depSet dag.nodes S))).map
          fun p => (p.2.result_name, (envPF.lookup p.1).getD []) := by
      have h1 : ((indexOfNodes (dag.nodes.filter
          (keepPre (depSet dag.nodes S)))).cells.map
          fun cell => (cell.2.result_name, (envPF.lookup cell.2.id).getD [])) =
          ((indexOfNodes (dag.nodes.filter
            (keepPre (depSet dag.nodes S)))).cells.map Prod.snd).map
            fun ptr => (ptr.result_name, (envPF.lookup ptr.id).getD []) := by
        rw [List.map_map]
        rfl
      rw [h1, indexOfNodes_cells, List.map_map]
      rfl
    have hb1s : ((dag.nodes.filter (keepPre (depSet dag.nodes S))).map
        fun p => (p.2.result_name, (envPF.lookup p.1).getD [])).lookup
          sn.result_name = some ((envPF.lookup sId).getD []) :=
      lookup_map_by_name _ (fun p => (envPF.lookup p.1).getD []) sId sn
        hsmemPre hprenames
    have hb1s2 : ((dag.nodes.filter (keepPre (depSet dag.nodes S))).map
        fun p => (p.2.result_name, (envPF.lookup p.1).getD [])).lookup
          sn.result_name = some scol := by
      rw [hb1s, hsPF]
      rfl
    have hAJB : arrayJoinBlock sn.result_name jn.result_name
        ((dag.nodes.filter (keepPre (depSet dag.nodes S))).map
          fun p => (p.2.result_name, (envPF.lookup p.1).getD [])) =
        .ok ((((dag.nodes.filter (keepPre (depSet dag.nodes S))).map
            fun p => (p.2.result_name, (envPF.lookup p.1).getD [])).map
            fun c => (c.1, replRows (scol.map fun v => v.elems.length) c.2)) ++
          [(jn.result_name, (scol.map Val.elems).flatten)],
          (scol.map fun v => v.elems.length).sum) := by
      unfold arrayJoinBlock
      rw [hb1s2]
    have hb2fact : ∀ p ∈ dag.nodes.filter (keepPre (depSet dag.nodes S)), ∀ v,
        envPF.lookup p.1 = some v →
        (((((dag.nodes.filter (keepPre (depSet dag.nodes S))).map
            fun p => (p.2.result_name, (envPF.lookup p.1).getD [])).map
            fun c => (c.1, replRows (scol.map fun v => v.elems.length) c.2)) ++
          [(jn.result_name, (scol.map Val.elems).flatten)]).lookup
            p.2.result_name) =
          some (replRows (scol.map fun v => v.elems.length) v) := by
      intro p hp v hv
      have hmap : ((((dag.nodes.filter (keepPre (depSet dag.nodes S))).map
          fun p => (p.2.result_name, (envPF.lookup p.1).getD [])).map
          fun c => (c.1, replRows (scol.map fun v => v.elems.length) c.2))) =
          (dag.nodes.filter (keepPre (depSet dag.nodes S))).map
            fun q => (q.2.result_name,
              replRows (scol.map fun v => v.elems.length)
                ((envPF.lookup q.1).getD [])) := by
        rw [List.map_map]
        rfl
      refine lookup_append_left_of_some _ _ _ _ ?_
      rw [hmap]
      have hlk := lookup_map_by_name
        (dag.nodes.filter (keepPre (depSet dag.nodes S)))
        (fun q => replRows (scol.map fun v => v.elems.length)
          ((envPF.lookup q.1).getD []))
        p.1 p.2 hp hprenames
      rw [hlk]
      simp only [hv, Option.getD_some]
    have hb2r : (((((dag.nodes.filter (keepPre (depSet dag.nodes S))).map
        fun p => (p.2.result_name, (envPF.lookup p.1).getD [])).map
        fun c => (c.1, replRows (scol.map fun v => v.elems.length) c.2)) ++
        [(jn.result_name, (scol.map Val.elems).flatten)]).lookup jn.result_name) =
        some ((scol.map Val.elems).flatten) := by
      have hkeys : ((((dag.nodes.filter (keepPre (depSet dag.nodes S))).map
          fun p => (p.2.result_name, (envPF.lookup p.1).getD [])).map
          fun c => (c.1, replRows (scol.map fun v => v.elems.length) c.2)).map
            Prod.fst) =
          (dag.nodes.filter (keepPre (depSet dag.nodes S))).map
            fun p => p.2.result_name := by
        simp only [List.map_map]
        rfl
      have hnotin : jn.result_name ∉ (((dag.nodes.filter
          (keepPre (depSet dag.nodes S))).map
          fun p => (p.2.result_name, (envPF.lookup p.1).getD [])).map
          fun c => (c.1, replRows (scol.map fun v => v.elems.length) c.2)).map
            Prod.fst := by
        rw [hkeys]
        intro hmem
        obtain ⟨q, hq, hqe⟩ := List.mem_map.mp hmem
        have hqe2 : q = (jId, jn) :=
          name_unique dag.nodes hnames q (jId, jn)
            (List.mem_of_mem_filter hq) hjmem hqe
        have hqkp := List.of_mem_filter hq
        rw [hqe2, hkpj] at hqkp
        cases hqkp
      rw [lookup_append_right_of_none _ _ _
        (lookup_eq_none_of_not_mem_keys _ _ hnotin)]
      simp [List.lookup]
    have hlenslen : (scol.map fun v => v.elems.length).length = nrows := by
      rw [List.length_map]
      exact hscollen
    obtain ⟨envO', envQ', hO, hQ, hfin⟩ := master_runs dag.nodes
      (depSet dag.nodes S) B
      (((dag.nodes.filter (keepPre (depSet dag.nodes S))).map
          fun p => (p.2.result_name, (envPF.lookup p.1).getD [])).map
          (fun c => (c.1, replRows (scol.map fun v => v.elems.length) c.2)) ++
        [(jn.result_name, (scol.map Val.elems).flatten)])
      nrows (scol.map fun v => v.elems.length) scol jId sId jn sn envPF
      hpw hclt hexF halF honeF hjmem hjt hjch hsmem hst hinj hDj hDcl hBF rfl
      hlenslen hpreRun hsPF hb2fact hb2r
      dag.nodes [] [] [] [] nrows rfl rfl rfl rfl rfl
      (Or.inl ⟨by simp, rfl⟩) (fun p hp => absurd hp (List.not_mem_nil p))
    have hcellO : ∀ cell ∈ dag.index.cells, (envO'.lookup cell.2.id).isSome := by
      intro cell hcell
      obtain ⟨ndc, hndc⟩ := Option.isSome_iff_exists.mp (hidx cell hcell)
      obtain ⟨w, hwO, _⟩ := hfin (cell.2.id, ndc) (mem_of_lookup_eq_some hndc)
      rw [hwO]
      rfl
    have hcellQ : ∀ cell ∈ dag.index.cells, (envQ'.lookup cell.2.id).isSome := by
      intro cell hcell
      obtain ⟨ndc, hndc⟩ := Option.isSome_iff_exists.mp (hidx cell hcell)
      obtain ⟨w, _, hwQ⟩ := hfin (cell.2.id, ndc) (mem_of_lookup_eq_some hndc)
      rw [hwQ]
      rfl
    have houtO := outCols_eq envO' dag.index.cells hcellO
    have houtQ := outCols_eq envQ' dag.index.cells hcellQ
    have houteq : (dag.index.cells.map fun cell =>
        (cell.2.result_name, (envO'.lookup cell.2.id).getD [])) =
        (dag.index.cells.map fun cell =>
          (cell.2.result_name, (envQ'.lookup cell.2.id).getD [])) := by
      refine List.map_congr_left ?_
      intro cell hcell
      obtain ⟨ndc, hndc⟩ := Option.isSome_iff_exists.mp (hidx cell hcell)
      obtain ⟨w, hwO, hwQ⟩ := hfin (cell.2.id, ndc) (mem_of_lookup_eq_some hndc)
      rw [hwO, hwQ]
    obtain ⟨hpreN, hpreI, hpostN, hpostI⟩ := split_eq dag S pre post hsplit
    have hLHS : dag.execDag B nrows = .ok (dag.index.cells.map fun cell =>
        (cell.2.result_name, (envO'.lookup cell.2.id).getD []),
        (scol.map fun v => v.elems.length).sum) := by
      unfold Dag.execDag
      rw [hO]
      show (outCols envO' dag.index.cells).map
        (fun out => (out, (scol.map fun v => v.elems.length).sum)) = _
      rw [houtO]
      rfl
    have hPreDag : pre.execDag B nrows =
        .ok ((dag.nodes.filter (keepPre (depSet dag.nodes S))).map
          fun p => (p.2.result_name, (envPF.lookup p.1).getD []), nrows) := by
      unfold Dag.execDag
      rw [hpreN, hpreI, hpreRun]
      show (outCols envPF (indexOfNodes (dag.nodes.filter
        (keepPre (depSet dag.nodes S)))).cells).map (fun out => (out, nrows)) = _
      rw [hb1out]
      show Except.ok (((indexOfNodes (dag.nodes.filter
        (keepPre (depSet dag.nodes S)))).cells.map
        fun cell => (cell.2.result_name, (envPF.lookup cell.2.id).getD [])),
        nrows) = _
      rw [hb1eq]
    have hRHS : ((pre.execDag B nrows).bind fun r1 =>
        (arrayJoinBlock sn.result_name jn.result_name r1.1).bind fun r2 =>
          post.execDag r2.1 r2.2) = .ok (dag.index.cells.map fun cell =>
        (cell.2.result_name, (envQ'.lookup cell.2.id).getD []),
        (scol.map fun v => v.elems.length).sum) := by
      rw [hPreDag]
      show ((arrayJoinBlock sn.result_name jn.result_name
        ((dag.nodes.filter (keepPre (depSet dag.nodes S))).map
          fun p => (p.2.result_name, (envPF.lookup p.1).getD []))).bind
        fun r2 => post.execDag r2.1 r2.2) = _
      rw [hAJB]
      show post.execDag
        ((((dag.nodes.filter (keepPre (depSet dag.nodes S))).map
            fun p => (p.2.result_name, (envPF.lookup p.1).getD [])).map
            fun c => (c.1, replRows (scol.map fun v => v.elems.length) c.2)) ++
          [(jn.result_name, (scol.map Val.elems).flatten)])
        ((scol.map fun v => v.elems.length).sum) = _
      unfold Dag.execDag
      rw [hpostN, hpostI, hQ]
      show (outCols envQ' dag.index.cells).map
        (fun out => (out, (scol.map fun v => v.elems.length).sum)) = _
      rw [houtQ]
      rfl
    rw [hLHS, hRHS, houteq]
  · intro dag S
    exact split_none_iff dag S

/-- A concrete DAG with one ARRAY JOIN over the input `arr` and one movable
constant column `c`, exposing `e` through its Index. -/
def wDag : Dag :=
  { nodes := [(0, mkInput "arr" (DType.tArr DType.tInt)),
              (1, mkColumn "c" DType.tInt (Val.vInt 7)),
              (2, mkArrayJoin "e" DType.tInt 0)]
    nextNode := 3
    index := ⟨1, [(0, ⟨2, "e"⟩)], [("e", 0)]⟩
    settings := {} }

/-- The pre half `splitActionsBeforeArrayJoin ["arr"]` produces for `wDag`. -/
def wPre : Dag :=
  { nodes := [(0, mkInput "arr" (DType.tArr DType.tInt)),
              (1, mkColumn "c" DType.tInt (Val.vInt 7))]
    nextNode := 3
    index := indexOfNodes [(0, mkInput "arr" (DType.tArr DType.tInt)),
              (1, mkColumn "c" DType.tInt (Val.vInt 7))]
    settings := {} }

/-- The post half `splitActionsBeforeArrayJoin ["arr"]` produces for `wDag`. -/
def wPost : Dag :=
  { nodes := [(0, mkInput "arr" (DType.tArr DType.tInt)),
              (1, mkInput "c" DType.tInt),
              (2, mkInput "e" DType.tInt)]
    nextNode := 3
    index := ⟨1, [(0, ⟨2, "e"⟩)], [("e", 0)]⟩
    settings := {} }

def wB : VBlock := [("arr", [Val.vArr [Val.vInt 1, Val.vInt 2]])]

theorem split_actions_before_array_join_spec_witness :
    wDag.execDag wB 1 =
      (wPre.execDag wB 1).bind fun r1 =>
        (arrayJoinBlock "arr" "e" r1.1).bind fun r2 =>
          wPost.execDag r2.1 r2.2 :=
  split_actions_before_array_join_spec.1 wDag wPre wPost ["arr"] wB 1 2 0
    (mkArrayJoin "e" DType.tInt 0) (mkInput "arr" (DType.tArr DType.tInt))
    [Val.vArr [Val.vInt 1, Val.vInt 2]]
    (by decide) (by decide) (by decide) (by decide) (by decide) (by decide)
    (by decide) rfl rfl rfl rfl rfl (by decide) (by decide) (by decide)
    rfl rfl

end DB
